import Mathlib

/-!
# hwp2md: the HWPX section parser and the table grid builder

A shallow embedding of `internal/parser/hwpx/parser.go`, of the compact prompt of
`internal/llm/prompt.go` and of the constructors of the hosted providers in
`internal/llm/anthropic`, `internal/llm/openai` and `internal/llm/upstage`.

* Go strings are modelled by `String` (the XML decoder only hands out valid UTF-8), a
  `strings.Builder` by the string it holds.
* Go `int` is modelled by `Int`; the two additions of the grid builder that can leave the
  64-bit range (`colIdx + colSpan`, `rowIdx + rowSpan`) go through `wrap64`.
* A Go run-time panic (index out of range, `make` refusing a length) is the `Except.error`
  outcome.
* Slices are lists. The `make` of the pass-2 bitmap panics when the width is negative or
  over `maxAlloc`; a length that `make` accepts is taken to be allocated (the process
  running out of memory is not modelled).
-/

namespace Hwpx

/-! ## Strings -/

/-- Go `unicode.IsSpace`: the Latin-1 spaces and the other code points of `White_Space`. -/
def isSpace (c : Char) : Bool :=
  (0x09 ≤ c.toNat && c.toNat ≤ 0x0D) || c.toNat == 0x20 || c.toNat == 0x85 || c.toNat == 0xA0 ||
  c.toNat == 0x1680 || (0x2000 ≤ c.toNat && c.toNat ≤ 0x200A) || c.toNat == 0x2028 ||
  c.toNat == 0x2029 || c.toNat == 0x202F || c.toNat == 0x205F || c.toNat == 0x3000

/-- Go `strings.TrimSpace` on a list of characters. -/
def trimSpaceChars (cs : List Char) : List Char :=
  ((cs.dropWhile isSpace).reverse.dropWhile isSpace).reverse

/-- Go `strings.TrimSpace`: the string without its leading and trailing white space. -/
def TrimSpace (s : String) : String := String.mk (trimSpaceChars s.data)

/-- Go `strings.ReplaceAll(s, old, new)` for one-character `old` and `new`. -/
def ReplaceAll (s : String) (old new : Char) : String :=
  String.mk (s.data.map (fun c => if c = old then new else c))

/-- The line feed character. -/
def newline : Char := Char.ofNat 10

/-- The space character. -/
def space : Char := Char.ofNat 32

/-! ## Machine integers -/

/-- The value a 64-bit two's complement `int` holds after an operation whose exact result
is `x`. -/
def wrap64 (x : Int) : Int := (x + 2 ^ 63) % 2 ^ 64 - 2 ^ 63

/-- The largest Go `int`. -/
def maxInt : Int := 2 ^ 63 - 1

/-- The smallest Go `int`. -/
def minInt : Int := -(2 ^ 63)

/-! ## Data model (`internal/ir`, as far as the parser uses it) -/

/-- The parser's `cellContext`: the text and the declared spans of a cell being read. -/
structure cellContext where
  text : String
  colSpan : Int
  rowSpan : Int
  deriving DecidableEq, Repr

/-- The IR cell `ir.Cell`. -/
structure Cell where
  Text : String
  ColSpan : Int
  RowSpan : Int
  deriving DecidableEq, Repr

/-- The IR table `ir.TableBlock`. -/
structure TableBlock where
  Rows : Int
  Cols : Int
  Cells : List (List Cell)
  HasHeader : Bool
  deriving DecidableEq, Repr

/-- Modelled from the spec: `ir.NewTable(rows, cols)` is not among the sources. The spec
describes a TableBlock as a dense grid sized rows x cols; what an unpopulated position
holds is not said, so the record `blank` it starts with is a parameter. The header flag
starts unset. -/
def NewTable (blank : Cell) (rows : Nat) (cols : Int) : TableBlock :=
  { Rows := rows, Cols := cols,
    Cells := List.replicate rows (List.replicate cols.toNat blank),
    HasHeader := false }

/-- Modelled from the spec: `(*ir.TableBlock).SetHeaderRow` is not among the sources; it
sets `has_header` (the test of the compact prompt relies on it). -/
def TableBlock.SetHeaderRow (t : TableBlock) : TableBlock := { t with HasHeader := true }

/-! ## The grid builder `buildTable` -/

/-- An occupancy bitmap: one list of flags per table row. -/
abbrev Occupancy := List (List Bool)

/-- The loop `for colIdx < limit && occupied[rowIdx][colIdx] { colIdx++ }`, run on the part
of the occupancy row that starts at `colIdx` (the row has `limit` entries, so the part is
empty exactly when `colIdx >= limit`). -/
def skipOccupied : List Bool → Nat → Nat
  | true :: rest, colIdx => skipOccupied rest (colIdx + 1)
  | _, colIdx => colIdx

/-- The column the cursor rests on after skipping the occupied columns from `colIdx` on. -/
def nextFree (occRow : List Bool) (colIdx : Nat) : Nat :=
  skipOccupied (occRow.drop colIdx) colIdx

/-- The two nested marking loops
`for r := rowIdx; r < rowEnd && r < numRows; r++ { for c := colIdx; c < colEnd && c < limit; c++ { occupied[r][c] = true } }`
on a bitmap of `numRows` rows of `limit` flags. -/
def markOccupied (occ : Occupancy) (rowIdx : Nat) (rowEnd : Int) (colIdx : Nat) (colEnd : Int) :
    Occupancy :=
  occ.mapIdx fun r row =>
    if rowIdx ≤ r ∧ (r : Int) < rowEnd then
      row.mapIdx fun c b => if colIdx ≤ c ∧ (c : Int) < colEnd then true else b
    else row

/-- Pass 1, the inner loop over the cells of one row (`for _, cell := range row`), from
cursor `colIdx`. Returns the bitmap, the running `maxCols` and, as a ghost output that the
computation never reads, the column at which each cell was placed (in input order). -/
def countRow (rowIdx : Nat) : List cellContext → Int → Occupancy → Int →
    Except String (Occupancy × Int × List Nat)
  | [], _, occ, maxCols => .ok (occ, maxCols, [])
  | cell :: rest, colIdx, occ, maxCols =>
    if colIdx < 0 then .error "index out of range"
    else
      let c := nextFree (occ.getD rowIdx []) colIdx.toNat
      if 100 ≤ c then .ok (occ, maxCols, [])
      else
        let next := wrap64 ((c : Int) + cell.colSpan)
        let occ1 := markOccupied occ rowIdx (wrap64 ((rowIdx : Int) + cell.rowSpan)) c next
        match countRow rowIdx rest next occ1 (if next > maxCols then next else maxCols) with
        | .error e => .error e
        | .ok (occ2, m, cols) => .ok (occ2, m, c :: cols)

/-- Pass 1, the outer loop over the rows, from row index `rowIdx`. -/
def countRows : Nat → List (List cellContext) → Occupancy → Int →
    Except String (Occupancy × Int × List (List Nat))
  | _, [], occ, maxCols => .ok (occ, maxCols, [])
  | rowIdx, row :: rest, occ, maxCols =>
    match countRow rowIdx row 0 occ maxCols with
    | .error e => .error e
    | .ok (occ1, m1, cols) =>
      match countRows (rowIdx + 1) rest occ1 m1 with
      | .error e => .error e
      | .ok (occ2, m2, colss) => .ok (occ2, m2, cols :: colss)

/-- Pass 1 on a fresh bitmap of `len(rows)` rows of 100 flags. -/
def countPass (rows : List (List cellContext)) :
    Except String (Occupancy × Int × List (List Nat)) :=
  countRows 0 rows (List.replicate rows.length (List.replicate 100 false)) 0

/-- The width `maxCols` that pass 1 discovers. -/
def countCols (rows : List (List cellContext)) : Except String Int :=
  match countPass rows with
  | .error e => .error e
  | .ok (_, maxCols, _) => .ok maxCols

/-- The assignments to `table.Cells[rowIdx][colIdx]` of pass 2. -/
def writeCell (cells : List (List Cell)) (rowIdx colIdx : Nat) (cell : cellContext) :
    List (List Cell) :=
  cells.mapIdx fun r row =>
    if r = rowIdx then
      row.mapIdx fun c old =>
        if c = colIdx then
          { old with Text := TrimSpace cell.text, ColSpan := cell.colSpan, RowSpan := cell.rowSpan }
        else old
    else row

/-- Pass 2, the inner loop `for colIdx < maxCols && cellIdx < len(row)` over the cells that
remain in one row. Returns the bitmap, the cell grid and, as a ghost output that the
computation never reads, the column at which each cell was written (in input order). -/
def placeRow (rowIdx : Nat) (maxCols : Int) : List cellContext → Int → Occupancy →
    List (List Cell) → Except String (Occupancy × List (List Cell) × List Nat)
  | [], _, occ, cells => .ok (occ, cells, [])
  | cell :: rest, colIdx, occ, cells =>
    if maxCols ≤ colIdx then .ok (occ, cells, [])
    else if colIdx < 0 then .error "index out of range"
    else
      let c := nextFree (occ.getD rowIdx []) colIdx.toNat
      if maxCols ≤ c then .ok (occ, cells, [])
      else
        let cells1 := writeCell cells rowIdx c cell
        let next := wrap64 ((c : Int) + cell.colSpan)
        let occ1 := markOccupied occ rowIdx (wrap64 ((rowIdx : Int) + cell.rowSpan)) c next
        match placeRow rowIdx maxCols rest next occ1 cells1 with
        | .error e => .error e
        | .ok (occ2, cells2, cols) => .ok (occ2, cells2, c :: cols)

/-- Pass 2, the outer loop over the rows, from row index `rowIdx`. -/
def placeRows (maxCols : Int) : Nat → List (List cellContext) → Occupancy →
    List (List Cell) → Except String (Occupancy × List (List Cell) × List (List Nat))
  | _, [], occ, cells => .ok (occ, cells, [])
  | rowIdx, row :: rest, occ, cells =>
    match placeRow rowIdx maxCols row 0 occ cells with
    | .error e => .error e
    | .ok (occ1, cells1, cols) =>
      match placeRows maxCols (rowIdx + 1) rest occ1 cells1 with
      | .error e => .error e
      | .ok (occ2, cells2, colss) => .ok (occ2, cells2, cols :: colss)

/-- The largest length that `make` accepts for a slice of one-byte elements: the runtime's
`maxAlloc`, which is `1 << 48` on the 64-bit platforms with 48 heap address bits (such as
linux/amd64). -/
def maxAlloc : Int := 281474976710656

/-- Pass 2 on a fresh bitmap of `len(rows)` rows of `maxCols` flags and a fresh table. Each
row of the bitmap is made by `make([]bool, maxCols)`, which panics (`makeslice: len out of
range`) when `maxCols` is negative or over `maxAlloc`. A length that `make` accepts is taken
to be allocated: the process running out of memory is not part of the model. -/
def placePass (blank : Cell) (rows : List (List cellContext)) (maxCols : Int) :
    Except String (Occupancy × List (List Cell) × List (List Nat)) :=
  if 0 < rows.length ∧ (maxCols < 0 ∨ maxAlloc < maxCols) then
    .error "makeslice: len out of range"
  else
    placeRows maxCols 0 rows (List.replicate rows.length (List.replicate maxCols.toNat false))
      (NewTable blank rows.length maxCols).Cells

/-- The method `buildTable`: `ok none` is the nil table, `ok (some t)` the table, `error` a
panic. -/
def buildTable (blank : Cell) (rows : List (List cellContext)) : Except String (Option TableBlock) :=
  if rows.length = 0 then .ok none
  else
    match countCols rows with
    | .error e => .error e
    | .ok maxCols =>
      if maxCols = 0 then .ok none
      else
        match placePass blank rows maxCols with
        | .error e => .error e
        | .ok (_, cells, _) =>
          let table := { NewTable blank rows.length maxCols with Cells := cells }
          .ok (some (if rows.length > 1 then table.SetHeaderRow else table))

/-- The columns at which pass 2 writes the cells of each row (the ghost output of the pass
that `buildTable` runs). -/
def placedCols (blank : Cell) (rows : List (List cellContext)) : Except String (List (List Nat)) :=
  match countCols rows with
  | .error e => .error e
  | .ok maxCols =>
    match placePass blank rows maxCols with
    | .error e => .error e
    | .ok (_, _, colss) => .ok colss

/-- A grid of `n` rows of `w` entries each. -/
def Dense {α : Type} (g : List (List α)) (n w : Nat) : Prop :=
  g.length = n ∧ ∀ row ∈ g, row.length = w

/-- The IR cell that pass 2 stores for an input cell: trimmed text, declared spans. -/
def toCell (cell : cellContext) : Cell :=
  { Text := TrimSpace cell.text, ColSpan := cell.colSpan, RowSpan := cell.rowSpan }

/-- The cell record at row `r`, column `c` of a cell grid, if the position exists. -/
def cellAt (cells : List (List Cell)) (r c : Nat) : Option Cell := (cells.getD r [])[c]?

/-- Every cell of the input has `colSpan = rowSpan = 1`. -/
def UnitSpans (rows : List (List cellContext)) : Prop :=
  ∀ row ∈ rows, ∀ cell ∈ row, cell.colSpan = 1 ∧ cell.rowSpan = 1

/-- The length of the longest input row (0 for no rows). -/
def maxRowLen (rows : List (List cellContext)) : Nat :=
  (rows.map List.length).foldr max 0

/-- No flag is set in the rows after `rowIdx`, nor in row `rowIdx` from column `c` on. -/
def FreeFrom (occ : Occupancy) (rowIdx c : Nat) : Prop :=
  ∀ r k : Nat, (rowIdx < r ∨ (r = rowIdx ∧ c ≤ k)) → (occ.getD r [])[k]? ≠ some true

/-- The two bitmaps hold the same flags in the columns below 100 and below `w`. -/
def Agree (occ1 occ2 : Occupancy) (w : Nat) : Prop :=
  ∀ r k : Nat, k < 100 → k < w → (occ1.getD r [])[k]? = (occ2.getD r [])[k]?

/-- Pass 1 returns and has placed every input cell: no row ran into the 100-column limit
of its bitmap. -/
def CountPlacesAll (rows : List (List cellContext)) : Prop :=
  ∃ occ m colss, countPass rows = .ok (occ, m, colss) ∧
    colss.map List.length = rows.map List.length

/-- Position `(r, k)` lies in the footprint of the cell placed at row `r0`, column `c0`: the
positions the marking loops run over. -/
def Covers (r0 c0 : Nat) (cell : cellContext) (r k : Nat) : Prop :=
  (r0 ≤ r ∧ (r : Int) < wrap64 ((r0 : Int) + cell.rowSpan)) ∧
    (c0 ≤ k ∧ (k : Int) < wrap64 ((c0 : Int) + cell.colSpan))

/-- The cell `cell` is the `j0`-th cell of input row `r0` and was placed at column `c0`. -/
def PlacedAt (rows : List (List cellContext)) (colss : List (List Nat)) (r0 j0 c0 : Nat)
    (cell : cellContext) : Prop :=
  ∃ row0 cols0, rows[r0]? = some row0 ∧ colss[r0]? = some cols0 ∧
    row0[j0]? = some cell ∧ cols0[j0]? = some c0

/-- Position `(r, k)` lies in the footprint of a cell placed before the `j`-th cell of row
`r`: a cell of an earlier row, or an earlier cell of row `r`. -/
def CoveredBefore (rows : List (List cellContext)) (colss : List (List Nat)) (r j k : Nat) :
    Prop :=
  ∃ r0 j0 c0 cell, PlacedAt rows colss r0 j0 c0 cell ∧ (r0 < r ∨ (r0 = r ∧ j0 < j)) ∧
    Covers r0 c0 cell r k

/-! ## Nested tables as text: `convertTableToText` -/

/-- The inner loop of `convertTableToText` over the cells that remain in a row; `sb` is the
builder, `i` the index of the next cell in its row. -/
def writeRowText (sb : String) : Nat → List cellContext → String
  | _, [] => sb
  | i, cell :: rest =>
    if TrimSpace cell.text = "" then writeRowText sb (i + 1) rest
    else
      writeRowText ((if i > 0 then sb ++ " | " else sb) ++
        ReplaceAll (TrimSpace cell.text) newline space) (i + 1) rest

/-- The outer loop of `convertTableToText` over the rows that remain. -/
def writeRowsText (sb : String) : List (List cellContext) → String
  | [] => sb
  | row :: rest => writeRowsText (writeRowText sb 0 row ++ "\n") rest

/-- The method `convertTableToText`. -/
def convertTableToText (rows : List (List cellContext)) : String := writeRowsText "" rows

/-- What the loop body writes for one row into an empty builder. -/
def rowText (row : List cellContext) : String := writeRowText "" 0 row

/-- The rendering the specification describes for one row: the non-blank cells, each
trimmed and with its newlines replaced by spaces, joined by `" | "`. -/
def rowTextSpec (row : List cellContext) : String :=
  " | ".intercalate
    (((row.map fun cell => TrimSpace cell.text).filter fun s => s ≠ "").map
      fun s => ReplaceAll s newline space)

/-! ## `fmt.Sscanf(value, "%d", &n)` and `filepath.Ext` -/

/-- The loop `SkipSpace` of package fmt with newlines not counting as space: `none` is the
error "unexpected newline". -/
def skipSpace : List Char → Option (List Char)
  | [] => some []
  | c :: rest =>
    if c = Char.ofNat 13 ∧ rest.head? = some newline then skipSpace rest
    else if c = newline then none
    else if isSpace c then skipSpace rest
    else some (c :: rest)

/-- The value of a run of decimal digits. -/
def digitsValue (ds : List Char) : Int :=
  ds.foldl (fun acc d => 10 * acc + ((d.toNat - 48 : Nat) : Int)) 0

/-- The number `fmt.Sscanf(value, "%d", &n)` stores in an `int`, or `none` when it reports
an error and stores nothing: leading space is skipped, an optional sign and a non-empty run
of decimal digits is read, the value must fit 64 bits; what follows the digits is ignored. -/
def Sscanf (value : String) : Option Int :=
  match skipSpace value.data with
  | none => none
  | some [] => none
  | some (c :: rest) =>
    let body := if c = Char.ofNat 43 ∨ c = Char.ofNat 45 then rest else c :: rest
    let digits := body.takeWhile Char.isDigit
    if digits = [] then none
    else
      let i := if c = Char.ofNat 45 then -digitsValue digits else digitsValue digits
      if minInt ≤ i ∧ i ≤ maxInt then some i else none

/-- The loop of `filepath.Ext` on the reversed path: `acc` holds the characters already
passed, in path order. -/
def extLoop : List Char → List Char → List Char
  | [], _ => []
  | c :: rest, acc =>
    if c = Char.ofNat 47 then []
    else if c = Char.ofNat 46 then c :: acc
    else extLoop rest (c :: acc)

/-- Go `filepath.Ext`: the suffix from the last dot of the last path element, or empty. -/
def Ext (path : String) : String := String.mk (extLoop path.data.reverse [])

/-- Go `strings.TrimPrefix(s, ".")`. -/
def TrimPrefixDot (s : String) : String :=
  match s.data with
  | c :: rest => if c = Char.ofNat 46 then String.mk rest else s
  | [] => s

/-! ## The document (`internal/ir`) -/

/-- The paragraph style `ir.Style`, as far as the sources read it. -/
structure Style where
  HeadingLevel : Int
  IsQuote : Bool
  deriving DecidableEq, Repr

/-- The IR paragraph `ir.Paragraph`. -/
structure Paragraph where
  Text : String
  Style : Style
  deriving DecidableEq, Repr

/-- Modelled from the spec: `ir.NewParagraph(text)` is not among the sources; a new paragraph
is body text (heading level 0) and not a quote. -/
def NewParagraph (text : String) : Paragraph :=
  { Text := text, Style := { HeadingLevel := 0, IsQuote := false } }

/-- Modelled from the spec: `(*ir.Paragraph).IsEmpty` is not among the sources; a paragraph
is empty when its text is empty or consists only of white space. -/
def Paragraph.IsEmpty (p : Paragraph) : Bool := TrimSpace p.Text = ""

/-- The IR image `ir.ImageBlock`. -/
structure ImageBlock where
  ID : String
  Path : String
  Alt : String
  Width : Int
  Height : Int
  Format : String
  Data : Option (List UInt8)
  deriving DecidableEq, Repr

/-- Modelled from the spec: `ir.NewImage(id)` is not among the sources; a new image carries
its id and nothing else. -/
def NewImage (id : String) : ImageBlock :=
  { ID := id, Path := "", Alt := "", Width := 0, Height := 0, Format := "", Data := none }

/-- An item of an IR list. -/
structure ListItem where
  Text : String
  deriving DecidableEq, Repr

/-- The IR list `ir.ListBlock`. -/
structure ListBlock where
  Ordered : Bool
  Items : List ListItem
  deriving DecidableEq, Repr

/-- The tagged union `ir.Block`. -/
inductive Block where
  | Paragraph (p : Paragraph)
  | Table (t : TableBlock)
  | Image (i : ImageBlock)
  | List (l : ListBlock)
  deriving DecidableEq, Repr

/-- The document metadata, as far as the sources read it. -/
structure Metadata where
  Title : String
  Author : String
  deriving DecidableEq, Repr

/-- The IR document `ir.Document`. -/
structure Document where
  Metadata : Metadata
  Content : List Block
  deriving DecidableEq, Repr

/-- Modelled from the spec: `ir.NewDocument()` is not among the sources; a new document has
no blocks. -/
def NewDocument : Document := { Metadata := { Title := "", Author := "" }, Content := [] }

/-- Modelled from the spec: `(*ir.Document).AddParagraph` is not among the sources; it
appends the paragraph as a Block. -/
def Document.AddParagraph (d : Document) (p : Paragraph) : Document :=
  { d with Content := d.Content ++ [Block.Paragraph p] }

/-- Modelled from the spec: `(*ir.Document).AddTable` is not among the sources. The spec has
the table appended as a Block "if the builder yields a table": a nil table adds nothing. -/
def Document.AddTable (d : Document) (t : Option TableBlock) : Document :=
  match t with
  | some table => { d with Content := d.Content ++ [Block.Table table] }
  | none => d

/-- Modelled from the spec: `(*ir.Document).AddImage` is not among the sources; it appends
the image as a Block. -/
def Document.AddImage (d : Document) (i : ImageBlock) : Document :=
  { d with Content := d.Content ++ [Block.Image i] }

/-! ## The section state machine `parseSectionXML` -/

/-- An attribute of a start element: its local name and its value. -/
structure Attr where
  Local : String
  Value : String
  deriving DecidableEq, Repr

/-- A token of the XML decoder; element names are local names. `Other` stands for comments,
processing instructions and directives. -/
inductive Token where
  | StartElement (name : String) (attrs : List Attr)
  | EndElement (name : String)
  | CharData (data : String)
  | Other
  deriving DecidableEq, Repr

/-- What `parseSectionXML` reads of the `Parser`: the option `ExtractImages`, the map
`binData` from asset id to path, and `extractBinData` (the bytes of the archive entry for a
path, `none` when the read reports an error). -/
structure Parser where
  ExtractImages : Bool
  binData : String → Option String
  extractBinData : String → Option (List UInt8)

/-- The `tableState` of a table being parsed. -/
structure tableState where
  rows : List (List cellContext)
  currentRow : List cellContext
  cell : Option cellContext
  deriving DecidableEq, Repr

/-- The local variables of `parseSectionXML` together with the document it mutates.
`reading` is `some (depth, text)` while the call of `readElementText` made for a text run
is consuming tokens, with that call's two local variables. -/
structure ParserState where
  doc : Document
  currentParagraph : Option Paragraph
  tableStack : List tableState
  currentTable : Option tableState
  reading : Option (Nat × String)
  deriving DecidableEq, Repr

/-- The closure `getCurrentCell`. -/
def getCurrentCell (st : ParserState) : Option cellContext :=
  match st.currentTable with
  | some table => table.cell
  | none => none

/-- The routing `if cell != nil { cell.text.WriteString(s) } else { currentParagraph.Text += s }`
(run only while a paragraph is active). -/
def writeText (st : ParserState) (s : String) : ParserState :=
  match st.currentTable with
  | some table =>
    match table.cell with
    | some cell =>
      { st with currentTable := some { table with cell := some { cell with text := cell.text ++ s } } }
    | none =>
      { st with currentParagraph := st.currentParagraph.map fun p => { p with Text := p.Text ++ s } }
  | none =>
    { st with currentParagraph := st.currentParagraph.map fun p => { p with Text := p.Text ++ s } }

/-- The loop over the attributes of a `br` element: the value of the last attribute named
`type`, `"line"` when there is none. -/
def brType (attrs : List Attr) : String :=
  attrs.foldl (fun ty attr => if attr.Local = "type" then attr.Value else ty) "line"

/-- The loop over the attributes of a `cellSpan` element. -/
def applyCellSpan (cell : cellContext) (attrs : List Attr) : cellContext :=
  attrs.foldl (fun cell attr =>
    if attr.Local = "colSpan" then
      match Sscanf attr.Value with
      | some n => { cell with colSpan := n }
      | none => { cell with colSpan := 1 }
    else if attr.Local = "rowSpan" then
      match Sscanf attr.Value with
      | some n => { cell with rowSpan := n }
      | none => { cell with rowSpan := 1 }
    else cell) cell

/-- The method `parseImage`. -/
def parseImage (p : Parser) (attrs : List Attr) : Option ImageBlock :=
  let img := attrs.foldl (fun (img : ImageBlock) attr =>
    if attr.Local = "binItemIDRef" ∨ attr.Local = "binItemId" then
      match p.binData attr.Value with
      | some path => { img with ID := attr.Value, Path := path }
      | none => { img with ID := attr.Value }
    else if attr.Local = "alt" ∨ attr.Local = "descr" then { img with Alt := attr.Value }
    else if attr.Local = "width" then
      match Sscanf attr.Value with
      | some n => { img with Width := n }
      | none => img
    else if attr.Local = "height" then
      match Sscanf attr.Value with
      | some n => { img with Height := n }
      | none => img
    else img) (NewImage "")
  let img :=
    if p.ExtractImages ∧ img.Path ≠ "" then
      match p.extractBinData img.Path with
      | some data => { img with Data := some data, Format := TrimPrefixDot (Ext img.Path) }
      | none => img
    else img
  if img.ID = "" then none else some img

/-- The `xml.StartElement` case of the token switch. -/
def startElement (p : Parser) (st : ParserState) (name : String) (attrs : List Attr) :
    ParserState :=
  if name = "p" then { st with currentParagraph := some (NewParagraph "") }
  else if name = "t" then
    if st.currentParagraph.isSome then { st with reading := some (1, "") } else st
  else if name = "tab" then
    if st.currentParagraph.isSome then writeText st "\t" else st
  else if name = "br" then
    if st.currentParagraph.isSome then
      if brType attrs = "line" then writeText st "\n" else st
    else st
  else if name = "tbl" then
    match st.currentTable with
    | some table =>
      { st with tableStack := st.tableStack ++ [table],
                currentTable := some { rows := [], currentRow := [], cell := none } }
    | none => { st with currentTable := some { rows := [], currentRow := [], cell := none } }
  else if name = "tr" then
    match st.currentTable with
    | some table => { st with currentTable := some { table with currentRow := [] } }
    | none => st
  else if name = "tc" then
    match st.currentTable with
    | some table =>
      { st with
        currentTable := some { table with cell := some { text := "", colSpan := 1, rowSpan := 1 } } }
    | none => st
  else if name = "cellSpan" then
    match st.currentTable with
    | some table =>
      match table.cell with
      | some cell =>
        { st with currentTable := some { table with cell := some (applyCellSpan cell attrs) } }
      | none => st
    | none => st
  else if name = "pic" ∨ name = "img" then
    if p.ExtractImages then
      match parseImage p attrs with
      | some img => { st with doc := st.doc.AddImage img }
      | none => st
    else st
  else st

/-- The `tbl` case of the `xml.EndElement` switch. -/
def endTable (blank : Cell) (st : ParserState) : Except String ParserState :=
  match st.currentTable with
  | some table =>
    if table.rows.length > 0 then
      match st.tableStack.getLast? with
      | some parentTable =>
        let nestedText := convertTableToText table.rows
        let parent :=
          match parentTable.cell with
          | some cell =>
            { parentTable with cell := some { cell with
                text := (if cell.text.length > 0 then cell.text ++ "\n" else cell.text) ++
                  nestedText } }
          | none => parentTable
        .ok { st with tableStack := st.tableStack.dropLast, currentTable := some parent }
      | none =>
        match buildTable blank table.rows with
        | .error e => .error e
        | .ok built => .ok { st with doc := st.doc.AddTable built, currentTable := none }
    else
      match st.tableStack.getLast? with
      | some parentTable =>
        .ok { st with tableStack := st.tableStack.dropLast, currentTable := some parentTable }
      | none => .ok { st with currentTable := none }
  | none =>
    match st.tableStack.getLast? with
    | some parentTable =>
      .ok { st with tableStack := st.tableStack.dropLast, currentTable := some parentTable }
    | none => .ok { st with currentTable := none }

/-- The `xml.EndElement` case of the token switch. -/
def endElement (blank : Cell) (st : ParserState) (name : String) : Except String ParserState :=
  if name = "p" then
    match st.currentParagraph with
    | some para =>
      if ¬ para.IsEmpty then
        match st.currentTable with
        | some table =>
          match table.cell with
          | some cell =>
            .ok { st with
              currentTable := some { table with cell := some { cell with
                text := (if cell.text.length > 0 then cell.text ++ "\n" else cell.text) ++
                  para.Text } },
              currentParagraph := none }
          | none => .ok { st with currentParagraph := none }
        | none => .ok { st with doc := st.doc.AddParagraph para, currentParagraph := none }
      else .ok { st with currentParagraph := none }
    | none => .ok { st with currentParagraph := none }
  else if name = "tc" then
    match st.currentTable with
    | some table =>
      match table.cell with
      | some cell =>
        .ok { st with
          currentTable := some { table with currentRow := table.currentRow ++ [cell], cell := none } }
      | none => .ok st
    | none => .ok st
  else if name = "tr" then
    match st.currentTable with
    | some table =>
      if table.currentRow.length > 0 then
        .ok { st with
          currentTable := some { table with rows := table.rows ++ [table.currentRow], currentRow := [] } }
      else .ok st
    | none => .ok st
  else if name = "tbl" then endTable blank st
  else .ok st

/-- One token inside `readElementText`, with that call's `depth` and `text`; when the
element of the text run ends, the text is routed to the cell or the paragraph. -/
def readElementTextStep (st : ParserState) (depth : Nat) (text : String) (tok : Token) :
    ParserState :=
  match tok with
  | .CharData data => { st with reading := some (depth, text ++ data) }
  | .StartElement name _ =>
    if name = "fwSpace" ∨ name = "hwSpace" then { st with reading := some (depth + 1, text ++ " ") }
    else { st with reading := some (depth + 1, text) }
  | .EndElement _ =>
    if depth - 1 = 0 then writeText { st with reading := none } text
    else { st with reading := some (depth - 1, text) }
  | .Other => st

/-- One token of the decoder: consumed by `readElementText` when a text run is being read,
by the token switch of `parseSectionXML` otherwise. -/
def step (p : Parser) (blank : Cell) (st : ParserState) (tok : Token) : Except String ParserState :=
  match st.reading with
  | some (depth, text) => .ok (readElementTextStep st depth text tok)
  | none =>
    match tok with
    | .StartElement name attrs => .ok (startElement p st name attrs)
    | .EndElement name => endElement blank st name
    | .CharData _ => .ok st
    | .Other => .ok st

/-- The token loop on the tokens the decoder hands out before it reports the end of input
or an error. -/
def runTokens (p : Parser) (blank : Cell) : ParserState → List Token → Except String ParserState
  | st, [] => .ok st
  | st, tok :: rest =>
    match step p blank st tok with
    | .error e => .error e
    | .ok st1 => runTokens p blank st1 rest

/-- The decoder stops handing out tokens: a `readElementText` in progress returns the text
it has (its error is dropped by the caller), which is routed as usual. -/
def endOfTokens (st : ParserState) : ParserState :=
  match st.reading with
  | some (_, text) => writeText { st with reading := none } text
  | none => st

/-- The state in which `parseSectionXML` starts on document `doc`. -/
def initialState (doc : Document) : ParserState :=
  { doc := doc, currentParagraph := none, tableStack := [], currentTable := none, reading := none }

/-- The method `parseSectionXML` on a decoder that hands out `tokens` and then reports the
end of input (`fails = false`) or an error (`fails = true`): the document as mutated, and
whether an error is returned. -/
def parseSectionXML (p : Parser) (blank : Cell) (doc : Document) (tokens : List Token)
    (fails : Bool) : Except String (Document × Bool) :=
  match runTokens p blank (initialState doc) tokens with
  | .error e => .error e
  | .ok st => .ok ((endOfTokens st).doc, fails)

/-- The number of Table blocks of a document. -/
def tableBlocks (doc : Document) : Nat :=
  (doc.Content.filter fun b => match b with
    | .Table _ => true
    | _ => false).length

/-- Every Table block of the document holds a table with at least one row and one column. -/
def TablesNonEmpty (doc : Document) : Prop :=
  ∀ t : TableBlock, Block.Table t ∈ doc.Content → 1 ≤ t.Rows ∧ 1 ≤ t.Cols

/-- The token starts a top-level table: a `tbl` start element handled by the token switch
while no table is open. -/
def startsTopLevelTable (st : ParserState) (tok : Token) : Bool :=
  match tok with
  | .StartElement name _ => name = "tbl" ∧ st.reading = none ∧ st.currentTable = none
  | _ => false

/-- The number of top-level tables that the token loop starts on `tokens` from state `st`. -/
def topLevelTables (p : Parser) (blank : Cell) : ParserState → List Token → Nat
  | _, [] => 0
  | st, tok :: rest =>
    (if startsTopLevelTable st tok then 1 else 0) +
      match step p blank st tok with
      | .error _ => 0
      | .ok st1 => topLevelTables p blank st1 rest

/-- The number of tables open in a state: those on the stack and the current one. -/
def openTables (st : ParserState) : Nat :=
  st.tableStack.length + (if st.currentTable.isSome then 1 else 0)

/-! ## Text runs, blank text and image attributes (vocabulary of the statements) -/

/-- The text is empty or consists only of white space. -/
def Blank (s : String) : Prop := ∀ c ∈ s.data, isSpace c = true

/-- The depth at which `readElementText`, entered at depth `d`, stands after the tokens
`content`; `none` when the element being read ends inside `content`. -/
def runDepth : Nat → List Token → Option Nat
  | d, [] => some d
  | d, .StartElement _ _ :: rest => runDepth (d + 1) rest
  | d, .EndElement _ :: rest => if d - 1 = 0 then none else runDepth (d - 1) rest
  | d, .CharData _ :: rest => runDepth d rest
  | d, .Other :: rest => runDepth d rest

/-- The text of a text run with content `content`: its character data, with one space for
every `fwSpace` or `hwSpace` element. -/
def runText : List Token → String
  | [] => ""
  | .CharData data :: rest => data ++ runText rest
  | .StartElement name _ :: rest =>
    (if name = "fwSpace" ∨ name = "hwSpace" then " " else "") ++ runText rest
  | .EndElement _ :: rest => runText rest
  | .Other :: rest => runText rest

/-- The token is character data, a comment, or the start or end of an element that is no
paragraph, table, row, cell, cell-span or image element: the tokens of the content of a text
run that holds text and inline marks only. -/
def isInlineToken : Token → Bool
  | .CharData _ => true
  | .Other => true
  | .StartElement name _ =>
    name ≠ "p" ∧ name ≠ "tbl" ∧ name ≠ "tr" ∧ name ≠ "tc" ∧ name ≠ "cellSpan" ∧ name ≠ "pic" ∧
      name ≠ "img"
  | .EndElement name => name ≠ "p" ∧ name ≠ "tc" ∧ name ≠ "tr" ∧ name ≠ "tbl"

/-- The attribute names the binary-item identifier of an image. -/
def isIdAttr (a : Attr) : Bool := a.Local = "binItemIDRef" ∨ a.Local = "binItemId"

/-- The attribute carries the alternative text of an image. -/
def isAltAttr (a : Attr) : Bool := a.Local = "alt" ∨ a.Local = "descr"

/-- The value of the last attribute that satisfies `pred`, the empty string if there is
none. -/
def lastValue (pred : Attr → Bool) (attrs : List Attr) : String :=
  (((attrs.filter pred).getLast?).map fun a => a.Value).getD ""

/-- The number that `Sscanf` reads from the last attribute named `name` from which it reads
one, 0 if there is none. -/
def lastInt (name : String) (attrs : List Attr) : Int :=
  ((((attrs.filter fun a => a.Local = name).filterMap fun a => Sscanf a.Value)).getLast?).getD 0

/-- The asset path of the last identifier attribute whose value is in the asset index, the
empty string if there is none. -/
def lastPath (p : Parser) (attrs : List Attr) : String :=
  ((((attrs.filter isIdAttr).filterMap fun a => p.binData a.Value)).getLast?).getD ""

/-- The loop of `parseImage` over the attributes. -/
def parseImageLoop (p : Parser) (attrs : List Attr) : ImageBlock :=
  attrs.foldl (fun (img : ImageBlock) attr =>
    if attr.Local = "binItemIDRef" ∨ attr.Local = "binItemId" then
      match p.binData attr.Value with
      | some path => { img with ID := attr.Value, Path := path }
      | none => { img with ID := attr.Value }
    else if attr.Local = "alt" ∨ attr.Local = "descr" then { img with Alt := attr.Value }
    else if attr.Local = "width" then
      match Sscanf attr.Value with
      | some n => { img with Width := n }
      | none => img
    else if attr.Local = "height" then
      match Sscanf attr.Value with
      | some n => { img with Height := n }
      | none => img
    else img) (NewImage "")

/-- Every Paragraph block of the document has text that is not blank. -/
def ParagraphsNonBlank (doc : Document) : Prop :=
  ∀ para : Paragraph, Block.Paragraph para ∈ doc.Content → ¬ Blank para.Text

/-! ## Sample parsers for the image scenarios -/

/-- The asset index of the scenario: `img1` is at `BinData/image1.png`. -/
def indexImg1 (id : String) : Option String :=
  if id = "img1" then some "BinData/image1.png" else none

/-- A parser with image extraction on, the index `indexImg1`, and no readable asset. -/
def parserImg1 : Parser := ⟨true, indexImg1, fun _ => none⟩

/-- A parser with image extraction on and an empty asset index. -/
def parserNoIndex : Parser := ⟨true, fun _ => none, fun _ => none⟩

/-! ## Strings, paths and sorting (`strings`, `path/filepath`, `sort`) -/

/-- Go `strings.HasPrefix`. A Go string is a byte string; on valid UTF-8 a prefix in bytes
is a prefix in characters, which is what the model compares. -/
def HasPrefix (s pre : String) : Bool := pre.data.isPrefixOf s.data

/-- Go `strings.HasSuffix`. -/
def HasSuffix (s suf : String) : Bool := suf.data.isSuffixOf s.data

/-- The search of `strings.Contains` on the characters. -/
def containsChars : List Char → List Char → Bool
  | [], sub => sub.isPrefixOf []
  | c :: rest, sub => sub.isPrefixOf (c :: rest) || containsChars rest sub

/-- Go `strings.Contains`. -/
def Contains (s substr : String) : Bool := containsChars s.data substr.data

/-- Go `strings.TrimSuffix`. -/
def TrimSuffix (s suf : String) : String :=
  if HasSuffix s suf then String.mk (s.data.take (s.data.length - suf.data.length)) else s

/-- The tables of package `unicode` for the runes from U+0080 on: `ToLower r`, and whether
the `SimpleFold` orbit walked from the smaller rune `sr` reaches the larger rune `tr`. For
the ASCII runes the functions below compute what Go computes. -/
structure Unicode where
  ToLower : Char → Char
  FoldsTo : Char → Char → Bool

/-- Go `unicode.ToLower` on one rune. -/
def toLowerRune (u : Unicode) (c : Char) : Char :=
  if c.toNat < 128 then
    if 65 ≤ c.toNat ∧ c.toNat ≤ 90 then Char.ofNat (c.toNat + 32) else c
  else u.ToLower c

/-- Go `strings.ToLower`. -/
def ToLower (u : Unicode) (s : String) : String := String.mk (s.data.map (toLowerRune u))

/-- One pair of runes in `strings.EqualFold`. -/
def equalFoldRune (u : Unicode) (a b : Char) : Bool :=
  if a = b then true
  else
    let sr := if b.toNat < a.toNat then b else a
    let tr := if b.toNat < a.toNat then a else b
    if tr.toNat < 128 then decide (65 ≤ sr.toNat ∧ sr.toNat ≤ 90 ∧ tr.toNat = sr.toNat + 32)
    else u.FoldsTo sr tr

/-- The loop of `strings.EqualFold`. -/
def equalFoldChars (u : Unicode) : List Char → List Char → Bool
  | [], [] => true
  | a :: s, b :: t => equalFoldRune u a b && equalFoldChars u s t
  | _ :: _, [] => false
  | [], _ :: _ => false

/-- Go `strings.EqualFold`. -/
def EqualFold (u : Unicode) (s t : String) : Bool := equalFoldChars u s.data t.data

/-- Go `filepath.Base` with the separator `/`. -/
def Base (path : String) : String :=
  if path.data = [] then "."
  else
    let stripped := (path.data.reverse.dropWhile fun c => c = Char.ofNat 47).reverse
    let last := (stripped.reverse.takeWhile fun c => c ≠ Char.ofNat 47).reverse
    if last = [] then "/" else String.mk last

/-- The order `<` of Go strings on the characters: lexicographic by code point (the order
of the UTF-8 bytes). -/
def lessChars : List Char → List Char → Bool
  | _, [] => false
  | [], _ :: _ => true
  | a :: s, b :: t => decide (a.toNat < b.toNat) || (decide (a.toNat = b.toNat) && lessChars s t)

/-- The order `<` of Go strings. -/
def less (s t : String) : Bool := lessChars s.data t.data

/-- Insertion of a string into a sorted list, after the entries that are smaller. -/
def insertString (s : String) : List String → List String
  | [] => [s]
  | t :: rest => if less t s then t :: insertString s rest else s :: t :: rest

/-- Go `sort.Strings`, as a function: the list in ascending order. The order of Go strings
is total and equal strings are indistinguishable, so the sorted list does not depend on the
sorting algorithm; the model sorts by insertion. -/
def sortStrings : List String → List String
  | [] => []
  | s :: rest => insertString s (sortStrings rest)

/-- The list is in ascending order: no entry is greater than a later one. -/
def StringsSorted (l : List String) : Prop := l.Pairwise fun a b => less b a = false

/-! ## The container resolver and `Parse` -/

/-- An item of the manifest (`Manifest.Items`). -/
structure ManifestItem where
  ID : String
  Href : String
  MediaType : String
  deriving DecidableEq, Repr

/-- The type `Manifest` as far as `parser.go` reads it: its items, and the metadata that
`ToMetadata` returns (`manifest.go` is not among the sources). -/
structure Manifest where
  Items : List ManifestItem
  Metadata : Metadata
  deriving DecidableEq, Repr

/-- Modelled from the spec: `(*Manifest).ToMetadata` is not among the sources; it returns
the metadata of the manifest. -/
def Manifest.ToMetadata (m : Manifest) : Hwpx.Metadata := m.Metadata

/-- An entry `zip.File` of the archive, with what the parser can get from it: whether
`Open` succeeds, the bytes `io.ReadAll` reads (`none` for a read error), the manifest
`ParseManifest` makes of these bytes (`none` for its error), and the tokens an
`xml.Decoder` on the entry hands out, with whether they end in an error instead of
`io.EOF`. -/
structure File where
  Name : String
  Open : Bool
  Data : Option (List UInt8)
  Manifest : Option Manifest
  Tokens : List Token × Bool

/-- The struct `Parser` after `New`: the entries of `reader`, the option `ExtractImages`,
and the parsed data `manifest`, `sections` and `binData`. -/
structure Resolver where
  reader : List File
  ExtractImages : Bool
  manifest : Option Manifest
  sections : List String
  binData : String → Option String

/-- The assignment `p.binData[id] = path`. -/
def setBinData (binData : String → Option String) (id path : String) : String → Option String :=
  fun k => if k = id then some path else binData k

/-- The search for the manifest entry in `parseManifest`. -/
def findManifestFile (u : Unicode) (files : List File) : Option File :=
  match files.find? fun f => EqualFold u f.Name "Contents/content.hpf" with
  | some f => some f
  | none => files.find? fun f => EqualFold u f.Name "content.hpf"

/-- The normalized href of a manifest item in `parseManifest`. -/
def normalizedHref (item : ManifestItem) : String :=
  if ¬ HasPrefix item.Href "/" ∧ ¬ HasPrefix item.Href "Contents/" then
    if HasSuffix item.MediaType "xml" ∧ Contains item.ID "section" then "Contents/" ++ item.Href
    else item.Href
  else item.Href

/-- One iteration of the loop over the manifest items in `parseManifest`. -/
def manifestItemStep (u : Unicode) (acc : List String × (String → Option String))
    (item : ManifestItem) : List String × (String → Option String) :=
  let href := normalizedHref item
  let sections := if Contains (ToLower u item.ID) "section" then acc.1 ++ [href] else acc.1
  let binData := if HasPrefix item.Href "BinData/" then setBinData acc.2 item.ID item.Href else acc.2
  (sections, binData)

/-- One iteration of the loop over the entries in `findSectionsWithoutManifest`. -/
def fileStep (acc : List String × (String → Option String)) (f : File) :
    List String × (String → Option String) :=
  let sections :=
    if Contains f.Name "section" ∧ HasSuffix f.Name ".xml" then acc.1 ++ [f.Name] else acc.1
  let binData :=
    if HasPrefix f.Name "BinData/" then
      setBinData acc.2 (TrimSuffix (Base f.Name) (Ext (Base f.Name))) f.Name
    else acc.2
  (sections, binData)

/-- The method `findSectionsWithoutManifest`; it returns no error. -/
def findSectionsWithoutManifest (p : Resolver) : Resolver :=
  let acc := p.reader.foldl fileStep (p.sections, p.binData)
  { p with sections := sortStrings acc.1, binData := acc.2 }

/-- The method `parseManifest`; `none` stands for the error it returns. -/
def parseManifest (u : Unicode) (p : Resolver) : Option Resolver :=
  match findManifestFile u p.reader with
  | none => some (findSectionsWithoutManifest p)
  | some manifestFile =>
    if manifestFile.Open = false then none
    else
      match manifestFile.Data with
      | none => none
      | some _ =>
        match manifestFile.Manifest with
        | none => none
        | some manifest =>
          let acc := manifest.Items.foldl (manifestItemStep u) (p.sections, p.binData)
          some { p with manifest := some manifest, sections := sortStrings acc.1, binData := acc.2 }

/-- The function `New` on the archive that `zip.OpenReader` returns (`none` for its error)
and the option `ExtractImages`; `none` stands for the error `New` returns. -/
def New (u : Unicode) (archive : Option (List File)) (extractImages : Bool) : Option Resolver :=
  match archive with
  | none => none
  | some files =>
    parseManifest u
      { reader := files, ExtractImages := extractImages, manifest := none, sections := [],
        binData := fun _ => none }

/-- The first entry that `parseSection` and `extractBinData` take for a path. -/
def findFile (u : Unicode) (files : List File) (path : String) : Option File :=
  files.find? fun f => EqualFold u f.Name path || HasSuffix f.Name path

/-- The method `extractBinData`; `none` stands for the error it returns. -/
def extractBinData (u : Unicode) (files : List File) (path : String) : Option (List UInt8) :=
  match findFile u files path with
  | some f => if f.Open = false then none else f.Data
  | none => none

/-- What `parseSectionXML` reads of the parser. -/
def Resolver.toParser (u : Unicode) (p : Resolver) : Parser :=
  { ExtractImages := p.ExtractImages, binData := p.binData,
    extractBinData := extractBinData u p.reader }

/-- The method `parseSection`: `.error` is a panic, `.ok none` the error it returns, and
`.ok (some doc)` the document as mutated when it returns no error. -/
def parseSection (u : Unicode) (blank : Cell) (p : Resolver) (doc : Document)
    (sectionPath : String) : Except String (Option Document) :=
  match findFile u p.reader sectionPath with
  | none => .ok none
  | some sectionFile =>
    if sectionFile.Open = false then .ok none
    else
      match parseSectionXML (p.toParser u) blank doc sectionFile.Tokens.1 sectionFile.Tokens.2 with
      | .error e => .error e
      | .ok (doc1, fails) => if fails = true then .ok none else .ok (some doc1)

/-- The loop of `Parse` over the sections. -/
def parseSections (u : Unicode) (blank : Cell) (p : Resolver) :
    Document → List String → Except String (Option Document)
  | doc, [] => .ok (some doc)
  | doc, sectionPath :: rest =>
    match parseSection u blank p doc sectionPath with
    | .error e => .error e
    | .ok none => .ok none
    | .ok (some doc1) => parseSections u blank p doc1 rest

/-- The method `Parse`: `.error` is a panic, `.ok none` the return of `nil` and an error,
`.ok (some doc)` the return of the document and no error. -/
def Parse (u : Unicode) (blank : Cell) (p : Resolver) : Except String (Option Document) :=
  let doc :=
    match p.manifest with
    | some manifest => { NewDocument with Metadata := manifest.ToMetadata }
    | none => NewDocument
  parseSections u blank p doc p.sections

/-- The blocks of one section: what `parseSection` appends to an empty document. -/
def sectionBlocks (u : Unicode) (blank : Cell) (p : Resolver) (sectionPath : String) :
    Except String (Option (List Block)) :=
  match parseSection u blank p NewDocument sectionPath with
  | .error e => .error e
  | .ok none => .ok none
  | .ok (some doc) => .ok (some doc.Content)

/-- The section paths classified by the resolver, in the order of classification: of the
manifest items when there is a readable manifest, of the entry names otherwise. -/
def classifiedSections (u : Unicode) (files : List File) : List String :=
  match findManifestFile u files with
  | some manifestFile =>
    match manifestFile.Manifest with
    | some manifest =>
      (manifest.Items.filter fun item => Contains (ToLower u item.ID) "section").map normalizedHref
    | none => []
  | none =>
    (files.filter fun f => Contains f.Name "section" && HasSuffix f.Name ".xml").map
      fun f => f.Name

/-- The document `doc` with the blocks of `doc0` before its own, and the metadata of
`doc0`. -/
def prependDoc (doc0 doc : Document) : Document :=
  { Metadata := doc0.Metadata, Content := doc0.Content ++ doc.Content }

/-- The parser state with the blocks of `doc0` before those of its document. -/
def prependState (doc0 : Document) (st : ParserState) : ParserState :=
  { st with doc := prependDoc doc0 st.doc }

/-- The outcome of a method that mutates the document, with the blocks of `doc0` put before
the blocks of the document. -/
def prependOutcome (doc0 : Document) :
    Except String (Option Document) → Except String (Option Document)
  | .error e => .error e
  | .ok none => .ok none
  | .ok (some doc) => .ok (some (prependDoc doc0 doc))

/-- Unicode tables that fold nothing and lower nothing beyond ASCII, for the evaluation of
ASCII examples. -/
def asciiOnly : Unicode := ⟨fun c => c, fun _ _ => false⟩

/-- A manifest with the one item of the scenario: id `Section0`, href `section0.xml`, media
type `application/xml`. -/
def manifestSection0 : Manifest :=
  ⟨[⟨"Section0", "section0.xml", "application/xml"⟩], ⟨"", ""⟩⟩

/-! ## Sample packages -/

/-- The tokens of a paragraph with one text run. -/
def paragraphTokens (text : String) : List Token :=
  [.StartElement "p" [], .StartElement "t" [], .CharData text, .EndElement "t", .EndElement "p"]

/-- A package whose manifest has the item `Section0` of the scenario, with the section entry
at `Contents/section0.xml`. -/
def packageSection0 : List File :=
  [⟨"Contents/content.hpf", true, some [], some manifestSection0, ([], false)⟩,
    ⟨"Contents/section0.xml", true, some [], none, (paragraphTokens "A", false)⟩]

/-- A package without a manifest and with two sections, stored in descending order of their
names. -/
def packageTwoSections : List File :=
  [⟨"Contents/section1.xml", true, some [], none, (paragraphTokens "B", false)⟩,
    ⟨"Contents/section0.xml", true, some [], none, (paragraphTokens "A", false)⟩]

/-- The parser that `New` makes of `packageTwoSections`. -/
def resolverTwoSections : Resolver :=
  findSectionsWithoutManifest ⟨packageTwoSections, false, none, [], fun _ => none⟩

/-- A manifest with two section items. -/
def manifestTwoSections : Manifest :=
  ⟨[⟨"section0", "Contents/section0.xml", "application/xml"⟩,
    ⟨"section1", "Contents/section1.xml", "application/xml"⟩], ⟨"", ""⟩⟩

/-- A package whose manifest names two sections and that holds only the first. -/
def packageMissingSection : List File :=
  [⟨"Contents/content.hpf", true, some [], some manifestTwoSections, ([], false)⟩,
    ⟨"Contents/section0.xml", true, some [], none, (paragraphTokens "A", false)⟩]

/-- The parser that `New` makes of `packageMissingSection`. -/
def resolverMissingSection : Resolver :=
  ⟨packageMissingSection, false, some manifestTwoSections,
    ["Contents/section0.xml", "Contents/section1.xml"], fun _ => none⟩

/-- A package without a manifest and without a section. -/
def packageNoSections : List File :=
  [⟨"mimetype", true, some [], none, ([], false)⟩]

/-! ## Cell spans and table nesting (vocabulary of the statements) -/

/-- The span that the loop over the attributes of a `cellSpan` element leaves in a field
that held `old`: with no attribute named `name` the field keeps `old`; otherwise the last
such attribute decides, with the number `Sscanf` reads from its value, or 1 when `Sscanf`
reports an error. -/
def lastSpan (name : String) (old : Int) (attrs : List Attr) : Int :=
  match (attrs.filter fun a => a.Local = name).getLast? with
  | none => old
  | some a => (Sscanf a.Value).getD 1

/-- The tokens of a table with one row of two empty cells, the first with the span element
`colSpan="-1"`. -/
def tokensNegativeSpan : List Token :=
  [.StartElement "tbl" [], .StartElement "tr" [], .StartElement "tc" [],
    .StartElement "cellSpan" [⟨"colSpan", "-1"⟩], .EndElement "cellSpan", .EndElement "tc",
    .StartElement "tc" [], .EndElement "tc", .EndElement "tr", .EndElement "tbl"]

/-- The token is a table-start event: a `tbl` start element handled by the token switch
(not consumed by `readElementText`). -/
def isTableStart (st : ParserState) (tok : Token) : Bool :=
  match tok with
  | .StartElement name _ => name = "tbl" ∧ st.reading = none
  | _ => false

/-- The token is a table-end event: a `tbl` end element handled by the token switch. -/
def isTableEnd (st : ParserState) (tok : Token) : Bool :=
  match tok with
  | .EndElement name => name = "tbl" ∧ st.reading = none
  | _ => false

/-- The number of tables open after the token loop has handled `tokens` from state `st`,
where `d` tables are open: every table-start event adds one, every table-end event takes
one away. `none` when the table events are not well nested (a table-end event comes while
no table is open) or when the loop panics. -/
def tableDepth (p : Parser) (blank : Cell) : Nat → ParserState → List Token → Option Nat
  | d, _, [] => some d
  | d, st, tok :: rest =>
    if isTableEnd st tok = true ∧ d = 0 then none
    else
      match step p blank st tok with
      | .error _ => none
      | .ok st1 =>
        tableDepth p blank
          (if isTableStart st tok = true then d + 1
            else if isTableEnd st tok = true then d - 1 else d) st1 rest

/-- Pass 1 discovers width `w` and places every cell of every row: the columns `colss`. -/
def CountPlaces (rows : List (List cellContext)) (w : Int) (colss : List (List Nat)) : Prop :=
  (∃ occ, countPass rows = .ok (occ, w, colss)) ∧ colss.map List.length = rows.map List.length

/-! ## The compact prompt (`internal/llm/prompt.go`) -/

/-- The function `writeParagraphPrompt`; `sb` is the builder. -/
def writeParagraphPrompt (sb : String) (p : Paragraph) : String :=
  let sb1 :=
    if p.Style.HeadingLevel > 0 then sb ++ ("[제목 " ++ toString p.Style.HeadingLevel ++ "] ")
    else sb
  let sb2 := if p.Style.IsQuote = true then sb1 ++ "[인용] " else sb1
  sb2 ++ p.Text ++ "\n"

/-- The inner loop of `writeTablePrompt` over the cells that remain in a row; `j` is the
index of the next cell. -/
def writeCells (sb : String) : Nat → List Cell → String
  | _, [] => sb
  | j, cell :: rest =>
    writeCells ((if j > 0 then sb ++ " | " else sb) ++ ReplaceAll cell.Text newline space)
      (j + 1) rest

/-- The outer loop of `writeTablePrompt` over the rows that remain; `i` is the index of the
next row. -/
def writeTableRows (hasHeader : Bool) (sb : String) : Nat → List (List Cell) → String
  | _, [] => sb
  | i, row :: rest =>
    writeTableRows hasHeader
      (writeCells (if i = 0 ∧ hasHeader = true then sb ++ "헤더: " else sb) 0 row ++ "\n")
      (i + 1) rest

/-- The function `writeTablePrompt`. -/
def writeTablePrompt (sb : String) (t : TableBlock) : String :=
  writeTableRows t.HasHeader (sb ++ "[표]\n") 0 t.Cells

/-- The function `writeImagePrompt`. -/
def writeImagePrompt (sb : String) (img : ImageBlock) : String :=
  let alt := if img.Alt = "" then img.ID else img.Alt
  sb ++ ("[이미지: " ++ alt ++ ", 경로: " ++ img.Path ++ "]\n")

/-- The function `writeListPrompt`. -/
def writeListPrompt (sb : String) (l : ListBlock) : String :=
  let listType := if l.Ordered = true then "순서있는" else "순서없는"
  l.Items.foldl (fun sb item => sb ++ ("- " ++ item.Text ++ "\n"))
    (sb ++ ("[" ++ listType ++ " 목록]\n"))

/-- One iteration of the loop of `BuildCompactPrompt` over the blocks; `i` is the index of
the block. A block of the model always carries its content (the pointer of the Go block is
not nil). -/
def writeBlock (sb : String) (i : Nat) (block : Block) : String :=
  let sb1 := if i > 0 then sb ++ "\n" else sb
  match block with
  | .Paragraph p => writeParagraphPrompt sb1 p
  | .Table t => writeTablePrompt sb1 t
  | .Image img => writeImagePrompt sb1 img
  | .List l => writeListPrompt sb1 l

/-- The loop of `BuildCompactPrompt` over the blocks that remain. -/
def writeBlocks (sb : String) : Nat → List Block → String
  | _, [] => sb
  | i, block :: rest => writeBlocks (writeBlock sb i block) (i + 1) rest

/-- The part of `BuildCompactPrompt` before the loop over the blocks: the heading line and
the metadata. -/
def promptHeader (md : Metadata) : String :=
  let sb := "다음 문서를 Markdown으로 변환:\n\n"
  let sb1 := if md.Title ≠ "" then sb ++ ("제목: " ++ md.Title ++ "\n") else sb
  let sb2 := if md.Author ≠ "" then sb1 ++ ("작성자: " ++ md.Author ++ "\n") else sb1
  if md.Title ≠ "" ∨ md.Author ≠ "" then sb2 ++ "\n---\n\n" else sb2

/-- The function `BuildCompactPrompt`. -/
def BuildCompactPrompt (doc : Document) : String :=
  writeBlocks (promptHeader doc.Metadata) 0 doc.Content

/-- The line of the compact prompt for a grid row: the cell texts, each with its newlines
replaced by spaces, joined by `" | "`. -/
def rowLine (row : List Cell) : String :=
  " | ".intercalate (row.map fun cell => ReplaceAll cell.Text newline space)

/-- The lines of the compact prompt for grid rows, each followed by its newline. -/
def rowsLines : List (List Cell) → String
  | [] => ""
  | row :: rest => rowLine row ++ "\n" ++ rowsLines rest

/-- The lines of the compact prompt for the rows of a grid, each followed by its newline;
the first line, and only the first, starts with the header mark when `hasHeader` is set. -/
def tableLines (hasHeader : Bool) : List (List Cell) → String
  | [] => ""
  | first :: rest =>
    (if hasHeader = true then "헤더: " else "") ++ rowLine first ++ "\n" ++ rowsLines rest

/-- The line of the compact prompt for an image, without its newline. -/
def imageLine (img : ImageBlock) : String :=
  "[이미지: " ++ (if img.Alt = "" then img.ID else img.Alt) ++ ", 경로: " ++ img.Path ++ "]"

/-- The string has no newline. -/
def OneLine (s : String) : Prop := newline ∉ s.data

/-- The string ends with a newline. -/
def EndsWithNewline (s : String) : Prop := s.data.getLast? = some newline

/-- The table of the test of the compact prompt: two rows of two cells, with header. -/
def tableA1B2 : TableBlock :=
  { Rows := 2, Cols := 2,
    Cells := [[⟨"A1", 1, 1⟩, ⟨"B1", 1, 1⟩], [⟨"A2", 1, 1⟩, ⟨"B2", 1, 1⟩]],
    HasHeader := true }

/-- The image of the test of the compact prompt. -/
def imageTest : ImageBlock :=
  { ID := "img001", Path := "images/test.png", Alt := "테스트 이미지", Width := 0, Height := 0,
    Format := "", Data := none }

/-! ## The hosted LLM providers (`internal/llm/anthropic`, `openai`, `upstage`) -/

/-- The constant `time.Second`, in nanoseconds. -/
def Second : Int := 1000000000

namespace Anthropic

/-- The type `Config` of the Anthropic provider. -/
structure Config where
  APIKey : String
  Model : String
  BaseURL : String
  Timeout : Int
  deriving DecidableEq, Repr

/-- The client that `anthropic.NewClient(opts...)` makes, as the options it was given: the
API key and, if one was given, the base URL. -/
structure Client where
  APIKey : String
  BaseURL : Option String
  deriving DecidableEq, Repr

/-- The type `Provider` of the Anthropic provider. -/
structure Provider where
  client : Client
  model : String
  apiKey : String
  timeout : Int
  deriving DecidableEq, Repr

/-- The constant `DefaultModel`. -/
def DefaultModel : String := "claude-3-5-sonnet-20241022"

/-- The function `New`, with the environment as the input `getenv` (`os.Getenv`, which gives
the empty string for a variable that is not set); `.error` is the error returned. -/
def New (getenv : String → String) (cfg : Config) : Except String Provider :=
  let apiKey := if cfg.APIKey = "" then getenv "ANTHROPIC_API_KEY" else cfg.APIKey
  if apiKey = "" then
    .error "Anthropic API key not configured (set ANTHROPIC_API_KEY or provide via config)"
  else
    let model := if cfg.Model = "" then DefaultModel else cfg.Model
    let timeout := if cfg.Timeout = 0 then 60 * Second else cfg.Timeout
    .ok { client := ⟨apiKey, if cfg.BaseURL ≠ "" then some cfg.BaseURL else none⟩,
          model := model, apiKey := apiKey, timeout := timeout }

/-- The method `Validate`: `none` is the nil error. -/
def Validate (p : Provider) : Option String :=
  if p.apiKey = "" then some "Anthropic API key not set" else none

end Anthropic

namespace Openai

/-- The type `Config` of the OpenAI provider. -/
structure Config where
  APIKey : String
  Model : String
  BaseURL : String
  Timeout : Int
  deriving DecidableEq, Repr

/-- The client that `goopenai.NewClientWithConfig(config)` makes, as the fields of the
configuration that the provider sets: the token and the base URL. -/
structure Client where
  authToken : String
  BaseURL : String
  deriving DecidableEq, Repr

/-- The type `Provider` of the OpenAI provider; `client` is a pointer. -/
structure Provider where
  client : Option Client
  model : String
  apiKey : String
  timeout : Int
  deriving DecidableEq, Repr

/-- The constant `DefaultModel`. -/
def DefaultModel : String := "gpt-4o-mini"

/-- The base URL that `goopenai.DefaultConfig` sets. -/
def defaultBaseURL : String := "https://api.openai.com/v1"

/-- The function `New`, with the environment as the input `getenv`; `.error` is the error
returned. `goopenai.NewClientWithConfig` returns a pointer that is not nil. -/
def New (getenv : String → String) (cfg : Config) : Except String Provider :=
  let apiKey := if cfg.APIKey = "" then getenv "OPENAI_API_KEY" else cfg.APIKey
  if apiKey = "" then
    .error "OpenAI API key not configured (set OPENAI_API_KEY or provide via config)"
  else
    let model := if cfg.Model = "" then DefaultModel else cfg.Model
    let timeout := if cfg.Timeout = 0 then 180 * Second else cfg.Timeout
    let baseURL := if cfg.BaseURL ≠ "" then cfg.BaseURL else defaultBaseURL
    .ok { client := some ⟨apiKey, baseURL⟩, model := model, apiKey := apiKey,
          timeout := timeout }

/-- The method `Validate`: `none` is the nil error. -/
def Validate (p : Provider) : Option String :=
  if p.client = none then some "OpenAI client not initialized"
  else if p.apiKey = "" then some "OpenAI API key not set"
  else none

end Openai

namespace Upstage

/-- The type `Config` of the Upstage provider. -/
structure Config where
  APIKey : String
  Model : String
  BaseURL : String
  Timeout : Int
  deriving DecidableEq, Repr

/-- The client that `goopenai.NewClientWithConfig(config)` makes, as the fields of the
configuration that the provider sets: the token and the base URL. -/
structure Client where
  authToken : String
  BaseURL : String
  deriving DecidableEq, Repr

/-- The type `Provider` of the Upstage provider; `client` is a pointer. -/
structure Provider where
  client : Option Client
  model : String
  apiKey : String
  timeout : Int
  deriving DecidableEq, Repr

/-- The constant `DefaultModel`. -/
def DefaultModel : String := "solar-pro"

/-- The constant `DefaultBaseURL`. -/
def DefaultBaseURL : String := "https://api.upstage.ai/v1/solar"

/-- The function `New`, with the environment as the input `getenv`; `.error` is the error
returned. `goopenai.NewClientWithConfig` returns a pointer that is not nil. -/
def New (getenv : String → String) (cfg : Config) : Except String Provider :=
  let apiKey := if cfg.APIKey = "" then getenv "UPSTAGE_API_KEY" else cfg.APIKey
  if apiKey = "" then
    .error "Upstage API key not configured (set UPSTAGE_API_KEY or provide via config)"
  else
    let model := if cfg.Model = "" then DefaultModel else cfg.Model
    let baseURL := if cfg.BaseURL = "" then DefaultBaseURL else cfg.BaseURL
    let timeout := if cfg.Timeout = 0 then 120 * Second else cfg.Timeout
    .ok { client := some ⟨apiKey, baseURL⟩, model := model, apiKey := apiKey,
          timeout := timeout }

/-- The method `Validate`: `none` is the nil error. -/
def Validate (p : Provider) : Option String :=
  if p.client = none then some "Upstage client not initialized"
  else if p.apiKey = "" then some "Upstage API key not set"
  else none

end Upstage

/-- The tokens of a table with one cell that holds the text `P` and a nested table with one
cell of text `N`, followed by a paragraph `after`. -/
def tokensNestedTable : List Token :=
  [.StartElement "tbl" [], .StartElement "tr" [], .StartElement "tc" []] ++
    paragraphTokens "P" ++
    [.StartElement "tbl" [], .StartElement "tr" [], .StartElement "tc" []] ++
    paragraphTokens "N" ++
    [.EndElement "tc", .EndElement "tr", .EndElement "tbl",
      .EndElement "tc", .EndElement "tr", .EndElement "tbl"] ++
    paragraphTokens "after"

set_option maxRecDepth 100000

/-! ## Pass 1: the discovered width -/

theorem countRow_maxCols_le (rowIdx : Nat) (row : List cellContext) :
    ∀ (colIdx : Int) (occ : Occupancy) (m : Int) (occ2 : Occupancy) (m2 : Int) (cols : List Nat),
      countRow rowIdx row colIdx occ m = .ok (occ2, m2, cols) → m ≤ m2 := by
  induction row with
  | nil =>
    intro colIdx occ m occ2 m2 cols h
    simp only [countRow, Except.ok.injEq, Prod.mk.injEq] at h
    omega
  | cons cell rest ih =>
    intro colIdx occ m occ2 m2 cols h
    simp only [countRow] at h
    split at h
    · cases h
    · split at h
      · simp only [Except.ok.injEq, Prod.mk.injEq] at h
        omega
      · split at h
        · cases h
        · rename_i heq
          simp only [Except.ok.injEq, Prod.mk.injEq] at h
          have := ih _ _ _ _ _ _ heq
          obtain ⟨-, rfl, -⟩ := h
          split at this <;> omega

theorem countRows_maxCols_le (rows : List (List cellContext)) :
    ∀ (rowIdx : Nat) (occ : Occupancy) (m : Int) (occ2 : Occupancy) (m2 : Int)
      (colss : List (List Nat)),
      countRows rowIdx rows occ m = .ok (occ2, m2, colss) → m ≤ m2 := by
  induction rows with
  | nil =>
    intro rowIdx occ m occ2 m2 colss h
    simp only [countRows, Except.ok.injEq, Prod.mk.injEq] at h
    omega
  | cons row rest ih =>
    intro rowIdx occ m occ2 m2 colss h
    simp only [countRows] at h
    split at h
    · cases h
    · rename_i h1
      split at h
      · cases h
      · rename_i h2
        simp only [Except.ok.injEq, Prod.mk.injEq] at h
        have a := countRow_maxCols_le _ _ _ _ _ _ _ _ h1
        have b := ih _ _ _ _ _ _ h2
        omega

theorem countCols_nonneg (rows : List (List cellContext)) (m : Int)
    (h : countCols rows = .ok m) : 0 ≤ m := by
  unfold countCols at h
  split at h
  · cases h
  · rename_i h1
    simp only [Except.ok.injEq] at h
    subst h
    exact countRows_maxCols_le _ _ _ _ _ _ _ h1

/-! ## Pass 2: the allocation of the bitmap -/

/-- Pass 2 runs its loops when `make` accepts the width. -/
theorem placePass_of_le (blank : Cell) (rows : List (List cellContext)) (maxCols : Int)
    (h0 : 0 ≤ maxCols) (h : maxCols ≤ maxAlloc) :
    placePass blank rows maxCols =
      placeRows maxCols 0 rows (List.replicate rows.length (List.replicate maxCols.toNat false))
        (NewTable blank rows.length maxCols).Cells := by
  unfold placePass
  rw [if_neg (by omega)]

/-- A result of pass 2 is the result of its loops on the fresh bitmap and table, and `make`
has accepted the width. -/
theorem placePass_ok (blank : Cell) (rows : List (List cellContext)) (maxCols : Int)
    (x : Occupancy × List (List Cell) × List (List Nat))
    (h : placePass blank rows maxCols = .ok x) :
    placeRows maxCols 0 rows (List.replicate rows.length (List.replicate maxCols.toNat false))
      (NewTable blank rows.length maxCols).Cells = .ok x ∧
    (0 < rows.length → 0 ≤ maxCols ∧ maxCols ≤ maxAlloc) := by
  unfold placePass at h
  split at h
  · cases h
  · rename_i hn
    refine ⟨h, ?_⟩
    intro hl
    constructor <;> by_contra hc <;> exact hn ⟨hl, by omega⟩

/-- Pass 2 panics in `make` when the width is over what `make` accepts. -/
theorem placePass_over (blank : Cell) (rows : List (List cellContext)) (maxCols : Int)
    (hl : 0 < rows.length) (h : maxAlloc < maxCols) :
    placePass blank rows maxCols = .error "makeslice: len out of range" := by
  unfold placePass
  rw [if_pos ⟨hl, Or.inr h⟩]

/-! ## Pass 2: the shape of the cell grid -/

theorem dense_replicate {α : Type} (n w : Nat) (a : α) :
    Dense (List.replicate n (List.replicate w a)) n w := by
  refine ⟨by simp, ?_⟩
  intro row hrow
  rw [List.eq_of_mem_replicate hrow]
  simp

theorem dense_writeCell (cells : List (List Cell)) (n w rowIdx colIdx : Nat) (cell : cellContext)
    (h : Dense cells n w) : Dense (writeCell cells rowIdx colIdx cell) n w := by
  obtain ⟨h1, h2⟩ := h
  refine ⟨by simp [writeCell, h1], ?_⟩
  intro row hrow
  obtain ⟨i, hi, rfl⟩ := List.getElem_of_mem hrow
  have hi2 : i < cells.length := by simpa [writeCell] using hi
  simp only [writeCell, List.getElem_mapIdx]
  split
  · simp [h2 _ (List.getElem_mem hi2)]
  · exact h2 _ (List.getElem_mem hi2)

theorem dense_markOccupied (occ : Occupancy) (n w rowIdx colIdx : Nat) (rowEnd colEnd : Int)
    (h : Dense occ n w) : Dense (markOccupied occ rowIdx rowEnd colIdx colEnd) n w := by
  obtain ⟨h1, h2⟩ := h
  refine ⟨by simp [markOccupied, h1], ?_⟩
  intro row hrow
  obtain ⟨i, hi, rfl⟩ := List.getElem_of_mem hrow
  have hi2 : i < occ.length := by simpa [markOccupied] using hi
  simp only [markOccupied, List.getElem_mapIdx]
  split
  · simp [h2 _ (List.getElem_mem hi2)]
  · exact h2 _ (List.getElem_mem hi2)

theorem placeRow_dense (rowIdx : Nat) (maxCols : Int) (n w : Nat) (row : List cellContext) :
    ∀ (colIdx : Int) (occ : Occupancy) (cells : List (List Cell)) (occ2 : Occupancy)
      (cells2 : List (List Cell)) (cols : List Nat),
      placeRow rowIdx maxCols row colIdx occ cells = .ok (occ2, cells2, cols) →
      Dense cells n w → Dense cells2 n w := by
  induction row with
  | nil =>
    intro colIdx occ cells occ2 cells2 cols h hd
    simp only [placeRow, Except.ok.injEq, Prod.mk.injEq] at h
    obtain ⟨-, rfl, -⟩ := h
    exact hd
  | cons cell rest ih =>
    intro colIdx occ cells occ2 cells2 cols h hd
    simp only [placeRow] at h
    split at h
    · simp only [Except.ok.injEq, Prod.mk.injEq] at h
      obtain ⟨-, rfl, -⟩ := h
      exact hd
    · split at h
      · cases h
      · split at h
        · simp only [Except.ok.injEq, Prod.mk.injEq] at h
          obtain ⟨-, rfl, -⟩ := h
          exact hd
        · split at h
          · cases h
          · rename_i heq
            simp only [Except.ok.injEq, Prod.mk.injEq] at h
            obtain ⟨-, rfl, -⟩ := h
            exact ih _ _ _ _ _ _ heq (dense_writeCell _ _ _ _ _ _ hd)

theorem placeRows_dense (maxCols : Int) (n w : Nat) (rows : List (List cellContext)) :
    ∀ (rowIdx : Nat) (occ : Occupancy) (cells : List (List Cell)) (occ2 : Occupancy)
      (cells2 : List (List Cell)) (colss : List (List Nat)),
      placeRows maxCols rowIdx rows occ cells = .ok (occ2, cells2, colss) →
      Dense cells n w → Dense cells2 n w := by
  induction rows with
  | nil =>
    intro rowIdx occ cells occ2 cells2 colss h hd
    simp only [placeRows, Except.ok.injEq, Prod.mk.injEq] at h
    obtain ⟨-, rfl, -⟩ := h
    exact hd
  | cons row rest ih =>
    intro rowIdx occ cells occ2 cells2 colss h hd
    simp only [placeRows] at h
    split at h
    · cases h
    · rename_i h1
      split at h
      · cases h
      · rename_i h2
        simp only [Except.ok.injEq, Prod.mk.injEq] at h
        obtain ⟨-, rfl, -⟩ := h
        exact ih _ _ _ _ _ _ h2 (placeRow_dense _ _ _ _ _ _ _ _ _ _ _ h1 hd)

/-- What `buildTable` returns, in terms of the two passes. -/
theorem buildTable_eq_some (blank : Cell) (rows : List (List cellContext)) (t : TableBlock)
    (h : buildTable blank rows = .ok (some t)) :
    ∃ maxCols occ cells colss, rows ≠ [] ∧ countCols rows = .ok maxCols ∧ 1 ≤ maxCols ∧
      placePass blank rows maxCols = .ok (occ, cells, colss) ∧
      t = { Rows := rows.length, Cols := maxCols, Cells := cells,
            HasHeader := decide (rows.length > 1) } := by
  unfold buildTable at h
  split at h
  · cases h
  · rename_i hlen
    split at h
    · cases h
    · rename_i maxCols hc
      split at h
      · cases h
      · rename_i hm
        split at h
        · cases h
        · rename_i occ cells colss hp
          have h0 := countCols_nonneg rows maxCols hc
          refine ⟨maxCols, occ, cells, colss, ?_, hc, by omega, hp, ?_⟩
          · intro hr
            exact hlen (by simp [hr])
          · simp only [Except.ok.injEq, Option.some.injEq] at h
            subst h
            by_cases h1 : rows.length > 1 <;> simp [h1, NewTable, TableBlock.SetHeaderRow]

theorem buildTable_eq_none (blank : Cell) (rows : List (List cellContext)) :
    buildTable blank rows = .ok none ↔ rows = [] ∨ countCols rows = .ok 0 := by
  unfold buildTable
  constructor
  · intro h
    split at h
    · left
      exact List.length_eq_zero.mp (by assumption)
    · split at h
      · cases h
      · rename_i maxCols hc
        split at h
        · rename_i hm
          right
          rw [hc, hm]
        · split at h <;> cases h
  · rintro (h | h)
    · simp [h]
    · simp [h]

theorem placePass_dense (blank : Cell) (rows : List (List cellContext)) (maxCols : Int)
    (occ : Occupancy) (cells : List (List Cell)) (colss : List (List Nat))
    (h : placePass blank rows maxCols = .ok (occ, cells, colss)) :
    Dense cells rows.length maxCols.toNat :=
  placeRows_dense _ _ _ _ _ _ _ _ _ _ (placePass_ok _ _ _ _ h).1 (dense_replicate _ _ _)

/-- C4. `buildTable` returns none exactly when there are no rows or pass 1 discovers width
0; a returned table has rows = number of input rows >= 1, cols = discovered width >= 1,
and a grid of exactly rows x cols positions. -/
theorem buildTable_none_iff_and_dimensions (blank : Cell) (rows : List (List cellContext)) :
    (buildTable blank rows = .ok none ↔ rows = [] ∨ countCols rows = .ok 0) ∧
    ∀ t, buildTable blank rows = .ok (some t) →
      t.Rows = rows.length ∧ 1 ≤ t.Rows ∧ countCols rows = .ok t.Cols ∧ 1 ≤ t.Cols ∧
      (t.Cells.length : Int) = t.Rows ∧ ∀ row ∈ t.Cells, (row.length : Int) = t.Cols := by
  refine ⟨buildTable_eq_none blank rows, ?_⟩
  intro t h
  obtain ⟨maxCols, occ, cells, colss, hne, hc, hm, hp, rfl⟩ := buildTable_eq_some blank rows t h
  have hd := placePass_dense blank rows maxCols occ cells colss hp
  have hl : 0 < rows.length := List.length_pos.mpr hne
  refine ⟨rfl, ?_, hc, hm, ?_, ?_⟩
  · show (1 : Int) ≤ (rows.length : Int)
    omega
  · show (cells.length : Int) = (rows.length : Int)
    rw [hd.1]
  · intro row hrow
    show (row.length : Int) = maxCols
    rw [hd.2 row hrow]
    omega

/-- C6. A returned table has the header flag set when the input has more than one row,
whatever the cells hold, and not set when the input has exactly one row. -/
theorem buildTable_hasHeader (blank : Cell) (rows : List (List cellContext)) (t : TableBlock)
    (h : buildTable blank rows = .ok (some t)) :
    (1 < rows.length → t.HasHeader = true) ∧ (rows.length = 1 → t.HasHeader = false) := by
  obtain ⟨maxCols, occ, cells, colss, -, -, -, -, rfl⟩ := buildTable_eq_some blank rows t h
  constructor
  · intro h1
    simp [h1]
  · intro h1
    simp [h1]

theorem buildTable_hasHeader_witness :
    buildTable ⟨"", 1, 1⟩ [[⟨"A1", 1, 1⟩, ⟨"B1", 1, 1⟩], [⟨"A2", 1, 1⟩, ⟨"B2", 1, 1⟩]] =
      .ok (some ⟨2, 2, [[⟨"A1", 1, 1⟩, ⟨"B1", 1, 1⟩], [⟨"A2", 1, 1⟩, ⟨"B2", 1, 1⟩]], true⟩) ∧
    ((1 < 2 → true = true) ∧ (2 = 1 → true = false)) :=
  ⟨rfl, buildTable_hasHeader ⟨"", 1, 1⟩
    [[⟨"A1", 1, 1⟩, ⟨"B1", 1, 1⟩], [⟨"A2", 1, 1⟩, ⟨"B2", 1, 1⟩]]
    ⟨2, 2, [[⟨"A1", 1, 1⟩, ⟨"B1", 1, 1⟩], [⟨"A2", 1, 1⟩, ⟨"B2", 1, 1⟩]], true⟩ rfl⟩

/-! ## Arithmetic and bitmap lemmas -/

theorem wrap64_eq_self (x : Int) (h1 : minInt ≤ x) (h2 : x ≤ maxInt) : wrap64 x = x := by
  unfold wrap64
  unfold minInt at h1
  unfold maxInt at h2
  norm_num at h1 h2 ⊢
  omega

theorem wrap64_le (x : Int) (h1 : minInt ≤ x) : wrap64 x ≤ x := by
  unfold wrap64
  unfold minInt at h1
  norm_num at h1 ⊢
  omega

theorem wrap64_neg_of_gt (x : Int) (h1 : maxInt < x) (h2 : x ≤ 2 * maxInt + 1) : wrap64 x < 0 := by
  unfold wrap64
  unfold maxInt at h1 h2
  norm_num at h1 h2 ⊢
  omega

theorem skipOccupied_spec (l : List Bool) :
    ∀ c : Nat, ∃ k : Nat, skipOccupied l c = c + k ∧ k ≤ l.length ∧
      (∀ i, i < k → l[i]? = some true) ∧ l[k]? ≠ some true := by
  induction l with
  | nil =>
    intro c
    exact ⟨0, by simp [skipOccupied], by simp, by simp, by simp⟩
  | cons b rest ih =>
    intro c
    cases b with
    | false => exact ⟨0, by simp [skipOccupied], by simp, by simp, by simp⟩
    | true =>
      obtain ⟨k, h1, h2, h3, h4⟩ := ih (c + 1)
      refine ⟨k + 1, ?_, by simp [h2], ?_, by simpa using h4⟩
      · simp only [skipOccupied, h1]
        omega
      · intro i hi
        cases i with
        | zero => simp
        | succ j => simpa using h3 j (by omega)

theorem nextFree_spec (row : List Bool) (c : Nat) :
    ∃ k : Nat, nextFree row c = c + k ∧ c + k ≤ max c row.length ∧
      (∀ i, i < k → row[c + i]? = some true) ∧ row[c + k]? ≠ some true := by
  obtain ⟨k, h1, h2, h3, h4⟩ := skipOccupied_spec (row.drop c) c
  refine ⟨k, h1, ?_, ?_, ?_⟩
  · simp only [List.length_drop] at h2
    omega
  · intro i hi
    have := h3 i hi
    rwa [List.getElem?_drop] at this
  · rwa [List.getElem?_drop] at h4

theorem nextFree_eq_self (row : List Bool) (c : Nat) (h : row[c]? ≠ some true) :
    nextFree row c = c := by
  obtain ⟨k, h1, -, h3, -⟩ := nextFree_spec row c
  cases k with
  | zero => simpa using h1
  | succ j => exact absurd (by simpa using h3 0 (by omega)) h

theorem nextFree_ge (row : List Bool) (c : Nat) : c ≤ nextFree row c := by
  obtain ⟨k, h1, -⟩ := nextFree_spec row c
  omega

/-- Row `r` of a bitmap after the marking loops. -/
theorem getD_markOccupied (occ : Occupancy) (rowIdx : Nat) (rowEnd : Int) (colIdx : Nat)
    (colEnd : Int) (r : Nat) :
    (markOccupied occ rowIdx rowEnd colIdx colEnd).getD r [] =
      if rowIdx ≤ r ∧ (r : Int) < rowEnd then
        (occ.getD r []).mapIdx fun c b => if colIdx ≤ c ∧ (c : Int) < colEnd then true else b
      else occ.getD r [] := by
  simp only [markOccupied, List.getD_eq_getElem?_getD, List.getElem?_mapIdx]
  cases h : occ[r]? with
  | none => simp
  | some row => simp

theorem getElem?_markOccupied_row (occ : Occupancy) (rowIdx : Nat) (rowEnd : Int) (colIdx : Nat)
    (colEnd : Int) (r c : Nat) :
    ((markOccupied occ rowIdx rowEnd colIdx colEnd).getD r [])[c]? =
      if (rowIdx ≤ r ∧ (r : Int) < rowEnd) ∧ (colIdx ≤ c ∧ (c : Int) < colEnd) then
        ((occ.getD r [])[c]?).map fun _ => true
      else (occ.getD r [])[c]? := by
  rw [getD_markOccupied]
  by_cases h1 : rowIdx ≤ r ∧ (r : Int) < rowEnd
  · simp only [h1, and_self, if_true, List.getElem?_mapIdx, true_and]
    by_cases h2 : colIdx ≤ c ∧ (c : Int) < colEnd
    · simp only [h2, and_self, if_true]
    · simp only [h2, if_false]
      cases (occ.getD r [])[c]? <;> simp
  · simp [h1]

/-! ## Unfolding one iteration of the two row loops -/

theorem countRow_cons_ok (rowIdx : Nat) (cell : cellContext) (rest : List cellContext)
    (colIdx : Int) (occ : Occupancy) (m : Int) (occ2 : Occupancy) (m2 : Int) (cols : List Nat)
    (h : countRow rowIdx (cell :: rest) colIdx occ m = .ok (occ2, m2, cols)) :
    0 ≤ colIdx ∧
    ((100 ≤ nextFree (occ.getD rowIdx []) colIdx.toNat ∧ occ2 = occ ∧ m2 = m ∧ cols = []) ∨
     (nextFree (occ.getD rowIdx []) colIdx.toNat < 100 ∧ ∃ cols1,
        cols = nextFree (occ.getD rowIdx []) colIdx.toNat :: cols1 ∧
        countRow rowIdx rest
          (wrap64 ((nextFree (occ.getD rowIdx []) colIdx.toNat : Int) + cell.colSpan))
          (markOccupied occ rowIdx (wrap64 ((rowIdx : Int) + cell.rowSpan))
            (nextFree (occ.getD rowIdx []) colIdx.toNat)
            (wrap64 ((nextFree (occ.getD rowIdx []) colIdx.toNat : Int) + cell.colSpan)))
          (if wrap64 ((nextFree (occ.getD rowIdx []) colIdx.toNat : Int) + cell.colSpan) > m
            then wrap64 ((nextFree (occ.getD rowIdx []) colIdx.toNat : Int) + cell.colSpan)
            else m) = .ok (occ2, m2, cols1))) := by
  simp only [countRow] at h
  split at h
  · cases h
  · rename_i h0
    refine ⟨by omega, ?_⟩
    split at h
    · rename_i h1
      simp only [Except.ok.injEq, Prod.mk.injEq] at h
      obtain ⟨rfl, rfl, rfl⟩ := h
      exact Or.inl ⟨h1, rfl, rfl, rfl⟩
    · rename_i h1
      split at h
      · cases h
      · rename_i occ3 m3 cols3 heq
        simp only [Except.ok.injEq, Prod.mk.injEq] at h
        obtain ⟨rfl, rfl, rfl⟩ := h
        exact Or.inr ⟨by omega, cols3, rfl, heq⟩

theorem placeRow_cons_ok (rowIdx : Nat) (maxCols : Int) (cell : cellContext)
    (rest : List cellContext) (colIdx : Int) (occ : Occupancy) (cells : List (List Cell))
    (occ2 : Occupancy) (cells2 : List (List Cell)) (cols : List Nat)
    (h : placeRow rowIdx maxCols (cell :: rest) colIdx occ cells = .ok (occ2, cells2, cols)) :
    ((maxCols ≤ colIdx ∨
        (0 ≤ colIdx ∧ maxCols ≤ nextFree (occ.getD rowIdx []) colIdx.toNat)) ∧
      occ2 = occ ∧ cells2 = cells ∧ cols = []) ∨
    (0 ≤ colIdx ∧ colIdx < maxCols ∧
      (nextFree (occ.getD rowIdx []) colIdx.toNat : Int) < maxCols ∧ ∃ cols1,
        cols = nextFree (occ.getD rowIdx []) colIdx.toNat :: cols1 ∧
        placeRow rowIdx maxCols rest
          (wrap64 ((nextFree (occ.getD rowIdx []) colIdx.toNat : Int) + cell.colSpan))
          (markOccupied occ rowIdx (wrap64 ((rowIdx : Int) + cell.rowSpan))
            (nextFree (occ.getD rowIdx []) colIdx.toNat)
            (wrap64 ((nextFree (occ.getD rowIdx []) colIdx.toNat : Int) + cell.colSpan)))
          (writeCell cells rowIdx (nextFree (occ.getD rowIdx []) colIdx.toNat) cell) =
            .ok (occ2, cells2, cols1)) := by
  simp only [placeRow] at h
  split at h
  · rename_i h0
    simp only [Except.ok.injEq, Prod.mk.injEq] at h
    obtain ⟨rfl, rfl, rfl⟩ := h
    exact Or.inl ⟨Or.inl h0, rfl, rfl, rfl⟩
  · rename_i h0
    split at h
    · cases h
    · rename_i h1
      split at h
      · rename_i h2
        simp only [Except.ok.injEq, Prod.mk.injEq] at h
        obtain ⟨rfl, rfl, rfl⟩ := h
        exact Or.inl ⟨Or.inr ⟨by omega, h2⟩, rfl, rfl, rfl⟩
      · rename_i h2
        split at h
        · cases h
        · rename_i occ3 cells3 cols3 heq
          simp only [Except.ok.injEq, Prod.mk.injEq] at h
          obtain ⟨rfl, rfl, rfl⟩ := h
          exact Or.inr ⟨by omega, by omega, by omega, cols3, rfl, heq⟩

theorem cellAt_writeCell (cells : List (List Cell)) (rowIdx colIdx : Nat) (cell : cellContext)
    (r c : Nat) :
    cellAt (writeCell cells rowIdx colIdx cell) r c =
      if r = rowIdx ∧ c = colIdx then (cellAt cells r c).map fun _ => toCell cell
      else cellAt cells r c := by
  simp only [cellAt, writeCell, List.getD_eq_getElem?_getD, List.getElem?_mapIdx]
  cases h : cells[r]? with
  | none => simp
  | some row =>
    by_cases h1 : r = rowIdx
    · by_cases h2 : c = colIdx
      · simp [h1, h2, List.getElem?_mapIdx, toCell]
      · simp only [Option.map_some', Option.getD_some, h1, if_true, List.getElem?_mapIdx, h2,
          and_false, if_false]
        cases row[c]? <;> simp [h2]
    · simp [h1]

/-! ## Pass 2: what the grid holds after the writes -/

theorem placeRow_cells (rowIdx : Nat) (maxCols : Int) (row : List cellContext) :
    ∀ (colIdx : Int) (occ : Occupancy) (cells : List (List Cell)) (occ2 : Occupancy)
      (cells2 : List (List Cell)) (cols : List Nat),
      placeRow rowIdx maxCols row colIdx occ cells = .ok (occ2, cells2, cols) →
      cols.length ≤ row.length ∧
      (∀ c : Nat, c ∈ cols → (c : Int) < maxCols) ∧
      (∀ r c : Nat, (r ≠ rowIdx ∨ c ∉ cols) → cellAt cells2 r c = cellAt cells r c) ∧
      (cols.Nodup → ∀ (i c : Nat) (cell : cellContext), cols[i]? = some c → row[i]? = some cell →
        cellAt cells2 rowIdx c = (cellAt cells rowIdx c).map fun _ => toCell cell) := by
  induction row with
  | nil =>
    intro colIdx occ cells occ2 cells2 cols h
    simp only [placeRow, Except.ok.injEq, Prod.mk.injEq] at h
    obtain ⟨-, rfl, rfl⟩ := h
    simp
  | cons cell rest ih =>
    intro colIdx occ cells occ2 cells2 cols h
    rcases placeRow_cons_ok _ _ _ _ _ _ _ _ _ _ h with ⟨-, -, rfl, rfl⟩ | ⟨-, -, hc, cols1, rfl, hrec⟩
    · simp
    · obtain ⟨ih1, ih2, ih3, ih4⟩ := ih _ _ _ _ _ _ hrec
      refine ⟨by simp; omega, ?_, ?_, ?_⟩
      · intro c hmem
        rcases List.mem_cons.mp hmem with rfl | hmem
        · exact hc
        · exact ih2 c hmem
      · intro r c hrc
        rw [ih3 r c (by
          rcases hrc with h1 | h1
          · exact Or.inl h1
          · exact Or.inr (fun hm => h1 (List.mem_cons_of_mem _ hm))), cellAt_writeCell]
        have : ¬ (r = rowIdx ∧ c = nextFree (occ.getD rowIdx []) colIdx.toNat) := by
          rintro ⟨h1, h2⟩
          rcases hrc with h3 | h3
          · exact h3 h1
          · exact h3 (by rw [h2]; exact List.mem_cons_self _ _)
        rw [if_neg this]
      · intro hnd i c cell1 hi hrow
        obtain ⟨hnot, hnd1⟩ := List.nodup_cons.mp hnd
        cases i with
        | zero =>
          simp only [List.getElem?_cons_zero, Option.some.injEq] at hi hrow
          subst hi hrow
          rw [ih3 _ _ (Or.inr hnot), cellAt_writeCell, if_pos ⟨rfl, rfl⟩]
        | succ j =>
          simp only [List.getElem?_cons_succ] at hi hrow
          rw [ih4 hnd1 j c cell1 hi hrow, cellAt_writeCell]
          have hmem : c ∈ cols1 := List.getElem?_mem hi
          have : ¬ (rowIdx = rowIdx ∧ c = nextFree (occ.getD rowIdx []) colIdx.toNat) :=
            fun hh => hnot (hh.2 ▸ hmem)
          rw [if_neg this]

theorem placeRows_cells (maxCols : Int) (rows : List (List cellContext)) :
    ∀ (rowIdx : Nat) (occ : Occupancy) (cells : List (List Cell)) (occ2 : Occupancy)
      (cells2 : List (List Cell)) (colss : List (List Nat)),
      placeRows maxCols rowIdx rows occ cells = .ok (occ2, cells2, colss) →
      colss.length = rows.length ∧
      (∀ r c : Nat, (r < rowIdx ∨ rowIdx + rows.length ≤ r) → cellAt cells2 r c = cellAt cells r c) ∧
      (∀ r row cols, rows[r]? = some row → colss[r]? = some cols →
        cols.length ≤ row.length ∧ (∀ c : Nat, c ∈ cols → (c : Int) < maxCols) ∧
        (∀ c : Nat, c ∉ cols → cellAt cells2 (rowIdx + r) c = cellAt cells (rowIdx + r) c) ∧
        (cols.Nodup → ∀ (i c : Nat) (cell : cellContext), cols[i]? = some c → row[i]? = some cell →
          cellAt cells2 (rowIdx + r) c =
            (cellAt cells (rowIdx + r) c).map fun _ => toCell cell)) := by
  induction rows with
  | nil =>
    intro rowIdx occ cells occ2 cells2 colss h
    simp only [placeRows, Except.ok.injEq, Prod.mk.injEq] at h
    obtain ⟨-, rfl, rfl⟩ := h
    simp
  | cons row rest ih =>
    intro rowIdx occ cells occ2 cells2 colss h
    simp only [placeRows] at h
    split at h
    · cases h
    · rename_i occ1 cells1 cols h1
      split at h
      · cases h
      · rename_i occ3 cells3 colss3 h2
        simp only [Except.ok.injEq, Prod.mk.injEq] at h
        obtain ⟨rfl, rfl, rfl⟩ := h
        obtain ⟨a1, a2, a3, a4⟩ := placeRow_cells _ _ _ _ _ _ _ _ _ h1
        obtain ⟨b1, b2, b3⟩ := ih _ _ _ _ _ _ h2
        refine ⟨by simp [b1], ?_, ?_⟩
        · intro r c hr
          simp only [List.length_cons] at hr
          rw [b2 r c (by omega), a3 r c (Or.inl (by omega))]
        · intro r row1 cols1 hrow hcols
          cases r with
          | zero =>
            simp only [List.getElem?_cons_zero, Option.some.injEq] at hrow hcols
            subst hrow hcols
            refine ⟨a1, a2, ?_, ?_⟩
            · intro c hc
              rw [b2 _ c (Or.inl (by omega)), a3 _ c (Or.inr hc)]
            · intro hnd i c cell hi hcell
              rw [b2 _ c (Or.inl (by omega))]
              exact a4 hnd i c cell hi hcell
          | succ j =>
            simp only [List.getElem?_cons_succ] at hrow hcols
            obtain ⟨c1, c2, c3, c4⟩ := b3 j row1 cols1 hrow hcols
            have e : rowIdx + 1 + j = rowIdx + (j + 1) := by omega
            rw [e] at c3 c4
            refine ⟨c1, c2, ?_, ?_⟩
            · intro c hc
              rw [c3 c hc, a3 _ c (Or.inl (by omega))]
            · intro hnd i c cell hi hcell
              rw [c4 hnd i c cell hi hcell, a3 _ c (Or.inl (by omega))]

theorem cellAt_replicate (blank : Cell) (n w r c : Nat) (hr : r < n) (hc : c < w) :
    cellAt (List.replicate n (List.replicate w blank)) r c = some blank := by
  simp [cellAt, List.getD_eq_getElem?_getD, List.getElem?_replicate, hr, hc]

/-! ## Tables without spans -/

theorem freeFrom_replicate (n w rowIdx c : Nat) :
    FreeFrom (List.replicate n (List.replicate w false)) rowIdx c := by
  intro r k _
  simp only [List.getD_eq_getElem?_getD, List.getElem?_replicate]
  split
  · simp only [Option.getD_some, List.getElem?_replicate]
    split <;> simp
  · simp

theorem freeFrom_next (occ : Occupancy) (rowIdx c : Nat) (h : FreeFrom occ rowIdx c) :
    FreeFrom occ (rowIdx + 1) 0 := by
  intro r k hr
  exact h r k (Or.inl (by omega))

theorem freeFrom_mark_unit (occ : Occupancy) (rowIdx c : Nat) (h : FreeFrom occ rowIdx c) :
    FreeFrom (markOccupied occ rowIdx (wrap64 ((rowIdx : Int) + 1)) c (wrap64 ((c : Int) + 1)))
      rowIdx (c + 1) := by
  intro r k hr
  rw [getElem?_markOccupied_row]
  have h1 := wrap64_le ((rowIdx : Int) + 1) (by unfold minInt; norm_num; omega)
  have h2 := wrap64_le ((c : Int) + 1) (by unfold minInt; norm_num; omega)
  rw [if_neg (by omega)]
  exact h r k (by omega)

theorem countRow_unit (rowIdx : Nat) (row : List cellContext)
    (hu : ∀ cell ∈ row, cell.colSpan = 1 ∧ cell.rowSpan = 1) :
    ∀ (c : Nat) (occ : Occupancy) (m : Int), FreeFrom occ rowIdx c → c ≤ 100 → (c : Int) ≤ m →
      ∃ occ2, countRow rowIdx row (c : Int) occ m =
          .ok (occ2, max m ((min (c + row.length) 100 : Nat) : Int),
            List.range' c (min (c + row.length) 100 - c)) ∧
        FreeFrom occ2 (rowIdx + 1) 0 := by
  induction row with
  | nil =>
    intro c occ m hf hc hm
    refine ⟨occ, ?_, freeFrom_next _ _ _ hf⟩
    have e1 : min (c + ([] : List cellContext).length) 100 = c := by simp; omega
    rw [e1]
    simp [countRow, hm]
  | cons cell rest ih =>
    intro c occ m hf hc hm
    obtain ⟨hcs, hrs⟩ := hu cell (List.mem_cons_self _ _)
    have hnf : nextFree (occ.getD rowIdx []) c = c :=
      nextFree_eq_self _ _ (hf rowIdx c (Or.inr ⟨rfl, le_refl _⟩))
    simp only [countRow, Int.toNat_ofNat, hnf, hcs, hrs]
    rw [if_neg (by omega)]
    by_cases h100 : 100 ≤ c
    · rw [if_pos h100]
      refine ⟨occ, ?_, freeFrom_next _ _ _ hf⟩
      have e1 : min (c + (cell :: rest).length) 100 = 100 := by simp; omega
      rw [e1]
      have e2 : 100 - c = 0 := by omega
      have e3 : max m ((100 : Nat) : Int) = m := by omega
      rw [e2, e3]
      rfl
    · rw [if_neg h100]
      have hw : wrap64 ((c : Int) + 1) = ((c + 1 : Nat) : Int) := by
        rw [wrap64_eq_self _ (by unfold minInt; norm_num; omega) (by unfold maxInt; norm_num; omega)]
        omega
      obtain ⟨occ2, h1, h2⟩ := ih (fun x hx => hu x (List.mem_cons_of_mem _ hx)) (c + 1)
        (markOccupied occ rowIdx (wrap64 ((rowIdx : Int) + 1)) c (wrap64 ((c : Int) + 1)))
        (if wrap64 ((c : Int) + 1) > m then wrap64 ((c : Int) + 1) else m)
        (freeFrom_mark_unit _ _ _ hf) (by omega) (by rw [hw]; split <;> omega)
      rw [hw] at h1 ⊢
      rw [h1]
      refine ⟨occ2, ?_, h2⟩
      have e1 : c + 1 + rest.length = c + (cell :: rest).length := by simp; omega
      rw [e1]
      have e2 : min (c + (cell :: rest).length) 100 - c =
          (min (c + (cell :: rest).length) 100 - (c + 1)) + 1 := by
        simp only [List.length_cons]; omega
      have e3 : max (if ((c + 1 : Nat) : Int) > m then ((c + 1 : Nat) : Int) else m)
          ((min (c + (cell :: rest).length) 100 : Nat) : Int) =
          max m ((min (c + (cell :: rest).length) 100 : Nat) : Int) := by
        simp only [List.length_cons]; split <;> omega
      rw [e2, e3, List.range'_succ]

theorem maxRowLen_cons (row : List cellContext) (rest : List (List cellContext)) :
    maxRowLen (row :: rest) = max row.length (maxRowLen rest) := rfl

theorem length_le_maxRowLen (rows : List (List cellContext)) :
    ∀ (r : Nat) (row : List cellContext), rows[r]? = some row → row.length ≤ maxRowLen rows := by
  induction rows with
  | nil => intro r row h; simp at h
  | cons row0 rest ih =>
    intro r row h
    rw [maxRowLen_cons]
    cases r with
    | zero =>
      simp only [List.getElem?_cons_zero, Option.some.injEq] at h
      subst h
      omega
    | succ j =>
      simp only [List.getElem?_cons_succ] at h
      have := ih j row h
      omega

theorem countRows_unit (rows : List (List cellContext)) :
    UnitSpans rows →
    ∀ (rowIdx : Nat) (occ : Occupancy) (m : Int), FreeFrom occ rowIdx 0 → 0 ≤ m →
      ∃ occ2, countRows rowIdx rows occ m =
          .ok (occ2, max m ((min (maxRowLen rows) 100 : Nat) : Int),
            rows.map fun row => List.range' 0 (min row.length 100)) ∧
        FreeFrom occ2 (rowIdx + rows.length) 0 := by
  induction rows with
  | nil =>
    intro _ rowIdx occ m hf hm
    refine ⟨occ, ?_, hf⟩
    simp [countRows, maxRowLen, hm]
  | cons row rest ih =>
    intro hu rowIdx occ m hf hm
    obtain ⟨occ1, h1, hf1⟩ := countRow_unit rowIdx row (hu row (List.mem_cons_self _ _)) 0 occ m
      hf (by omega) (by simpa using hm)
    obtain ⟨occ2, h2, hf2⟩ := ih (fun x hx => hu x (List.mem_cons_of_mem _ hx)) (rowIdx + 1) occ1
      (max m ((min (0 + row.length) 100 : Nat) : Int)) hf1 (by omega)
    refine ⟨occ2, ?_, ?_⟩
    · have h1b : countRow rowIdx row 0 occ m = _ := h1
      rw [countRows, h1b]
      dsimp only
      rw [h2]
      simp only [Nat.zero_add, Nat.sub_zero, List.map_cons, maxRowLen_cons]
      have e : max (max m ((min row.length 100 : Nat) : Int))
          ((min (maxRowLen rest) 100 : Nat) : Int) =
          max m ((min (max row.length (maxRowLen rest)) 100 : Nat) : Int) := by omega
      rw [e]
    · have e : rowIdx + (row :: rest).length = rowIdx + 1 + rest.length := by simp; omega
      rw [e]
      exact hf2

theorem countCols_unit (rows : List (List cellContext)) (hu : UnitSpans rows) :
    countCols rows = .ok ((min (maxRowLen rows) 100 : Nat) : Int) := by
  obtain ⟨occ2, h, -⟩ := countRows_unit rows hu 0
    (List.replicate rows.length (List.replicate 100 false)) 0 (freeFrom_replicate _ _ _ _)
    (le_refl _)
  unfold countCols countPass
  rw [h]
  simp

theorem placeRow_unit (rowIdx : Nat) (w : Nat) (hw : w ≤ 100) (row : List cellContext)
    (hu : ∀ cell ∈ row, cell.colSpan = 1 ∧ cell.rowSpan = 1) :
    ∀ (c : Nat) (occ : Occupancy) (cells : List (List Cell)), FreeFrom occ rowIdx c →
      ∃ occ2 cells2, placeRow rowIdx (w : Int) row (c : Int) occ cells =
          .ok (occ2, cells2, List.range' c (min (c + row.length) w - c)) ∧
        FreeFrom occ2 (rowIdx + 1) 0 := by
  induction row with
  | nil =>
    intro c occ cells hf
    refine ⟨occ, cells, ?_, freeFrom_next _ _ _ hf⟩
    have e1 : min (c + ([] : List cellContext).length) w - c = 0 := by simp
    rw [e1]
    simp [placeRow]
  | cons cell rest ih =>
    intro c occ cells hf
    obtain ⟨hcs, hrs⟩ := hu cell (List.mem_cons_self _ _)
    have hnf : nextFree (occ.getD rowIdx []) c = c :=
      nextFree_eq_self _ _ (hf rowIdx c (Or.inr ⟨rfl, le_refl _⟩))
    simp only [placeRow, Int.toNat_ofNat, hnf, hcs, hrs]
    by_cases hwc : (w : Int) ≤ (c : Int)
    · rw [if_pos hwc]
      refine ⟨occ, cells, ?_, freeFrom_next _ _ _ hf⟩
      have e1 : min (c + (cell :: rest).length) w - c = 0 := by omega
      rw [e1]
      rfl
    · rw [if_neg hwc, if_neg (by omega), if_neg hwc]
      have hw2 : wrap64 ((c : Int) + 1) = ((c + 1 : Nat) : Int) := by
        rw [wrap64_eq_self _ (by unfold minInt; norm_num; omega) (by unfold maxInt; norm_num; omega)]
        omega
      obtain ⟨occ2, cells2, h1, h2⟩ := ih (fun x hx => hu x (List.mem_cons_of_mem _ hx)) (c + 1)
        (markOccupied occ rowIdx (wrap64 ((rowIdx : Int) + 1)) c (wrap64 ((c : Int) + 1)))
        (writeCell cells rowIdx c cell) (freeFrom_mark_unit _ _ _ hf)
      rw [hw2] at h1 ⊢
      rw [h1]
      refine ⟨occ2, cells2, ?_, h2⟩
      have e1 : c + 1 + rest.length = c + (cell :: rest).length := by simp; omega
      rw [e1]
      have e2 : min (c + (cell :: rest).length) w - c =
          (min (c + (cell :: rest).length) w - (c + 1)) + 1 := by
        simp only [List.length_cons]; omega
      rw [e2, List.range'_succ]

theorem placeRows_unit (w : Nat) (hw : w ≤ 100) (rows : List (List cellContext)) :
    UnitSpans rows →
    ∀ (rowIdx : Nat) (occ : Occupancy) (cells : List (List Cell)), FreeFrom occ rowIdx 0 →
      ∃ occ2 cells2, placeRows (w : Int) rowIdx rows occ cells =
          .ok (occ2, cells2, rows.map fun row => List.range' 0 (min row.length w)) ∧
        FreeFrom occ2 (rowIdx + rows.length) 0 := by
  induction rows with
  | nil =>
    intro _ rowIdx occ cells hf
    exact ⟨occ, cells, by simp [placeRows], hf⟩
  | cons row rest ih =>
    intro hu rowIdx occ cells hf
    obtain ⟨occ1, cells1, h1, hf1⟩ := placeRow_unit rowIdx w hw row
      (hu row (List.mem_cons_self _ _)) 0 occ cells hf
    obtain ⟨occ2, cells2, h2, hf2⟩ := ih (fun x hx => hu x (List.mem_cons_of_mem _ hx))
      (rowIdx + 1) occ1 cells1 hf1
    refine ⟨occ2, cells2, ?_, ?_⟩
    · have h1b : placeRow rowIdx (w : Int) row 0 occ cells = _ := h1
      rw [placeRows, h1b]
      dsimp only
      rw [h2]
      simp
    · have e : rowIdx + (row :: rest).length = rowIdx + 1 + rest.length := by simp; omega
      rw [e]
      exact hf2

/-- What `buildTable` does on a table without spans. -/
theorem buildTable_unit (blank : Cell) (rows : List (List cellContext)) (hu : UnitSpans rows) :
    (maxRowLen rows = 0 → buildTable blank rows = .ok none) ∧
    (0 < maxRowLen rows → ∃ t, buildTable blank rows = .ok (some t) ∧
      t.Rows = rows.length ∧ t.Cols = ((min (maxRowLen rows) 100 : Nat) : Int) ∧
      Dense t.Cells rows.length (min (maxRowLen rows) 100) ∧
      ∀ (r i : Nat) (row : List cellContext) (cell : cellContext),
        rows[r]? = some row → row[i]? = some cell → i < 100 →
        cellAt t.Cells r i = some (toCell cell)) := by
  have hc := countCols_unit rows hu
  constructor
  · intro h0
    rw [buildTable_eq_none]
    right
    rw [hc, h0]
    rfl
  · intro hpos
    have hne : rows.length ≠ 0 := by
      intro h
      have : rows = [] := List.length_eq_zero.mp h
      rw [this] at hpos
      simp [maxRowLen] at hpos
    obtain ⟨occ2, cells2, hp, -⟩ := placeRows_unit (min (maxRowLen rows) 100) (by omega) rows hu 0
      (List.replicate rows.length (List.replicate (min (maxRowLen rows) 100) false))
      (NewTable blank rows.length ((min (maxRowLen rows) 100 : Nat) : Int)).Cells
      (freeFrom_replicate _ _ _ _)
    have hpp : placePass blank rows ((min (maxRowLen rows) 100 : Nat) : Int) =
        .ok (occ2, cells2, rows.map fun row => List.range' 0 (min row.length (min (maxRowLen rows) 100))) := by
      rw [placePass_of_le _ _ _ (by omega) (by unfold maxAlloc; omega), Int.toNat_ofNat]
      exact hp
    have hd := placePass_dense _ _ _ _ _ _ hpp
    rw [Int.toNat_ofNat] at hd
    have hw0 : ((min (maxRowLen rows) 100 : Nat) : Int) ≠ 0 := by omega
    refine ⟨{ Rows := rows.length, Cols := ((min (maxRowLen rows) 100 : Nat) : Int),
              Cells := cells2, HasHeader := decide (rows.length > 1) }, ?_, rfl, rfl, hd, ?_⟩
    · unfold buildTable
      rw [if_neg hne, hc]
      dsimp only
      rw [if_neg hw0, hpp]
      dsimp only
      by_cases h1 : rows.length > 1 <;> simp [h1, NewTable, TableBlock.SetHeaderRow]
    · intro r i row cell hrow hcell hi
      obtain ⟨-, -, h3⟩ := placeRows_cells _ _ _ _ _ _ _ _ hp
      have hr : r < rows.length := (List.getElem?_eq_some.mp hrow).1
      have hil : i < row.length := (List.getElem?_eq_some.mp hcell).1
      have hlen := length_le_maxRowLen rows r row hrow
      have hcols : (rows.map fun row => List.range' 0
          (min row.length (min (maxRowLen rows) 100)))[r]? =
          some (List.range' 0 (min row.length (min (maxRowLen rows) 100))) := by
        rw [List.getElem?_map, hrow]
        rfl
      obtain ⟨-, -, -, h4⟩ := h3 r row _ hrow hcols
      have hget : (List.range' 0 (min row.length (min (maxRowLen rows) 100)))[i]? = some i := by
        rw [List.getElem?_range' 0 1 (by omega)]
        simp
      have := h4 (List.nodup_range' _ _) i i cell hget hcell
      rw [Nat.zero_add] at this
      show cellAt cells2 r i = some (toCell cell)
      rw [this]
      simp only [NewTable, Int.toNat_ofNat]
      rw [cellAt_replicate blank _ _ r i hr (by omega)]
      rfl

/-- C1 (amended). On a table without spans the builder returns none when no row has a cell;
otherwise it returns a table with rows = number of input rows and cols = the length of the
longest row capped at 100, whose grid cell (r, i) holds the trimmed text (and spans 1) of
the i-th input cell of row r for every i below the row length and below 100. -/
theorem buildTable_unit_spans (blank : Cell) (rows : List (List cellContext))
    (hu : UnitSpans rows) :
    (maxRowLen rows = 0 → buildTable blank rows = .ok none) ∧
    (0 < maxRowLen rows → ∃ t, buildTable blank rows = .ok (some t) ∧
      t.Rows = rows.length ∧ t.Cols = ((min (maxRowLen rows) 100 : Nat) : Int) ∧
      ∀ (r i : Nat) (row : List cellContext) (cell : cellContext),
        rows[r]? = some row → row[i]? = some cell → i < 100 →
        cellAt t.Cells r i = some { Text := TrimSpace cell.text, ColSpan := 1, RowSpan := 1 }) := by
  obtain ⟨h1, h2⟩ := buildTable_unit blank rows hu
  refine ⟨h1, fun hpos => ?_⟩
  obtain ⟨t, a, b, c, -, e⟩ := h2 hpos
  refine ⟨t, a, b, c, ?_⟩
  intro r i row cell hrow hcell hi
  rw [e r i row cell hrow hcell hi]
  have hmem : cell ∈ row := List.getElem?_mem hcell
  have hrm : row ∈ rows := List.getElem?_mem hrow
  obtain ⟨x, y⟩ := hu row hrm cell hmem
  simp [toCell, x, y]

theorem cellAt_none_of_dense (g : List (List Cell)) (n w r c : Nat) (h : Dense g n w)
    (hc : w ≤ c) : cellAt g r c = none := by
  unfold cellAt
  rw [List.getD_eq_getElem?_getD]
  cases hr : g[r]? with
  | none => simp
  | some row =>
    have := h.2 row (List.getElem?_mem hr)
    simp only [Option.getD_some]
    exact List.getElem?_eq_none (by omega)

theorem buildTable_unit_spans_witness :
    UnitSpans [[⟨"A1", 1, 1⟩, ⟨"B1", 1, 1⟩], [⟨"A2", 1, 1⟩, ⟨"B2", 1, 1⟩]] ∧
    ∃ t, buildTable ⟨"", 1, 1⟩ [[⟨"A1", 1, 1⟩, ⟨"B1", 1, 1⟩], [⟨"A2", 1, 1⟩, ⟨"B2", 1, 1⟩]] =
        .ok (some t) ∧ t.Rows = 2 ∧ t.Cols = 2 ∧ cellAt t.Cells 0 0 = some ⟨"A1", 1, 1⟩ := by
  have hu : UnitSpans [[⟨"A1", 1, 1⟩, ⟨"B1", 1, 1⟩], [⟨"A2", 1, 1⟩, ⟨"B2", 1, 1⟩]] := by
    unfold UnitSpans
    decide
  refine ⟨hu, ?_⟩
  obtain ⟨t, a, b, c, d⟩ := (buildTable_unit_spans ⟨"", 1, 1⟩ _ hu).2 (by decide)
  exact ⟨t, a, b, c, d 0 0 _ _ rfl rfl (by decide)⟩

/-- C1 (counterexample). One row of 101 cells without spans: the table has 100 columns, not
101, and no grid position for the last cell. -/
theorem buildTable_unit_spans_counterexample :
    UnitSpans [List.replicate 101 ⟨"x", 1, 1⟩] ∧
    maxRowLen [List.replicate 101 ⟨"x", 1, 1⟩] = 101 ∧
    (List.replicate 101 (⟨"x", 1, 1⟩ : cellContext))[100]? = some ⟨"x", 1, 1⟩ ∧
    ∃ t, buildTable ⟨"", 1, 1⟩ [List.replicate 101 ⟨"x", 1, 1⟩] = .ok (some t) ∧
      t.Cols = 100 ∧ cellAt t.Cells 0 100 = none := by
  have hu : UnitSpans [List.replicate 101 ⟨"x", 1, 1⟩] := by
    intro row hrow cell hcell
    rw [List.mem_singleton] at hrow
    subst hrow
    rw [List.eq_of_mem_replicate hcell]
    exact ⟨rfl, rfl⟩
  have hm : maxRowLen [List.replicate 101 ⟨"x", 1, 1⟩] = 101 := by
    simp [maxRowLen]
  refine ⟨hu, hm, by simp [List.getElem?_replicate], ?_⟩
  obtain ⟨t, a, -, c, d, -⟩ := (buildTable_unit ⟨"", 1, 1⟩ _ hu).2 (by rw [hm]; omega)
  rw [hm] at c d
  exact ⟨t, a, c, cellAt_none_of_dense _ _ _ 0 100 d (by omega)⟩

/-! ## Pass 2: the columns of a row increase when every span is positive -/

theorem placeRows_row (maxCols : Int) (rows : List (List cellContext)) :
    ∀ (rowIdx : Nat) (occ : Occupancy) (cells : List (List Cell)) (occ2 : Occupancy)
      (cells2 : List (List Cell)) (colss : List (List Nat)),
      placeRows maxCols rowIdx rows occ cells = .ok (occ2, cells2, colss) →
      ∀ (r : Nat) (row : List cellContext) (cols : List Nat),
        rows[r]? = some row → colss[r]? = some cols →
        ∃ occA cellsA occB cellsB,
          placeRow (rowIdx + r) maxCols row 0 occA cellsA = .ok (occB, cellsB, cols) := by
  induction rows with
  | nil =>
    intro rowIdx occ cells occ2 cells2 colss _ r row cols hrow
    simp at hrow
  | cons row0 rest ih =>
    intro rowIdx occ cells occ2 cells2 colss h r row cols hrow hcols
    simp only [placeRows] at h
    split at h
    · cases h
    · rename_i occ1 cells1 cols0 h1
      split at h
      · cases h
      · rename_i occ3 cells3 colss3 h2
        simp only [Except.ok.injEq, Prod.mk.injEq] at h
        obtain ⟨rfl, rfl, rfl⟩ := h
        cases r with
        | zero =>
          simp only [List.getElem?_cons_zero, Option.some.injEq] at hrow hcols
          subst hrow hcols
          exact ⟨occ, cells, occ1, cells1, h1⟩
        | succ j =>
          simp only [List.getElem?_cons_succ] at hrow hcols
          obtain ⟨a, b, c, d, e⟩ := ih _ _ _ _ _ _ h2 j row cols hrow hcols
          have e2 : rowIdx + 1 + j = rowIdx + (j + 1) := by omega
          rw [e2] at e
          exact ⟨a, b, c, d, e⟩

theorem placeRow_neg_cursor (rowIdx : Nat) (maxCols : Int) (row : List cellContext)
    (colIdx : Int) (occ : Occupancy) (cells : List (List Cell)) (occ2 : Occupancy)
    (cells2 : List (List Cell)) (cols : List Nat) (hneg : colIdx < 0)
    (h : placeRow rowIdx maxCols row colIdx occ cells = .ok (occ2, cells2, cols)) : cols = [] := by
  cases row with
  | nil =>
    simp only [placeRow, Except.ok.injEq, Prod.mk.injEq] at h
    exact h.2.2.symm
  | cons cell rest =>
    rcases placeRow_cons_ok _ _ _ _ _ _ _ _ _ _ h with ⟨-, -, -, rfl⟩ | ⟨h0, -⟩
    · rfl
    · omega

theorem placeRow_cols_increasing (rowIdx : Nat) (maxCols : Int) (hmax : maxCols ≤ maxInt + 1)
    (row : List cellContext) :
    (∀ cell ∈ row, 1 ≤ cell.colSpan ∧ cell.colSpan ≤ maxInt) →
    ∀ (colIdx : Int) (occ : Occupancy) (cells : List (List Cell)) (occ2 : Occupancy)
      (cells2 : List (List Cell)) (cols : List Nat),
      placeRow rowIdx maxCols row colIdx occ cells = .ok (occ2, cells2, cols) →
      cols.Pairwise (fun a b => a < b) ∧ ∀ c : Nat, c ∈ cols → colIdx ≤ (c : Int) := by
  induction row with
  | nil =>
    intro _ colIdx occ cells occ2 cells2 cols h
    simp only [placeRow, Except.ok.injEq, Prod.mk.injEq] at h
    obtain ⟨-, -, rfl⟩ := h
    simp
  | cons cell rest ih =>
    intro hs colIdx occ cells occ2 cells2 cols h
    obtain ⟨hs1, hs2⟩ := hs cell (List.mem_cons_self _ _)
    rcases placeRow_cons_ok _ _ _ _ _ _ _ _ _ _ h with ⟨-, -, -, rfl⟩ | ⟨h0, h1, hc, cols1, rfl, hrec⟩
    · simp
    · have hge := nextFree_ge (occ.getD rowIdx []) colIdx.toNat
      have hcol : colIdx ≤ (nextFree (occ.getD rowIdx []) colIdx.toNat : Int) := by omega
      by_cases hov : (nextFree (occ.getD rowIdx []) colIdx.toNat : Int) + cell.colSpan ≤ maxInt
      · obtain ⟨p1, p2⟩ := ih (fun x hx => hs x (List.mem_cons_of_mem _ hx)) _ _ _ _ _ _ hrec
        rw [wrap64_eq_self _ (by unfold minInt; norm_num; omega) hov] at p2
        refine ⟨List.pairwise_cons.mpr ⟨?_, p1⟩, ?_⟩
        · intro c hcm
          have := p2 c hcm
          omega
        · intro c hcm
          rcases List.mem_cons.mp hcm with rfl | hcm
          · exact hcol
          · have := p2 c hcm
            omega
      · have hneg := wrap64_neg_of_gt _ (not_le.mp hov) (by omega)
        have := placeRow_neg_cursor _ _ _ _ _ _ _ _ _ hneg hrec
        subst this
        refine ⟨by simp, ?_⟩
        intro c hcm
        rw [List.mem_singleton] at hcm
        subst hcm
        exact hcol

theorem nextFree_eq_of (row : List Bool) (c k : Nat) (h1 : ∀ i, i < k → row[c + i]? = some true)
    (h2 : row[c + k]? ≠ some true) : nextFree row c = c + k := by
  obtain ⟨k1, e, -, g1, g2⟩ := nextFree_spec row c
  rw [e]
  rcases Nat.lt_trichotomy k k1 with hlt | heq | hgt
  · exact absurd (g1 k hlt) h2
  · rw [heq]
  · exact absurd (h1 k1 hgt) g2

/-! ## Pass 2 repeats pass 1 when pass 1 places every cell -/

theorem getElem?_replicate_row_any (n a r k : Nat) :
    ((List.replicate n (List.replicate a false)).getD r [])[k]? =
      if r < n ∧ k < a then some false else none := by
  simp only [List.getD_eq_getElem?_getD, List.getElem?_replicate]
  by_cases h1 : r < n
  · by_cases h2 : k < a <;> simp [List.getElem?_replicate, h1, h2]
  · simp [h1]

theorem getElem?_replicate_row (n a r k : Nat) (h : k < a) :
    ((List.replicate n (List.replicate a false)).getD r [])[k]? =
      if r < n then some false else none := by
  simp only [List.getD_eq_getElem?_getD, List.getElem?_replicate]
  split <;> simp [List.getElem?_replicate, h]

theorem agree_replicate (n w : Nat) :
    Agree (List.replicate n (List.replicate 100 false))
      (List.replicate n (List.replicate w false)) w := by
  intro r k h1 h2
  rw [getElem?_replicate_row n 100 r k h1, getElem?_replicate_row n w r k h2]

theorem agree_markOccupied (occ1 occ2 : Occupancy) (w rowIdx colIdx : Nat) (rowEnd colEnd : Int)
    (h : Agree occ1 occ2 w) :
    Agree (markOccupied occ1 rowIdx rowEnd colIdx colEnd)
      (markOccupied occ2 rowIdx rowEnd colIdx colEnd) w := by
  intro r k h1 h2
  rw [getElem?_markOccupied_row, getElem?_markOccupied_row, h r k h1 h2]

theorem placeRow_follows_countRow (rowIdx w : Nat) (row : List cellContext) :
    (∀ cell ∈ row, 1 ≤ cell.colSpan ∧ cell.colSpan ≤ maxInt - 99) →
    ∀ (colIdx : Int) (occ1 : Occupancy) (m : Int) (occ3 : Occupancy) (m3 : Int) (cols : List Nat)
      (occ2 : Occupancy) (cells : List (List Cell)),
      countRow rowIdx row colIdx occ1 m = .ok (occ3, m3, cols) → cols.length = row.length →
      m3 ≤ (w : Int) → Agree occ1 occ2 w →
      ∃ occ4 cells4, placeRow rowIdx (w : Int) row colIdx occ2 cells = .ok (occ4, cells4, cols) ∧
        Agree occ3 occ4 w := by
  induction row with
  | nil =>
    intro _ colIdx occ1 m occ3 m3 cols occ2 cells h _ _ ha
    simp only [countRow, Except.ok.injEq, Prod.mk.injEq] at h
    obtain ⟨rfl, rfl, rfl⟩ := h
    exact ⟨occ2, cells, by simp [placeRow], ha⟩
  | cons cell rest ih =>
    intro hs colIdx occ1 m occ3 m3 cols occ2 cells h hlen hm ha
    obtain ⟨hs1, hs2⟩ := hs cell (List.mem_cons_self _ _)
    obtain ⟨h0, hcase⟩ := countRow_cons_ok _ _ _ _ _ _ _ _ _ h
    rcases hcase with ⟨-, -, -, rfl⟩ | ⟨hc, cols1, rfl, hrec⟩
    · simp at hlen
    · have hge := nextFree_ge (occ1.getD rowIdx []) colIdx.toNat
      have hw : wrap64 ((nextFree (occ1.getD rowIdx []) colIdx.toNat : Int) + cell.colSpan) =
          (nextFree (occ1.getD rowIdx []) colIdx.toNat : Int) + cell.colSpan :=
        wrap64_eq_self _ (by unfold minInt; norm_num; omega) (by omega)
      have hmono := countRow_maxCols_le _ _ _ _ _ _ _ _ hrec
      rw [hw] at hmono
      have hcw : nextFree (occ1.getD rowIdx []) colIdx.toNat < w := by
        split at hmono <;> omega
      have hsame : nextFree (occ2.getD rowIdx []) colIdx.toNat =
          nextFree (occ1.getD rowIdx []) colIdx.toNat := by
        obtain ⟨k, e, -, g1, g2⟩ := nextFree_spec (occ1.getD rowIdx []) colIdx.toNat
        rw [e]
        apply nextFree_eq_of
        · intro i hi
          rw [← ha rowIdx (colIdx.toNat + i) (by omega) (by omega)]
          exact g1 i hi
        · rw [← ha rowIdx (colIdx.toNat + k) (by omega) (by omega)]
          exact g2
      obtain ⟨occ4, cells4, hp, ha4⟩ := ih (fun x hx => hs x (List.mem_cons_of_mem _ hx)) _ _ _ _ _ _
        (markOccupied occ2 rowIdx (wrap64 ((rowIdx : Int) + cell.rowSpan))
          (nextFree (occ1.getD rowIdx []) colIdx.toNat)
          (wrap64 ((nextFree (occ1.getD rowIdx []) colIdx.toNat : Int) + cell.colSpan)))
        (writeCell cells rowIdx (nextFree (occ1.getD rowIdx []) colIdx.toNat) cell)
        hrec (by simpa using hlen) hm (agree_markOccupied _ _ _ _ _ _ _ ha)
      refine ⟨occ4, cells4, ?_, ha4⟩
      rw [placeRow, if_neg (by omega), if_neg (by omega)]
      dsimp only
      rw [hsame, if_neg (by omega), hp]

theorem placeRows_follows_countRows (w : Nat) (rows : List (List cellContext)) :
    (∀ row ∈ rows, ∀ cell ∈ row, 1 ≤ cell.colSpan ∧ cell.colSpan ≤ maxInt - 99) →
    ∀ (rowIdx : Nat) (occ1 : Occupancy) (m : Int) (occ3 : Occupancy) (m3 : Int)
      (colss : List (List Nat)) (occ2 : Occupancy) (cells : List (List Cell)),
      countRows rowIdx rows occ1 m = .ok (occ3, m3, colss) →
      colss.map List.length = rows.map List.length →
      m3 ≤ (w : Int) → Agree occ1 occ2 w →
      ∃ occ4 cells4, placeRows (w : Int) rowIdx rows occ2 cells = .ok (occ4, cells4, colss) ∧
        Agree occ3 occ4 w := by
  induction rows with
  | nil =>
    intro _ rowIdx occ1 m occ3 m3 colss occ2 cells h _ _ ha
    simp only [countRows, Except.ok.injEq, Prod.mk.injEq] at h
    obtain ⟨rfl, rfl, rfl⟩ := h
    exact ⟨occ2, cells, by simp [placeRows], ha⟩
  | cons row rest ih =>
    intro hs rowIdx occ1 m occ3 m3 colss occ2 cells h hlen hm ha
    simp only [countRows] at h
    split at h
    · cases h
    · rename_i occA mA colsA h1
      split at h
      · cases h
      · rename_i occB mB colssB h2
        simp only [Except.ok.injEq, Prod.mk.injEq] at h
        obtain ⟨rfl, rfl, rfl⟩ := h
        simp only [List.map_cons, List.cons.injEq] at hlen
        have hmono := countRows_maxCols_le _ _ _ _ _ _ _ h2
        obtain ⟨occ4, cells4, p1, a1⟩ := placeRow_follows_countRow rowIdx w row
          (hs row (List.mem_cons_self _ _)) _ _ _ _ _ _ occ2 cells h1 hlen.1 (by omega) ha
        obtain ⟨occ5, cells5, p2, a2⟩ := ih (fun x hx => hs x (List.mem_cons_of_mem _ hx)) _ _ _ _ _ _
          occ4 cells4 h2 hlen.2 hm a1
        refine ⟨occ5, cells5, ?_, a2⟩
        rw [placeRows, p1]
        dsimp only
        rw [p2]

theorem wrap64_le_maxInt (x : Int) : wrap64 x ≤ maxInt := by
  unfold wrap64 maxInt
  norm_num
  omega

theorem countRow_maxCols_le_maxInt (rowIdx : Nat) (row : List cellContext) :
    ∀ (colIdx : Int) (occ : Occupancy) (m : Int) (occ2 : Occupancy) (m2 : Int) (cols : List Nat),
      countRow rowIdx row colIdx occ m = .ok (occ2, m2, cols) → m ≤ maxInt → m2 ≤ maxInt := by
  induction row with
  | nil =>
    intro colIdx occ m occ2 m2 cols h hm
    simp only [countRow, Except.ok.injEq, Prod.mk.injEq] at h
    omega
  | cons cell rest ih =>
    intro colIdx occ m occ2 m2 cols h hm
    obtain ⟨-, hcase⟩ := countRow_cons_ok _ _ _ _ _ _ _ _ _ h
    rcases hcase with ⟨-, -, rfl, -⟩ | ⟨-, cols1, -, hrec⟩
    · exact hm
    · refine ih _ _ _ _ _ _ hrec ?_
      have := wrap64_le_maxInt
        ((nextFree (occ.getD rowIdx []) colIdx.toNat : Int) + cell.colSpan)
      split <;> omega

theorem countRows_maxCols_le_maxInt (rows : List (List cellContext)) :
    ∀ (rowIdx : Nat) (occ : Occupancy) (m : Int) (occ2 : Occupancy) (m2 : Int)
      (colss : List (List Nat)),
      countRows rowIdx rows occ m = .ok (occ2, m2, colss) → m ≤ maxInt → m2 ≤ maxInt := by
  induction rows with
  | nil =>
    intro rowIdx occ m occ2 m2 colss h hm
    simp only [countRows, Except.ok.injEq, Prod.mk.injEq] at h
    omega
  | cons row rest ih =>
    intro rowIdx occ m occ2 m2 colss h hm
    simp only [countRows] at h
    split at h
    · cases h
    · rename_i h1
      split at h
      · cases h
      · rename_i h2
        simp only [Except.ok.injEq, Prod.mk.injEq] at h
        obtain ⟨-, rfl, -⟩ := h
        exact ih _ _ _ _ _ _ h2 (countRow_maxCols_le_maxInt _ _ _ _ _ _ _ _ h1 hm)

theorem countCols_le_maxInt (rows : List (List cellContext)) (m : Int)
    (h : countCols rows = .ok m) : m ≤ maxInt := by
  unfold countCols at h
  split at h
  · cases h
  · rename_i h1
    simp only [Except.ok.injEq] at h
    subst h
    exact countRows_maxCols_le_maxInt _ _ _ _ _ _ _ h1 (by unfold maxInt; norm_num)

/-- C2 (amended). When every cell has a col_span between 1 and the largest int minus 99 and
the builder returns a table: the cells written in grid row r are the first cells of input
row r, in input order at strictly increasing columns (so none is overwritten), and the
grid holds each of them with its trimmed text and declared spans; when moreover pass 1
placed every input cell, every input cell is written (none is dropped). -/
theorem buildTable_lossless (blank : Cell) (rows : List (List cellContext)) (t : TableBlock)
    (hs : ∀ row ∈ rows, ∀ cell ∈ row, 1 ≤ cell.colSpan ∧ cell.colSpan ≤ maxInt - 99)
    (h : buildTable blank rows = .ok (some t)) :
    ∃ colss, placedCols blank rows = .ok colss ∧ colss.length = rows.length ∧
      (∀ (r : Nat) (row : List cellContext) (cols : List Nat),
        rows[r]? = some row → colss[r]? = some cols →
        cols.length ≤ row.length ∧ cols.Pairwise (fun a b => a < b) ∧
        ∀ (i c : Nat) (cell : cellContext), cols[i]? = some c → row[i]? = some cell →
          cellAt t.Cells r c = some (toCell cell)) ∧
      (CountPlacesAll rows → colss.map List.length = rows.map List.length) := by
  obtain ⟨maxCols, occ, cells, colss, hne, hc, hm, hp, rfl⟩ := buildTable_eq_some blank rows t h
  have hmax := countCols_le_maxInt rows maxCols hc
  have hpr := (placePass_ok _ _ _ _ hp).1
  refine ⟨colss, ?_, ?_, ?_, ?_⟩
  · unfold placedCols
    rw [hc]
    dsimp only
    rw [hp]
  · exact (placeRows_cells _ _ _ _ _ _ _ _ hpr).1
  · intro r row cols hrow hcols
    obtain ⟨-, -, h3⟩ := placeRows_cells _ _ _ _ _ _ _ _ hpr
    obtain ⟨a1, a2, -, a4⟩ := h3 r row cols hrow hcols
    obtain ⟨occA, cellsA, occB, cellsB, hrowp⟩ := placeRows_row _ _ _ _ _ _ _ _ hpr r row cols hrow hcols
    have hrm : row ∈ rows := List.getElem?_mem hrow
    obtain ⟨hpw, -⟩ := placeRow_cols_increasing _ maxCols (by omega) row
      (fun cell hcell => ⟨(hs row hrm cell hcell).1, by have := (hs row hrm cell hcell).2; omega⟩)
      _ _ _ _ _ _ hrowp
    refine ⟨a1, hpw, ?_⟩
    intro i c cell hi hcell
    have hnd : cols.Nodup := hpw.imp (fun hab => Nat.ne_of_lt hab)
    have hv := a4 hnd i c cell hi hcell
    rw [Nat.zero_add] at hv
    show cellAt cells r c = some (toCell cell)
    rw [hv]
    have hr : r < rows.length := (List.getElem?_eq_some.mp hrow).1
    have hcw := a2 c (List.getElem?_mem hi)
    simp only [NewTable]
    rw [cellAt_replicate blank _ _ r c hr (by omega)]
    rfl
  · rintro ⟨occ1, m1, colss1, hcp, hall⟩
    have hm1 : maxCols = m1 := by
      unfold countCols at hc
      rw [hcp] at hc
      simpa using hc.symm
    subst hm1
    unfold countPass at hcp
    obtain ⟨occ4, cells4, hp2, -⟩ := placeRows_follows_countRows maxCols.toNat rows hs 0 _ _ _ _ _
      (List.replicate rows.length (List.replicate maxCols.toNat false))
      (NewTable blank rows.length maxCols).Cells hcp hall (by omega) (agree_replicate _ _)
    have e : ((maxCols.toNat : Nat) : Int) = maxCols := by omega
    rw [e] at hp2
    rw [hp2] at hpr
    simp only [Except.ok.injEq, Prod.mk.injEq] at hpr
    rw [← hpr.2.2]
    exact hall

/-- C2 (counterexample). A cell with col_span 0 followed by another cell: both are written
to column 0, so the returned 1 x 1 grid holds only the second one. -/
theorem buildTable_lossless_counterexample :
    buildTable ⟨"", 1, 1⟩ [[⟨"a", 0, 1⟩, ⟨"b", 1, 1⟩]] =
      .ok (some ⟨1, 1, [[⟨"b", 1, 1⟩]], false⟩) ∧
    placedCols ⟨"", 1, 1⟩ [[⟨"a", 0, 1⟩, ⟨"b", 1, 1⟩]] = .ok [[0, 0]] :=
  ⟨rfl, rfl⟩

theorem buildTable_lossless_witness :
    buildTable ⟨"", 1, 1⟩ [[⟨"x", 1, 1⟩, ⟨"y", 1, 1⟩, ⟨"z", 1, 2⟩], [⟨"a", 2, 1⟩, ⟨"b", 1, 1⟩]] =
      .ok (some ⟨2, 4, [[⟨"x", 1, 1⟩, ⟨"y", 1, 1⟩, ⟨"z", 1, 2⟩, ⟨"", 1, 1⟩],
        [⟨"a", 2, 1⟩, ⟨"", 1, 1⟩, ⟨"", 1, 1⟩, ⟨"b", 1, 1⟩]], true⟩) ∧
    CountPlacesAll [[⟨"x", 1, 1⟩, ⟨"y", 1, 1⟩, ⟨"z", 1, 2⟩], [⟨"a", 2, 1⟩, ⟨"b", 1, 1⟩]] ∧
    ∃ colss, placedCols ⟨"", 1, 1⟩
        [[⟨"x", 1, 1⟩, ⟨"y", 1, 1⟩, ⟨"z", 1, 2⟩], [⟨"a", 2, 1⟩, ⟨"b", 1, 1⟩]] = .ok colss ∧
      colss.map List.length = [3, 2] := by
  have hall : CountPlacesAll
      [[⟨"x", 1, 1⟩, ⟨"y", 1, 1⟩, ⟨"z", 1, 2⟩], [⟨"a", 2, 1⟩, ⟨"b", 1, 1⟩]] :=
    ⟨_, _, _, rfl, rfl⟩
  refine ⟨rfl, hall, ?_⟩
  obtain ⟨colss, a, -, -, d⟩ := buildTable_lossless ⟨"", 1, 1⟩
    [[⟨"x", 1, 1⟩, ⟨"y", 1, 1⟩, ⟨"z", 1, 2⟩], [⟨"a", 2, 1⟩, ⟨"b", 1, 1⟩]] _
    (by unfold maxInt; decide) rfl
  exact ⟨colss, a, d hall⟩

/-! ## Pass 2: every skipped column lies in the footprint of an earlier cell -/

theorem markOccupied_covered (occ : Occupancy) (rowIdx c : Nat) (cell : cellContext)
    (Q : Nat → Nat → Prop) (hq : ∀ r k : Nat, (occ.getD r [])[k]? = some true → Q r k)
    (r k : Nat)
    (h : ((markOccupied occ rowIdx (wrap64 ((rowIdx : Int) + cell.rowSpan)) c
      (wrap64 ((c : Int) + cell.colSpan))).getD r [])[k]? = some true) :
    Q r k ∨ Covers rowIdx c cell r k := by
  rw [getElem?_markOccupied_row] at h
  split at h
  · rename_i hin
    exact Or.inr hin
  · exact Or.inl (hq r k h)

theorem placeRow_gaps (rowIdx : Nat) (maxCols : Int) (row : List cellContext) :
    ∀ (colIdx : Int) (occ : Occupancy) (cells : List (List Cell)) (occ2 : Occupancy)
      (cells2 : List (List Cell)) (cols : List Nat) (Q : Nat → Nat → Prop),
      placeRow rowIdx maxCols row colIdx occ cells = .ok (occ2, cells2, cols) →
      (∀ r k : Nat, (occ.getD r [])[k]? = some true → Q r k) →
      (∀ r k : Nat, (occ2.getD r [])[k]? = some true →
        Q r k ∨ ∃ (j c0 : Nat) (cell : cellContext),
          row[j]? = some cell ∧ cols[j]? = some c0 ∧ Covers rowIdx c0 cell r k) ∧
      (∀ c : Nat, cols[0]? = some c →
        0 ≤ colIdx ∧ colIdx ≤ (c : Int) ∧
          ∀ k : Nat, colIdx ≤ (k : Int) → k < c → Q rowIdx k) ∧
      (∀ (j c c1 : Nat) (cell : cellContext),
        row[j]? = some cell → cols[j]? = some c → cols[j + 1]? = some c1 →
        0 ≤ wrap64 ((c : Int) + cell.colSpan) ∧ wrap64 ((c : Int) + cell.colSpan) ≤ (c1 : Int) ∧
        ∀ k : Nat, wrap64 ((c : Int) + cell.colSpan) ≤ (k : Int) → k < c1 →
          Q rowIdx k ∨ ∃ (j0 c0 : Nat) (cell0 : cellContext), j0 ≤ j ∧
            row[j0]? = some cell0 ∧ cols[j0]? = some c0 ∧ Covers rowIdx c0 cell0 rowIdx k) := by
  induction row with
  | nil =>
    intro colIdx occ cells occ2 cells2 cols Q h hq
    simp only [placeRow, Except.ok.injEq, Prod.mk.injEq] at h
    obtain ⟨rfl, -, rfl⟩ := h
    refine ⟨fun r k hk => Or.inl (hq r k hk), ?_, ?_⟩
    · intro c hc
      simp at hc
    · intro j c c1 cell hj
      simp at hj
  | cons cell rest ih =>
    intro colIdx occ cells occ2 cells2 cols Q h hq
    rcases placeRow_cons_ok _ _ _ _ _ _ _ _ _ _ h with
      ⟨-, rfl, -, rfl⟩ | ⟨h0, h1, hc, cols1, rfl, hrec⟩
    · refine ⟨fun r k hk => Or.inl (hq r k hk), ?_, ?_⟩
      · intro c hc
        simp at hc
      · intro j c c1 cell1 _ hj
        simp at hj
    · obtain ⟨ia, ib, ic⟩ := ih _ _ _ _ _ _
        (fun r k => Q r k ∨ Covers rowIdx (nextFree (occ.getD rowIdx []) colIdx.toNat) cell r k)
        hrec (markOccupied_covered occ rowIdx _ cell Q hq)
      refine ⟨?_, ?_, ?_⟩
      · intro r k hk
        rcases ia r k hk with (hQ | hC) | ⟨j, c0, cell1, e1, e2, e3⟩
        · exact Or.inl hQ
        · exact Or.inr ⟨0, _, cell, by simp, List.getElem?_cons_zero, hC⟩
        · exact Or.inr ⟨j + 1, c0, cell1, by simpa using e1, by simpa using e2, e3⟩
      · intro c hc0
        simp only [List.getElem?_cons_zero, Option.some.injEq] at hc0
        subst hc0
        obtain ⟨kk, e, -, g1, -⟩ := nextFree_spec (occ.getD rowIdx []) colIdx.toNat
        refine ⟨h0, by omega, ?_⟩
        intro k hk1 hk2
        have hk3 : k = colIdx.toNat + (k - colIdx.toNat) := by omega
        rw [hk3]
        exact hq rowIdx _ (g1 (k - colIdx.toNat) (by omega))
      · intro j c c1 cell1 hj hcj hcj1
        cases j with
        | zero =>
          simp only [List.getElem?_cons_zero, Option.some.injEq] at hj hcj
          subst hj hcj
          simp only [Nat.zero_add, List.getElem?_cons_succ] at hcj1
          obtain ⟨b0, b1, b2⟩ := ib c1 hcj1
          refine ⟨b0, b1, ?_⟩
          intro k hk1 hk2
          rcases b2 k hk1 hk2 with hQ | hC
          · exact Or.inl hQ
          · exact Or.inr ⟨0, _, cell, le_refl _, by simp, List.getElem?_cons_zero, hC⟩
        | succ j1 =>
          simp only [List.getElem?_cons_succ] at hj hcj hcj1
          obtain ⟨b0, b1, b2⟩ := ic j1 c c1 cell1 hj hcj hcj1
          refine ⟨b0, b1, ?_⟩
          intro k hk1 hk2
          rcases b2 k hk1 hk2 with (hQ | hC) | ⟨j0, c0, cell0, e0, e1, e2, e3⟩
          · exact Or.inl hQ
          · exact Or.inr ⟨0, _, cell, Nat.zero_le _, by simp, List.getElem?_cons_zero, hC⟩
          · exact Or.inr ⟨j0 + 1, c0, cell0, by omega, by simpa using e1, by simpa using e2, e3⟩

theorem placedAt_zero (row0 : List cellContext) (rest : List (List cellContext))
    (cols0 : List Nat) (colss : List (List Nat)) (j c0 : Nat) (cell : cellContext)
    (h1 : row0[j]? = some cell) (h2 : cols0[j]? = some c0) :
    PlacedAt (row0 :: rest) (cols0 :: colss) 0 j c0 cell :=
  ⟨row0, cols0, by simp, by simp, h1, h2⟩

theorem placedAt_succ (row0 : List cellContext) (rest : List (List cellContext))
    (cols0 : List Nat) (colss : List (List Nat)) (r0 j c0 : Nat) (cell : cellContext)
    (h : PlacedAt rest colss r0 j c0 cell) :
    PlacedAt (row0 :: rest) (cols0 :: colss) (r0 + 1) j c0 cell := by
  obtain ⟨row1, cols1, a, b, c, d⟩ := h
  exact ⟨row1, cols1, by simpa using a, by simpa using b, c, d⟩

theorem placeRows_gaps (maxCols : Int) (rows : List (List cellContext)) :
    ∀ (rowIdx : Nat) (occ : Occupancy) (cells : List (List Cell)) (occ2 : Occupancy)
      (cells2 : List (List Cell)) (colss : List (List Nat)) (Q : Nat → Nat → Prop),
      placeRows maxCols rowIdx rows occ cells = .ok (occ2, cells2, colss) →
      (∀ r k : Nat, (occ.getD r [])[k]? = some true → Q r k) →
      (∀ r k : Nat, (occ2.getD r [])[k]? = some true →
        Q r k ∨ ∃ (r0 j c0 : Nat) (cell : cellContext),
          PlacedAt rows colss r0 j c0 cell ∧ Covers (rowIdx + r0) c0 cell r k) ∧
      (∀ (r j c c1 : Nat) (row : List cellContext) (cols : List Nat) (cell : cellContext),
        rows[r]? = some row → colss[r]? = some cols →
        row[j]? = some cell → cols[j]? = some c → cols[j + 1]? = some c1 →
        0 ≤ wrap64 ((c : Int) + cell.colSpan) ∧ wrap64 ((c : Int) + cell.colSpan) ≤ (c1 : Int) ∧
        ∀ k : Nat, wrap64 ((c : Int) + cell.colSpan) ≤ (k : Int) → k < c1 →
          Q (rowIdx + r) k ∨ ∃ (r0 j0 c0 : Nat) (cell0 : cellContext),
            PlacedAt rows colss r0 j0 c0 cell0 ∧ (r0 < r ∨ (r0 = r ∧ j0 ≤ j)) ∧
            Covers (rowIdx + r0) c0 cell0 (rowIdx + r) k) := by
  induction rows with
  | nil =>
    intro rowIdx occ cells occ2 cells2 colss Q h hq
    simp only [placeRows, Except.ok.injEq, Prod.mk.injEq] at h
    obtain ⟨rfl, -, rfl⟩ := h
    refine ⟨fun r k hk => Or.inl (hq r k hk), ?_⟩
    intro r j c c1 row cols cell hrow
    simp at hrow
  | cons row0 rest ih =>
    intro rowIdx occ cells occ2 cells2 colss Q h hq
    simp only [placeRows] at h
    split at h
    · cases h
    · rename_i occ1 cells1 cols0 h1
      split at h
      · cases h
      · rename_i occ3 cells3 colss3 h2
        simp only [Except.ok.injEq, Prod.mk.injEq] at h
        obtain ⟨rfl, rfl, rfl⟩ := h
        obtain ⟨ra, -, rc⟩ := placeRow_gaps _ _ _ _ _ _ _ _ _ Q h1 hq
        obtain ⟨ia, ic⟩ := ih _ _ _ _ _ _
          (fun r k => Q r k ∨ ∃ (j c0 : Nat) (cell : cellContext),
            row0[j]? = some cell ∧ cols0[j]? = some c0 ∧ Covers rowIdx c0 cell r k) h2 ra
        refine ⟨?_, ?_⟩
        · intro r k hk
          rcases ia r k hk with (hQ | ⟨j, c0, cell, e1, e2, e3⟩) | ⟨r0, j, c0, cell, e1, e2⟩
          · exact Or.inl hQ
          · exact Or.inr ⟨0, j, c0, cell, placedAt_zero _ _ _ _ _ _ _ e1 e2, e3⟩
          · refine Or.inr ⟨r0 + 1, j, c0, cell, placedAt_succ _ _ _ _ _ _ _ _ e1, ?_⟩
            have e : rowIdx + (r0 + 1) = rowIdx + 1 + r0 := by omega
            rw [e]
            exact e2
        · intro r j c c1 row cols cell hrow hcols hj hcj hcj1
          cases r with
          | zero =>
            simp only [List.getElem?_cons_zero, Option.some.injEq] at hrow hcols
            subst hrow hcols
            obtain ⟨b0, b1, b2⟩ := rc j c c1 cell hj hcj hcj1
            refine ⟨b0, b1, ?_⟩
            intro k hk1 hk2
            rcases b2 k hk1 hk2 with hQ | ⟨j0, c0, cell0, e0, e1, e2, e3⟩
            · exact Or.inl hQ
            · exact Or.inr ⟨0, j0, c0, cell0, placedAt_zero _ _ _ _ _ _ _ e1 e2,
                Or.inr ⟨rfl, e0⟩, e3⟩
          | succ r1 =>
            simp only [List.getElem?_cons_succ] at hrow hcols
            obtain ⟨b0, b1, b2⟩ := ic r1 j c c1 row cols cell hrow hcols hj hcj hcj1
            refine ⟨b0, b1, ?_⟩
            intro k hk1 hk2
            have e : rowIdx + (r1 + 1) = rowIdx + 1 + r1 := by omega
            rw [e]
            rcases b2 k hk1 hk2 with (hQ | ⟨j0, c0, cell0, e1, e2, e3⟩) |
              ⟨r0, j0, c0, cell0, e1, e2, e3⟩
            · exact Or.inl hQ
            · exact Or.inr ⟨0, j0, c0, cell0, placedAt_zero _ _ _ _ _ _ _ e1 e2,
                Or.inl (by omega), e3⟩
            · refine Or.inr ⟨r0 + 1, j0, c0, cell0, placedAt_succ _ _ _ _ _ _ _ _ e1,
                by omega, ?_⟩
              have e4 : rowIdx + (r0 + 1) = rowIdx + 1 + r0 := by omega
              rw [e4]
              exact e3

/-- In a row without a negative col_span the cursor never moves left: a cell is written at
or right of the column at which the footprint of every earlier cell of the row ends. -/
theorem placeRow_span_end_le (rowIdx : Nat) (maxCols : Int) (hmax : maxCols ≤ maxInt + 1)
    (row : List cellContext) :
    (∀ cell ∈ row, 0 ≤ cell.colSpan ∧ cell.colSpan ≤ maxInt) →
    ∀ (colIdx : Int) (occ : Occupancy) (cells : List (List Cell)) (occ2 : Occupancy)
      (cells2 : List (List Cell)) (cols : List Nat),
      placeRow rowIdx maxCols row colIdx occ cells = .ok (occ2, cells2, cols) →
      (∀ c : Nat, c ∈ cols → colIdx ≤ (c : Int)) ∧
      ∀ (j0 j c0 cj : Nat) (cell0 : cellContext), j0 < j → cols[j0]? = some c0 →
        row[j0]? = some cell0 → cols[j]? = some cj →
        wrap64 ((c0 : Int) + cell0.colSpan) ≤ (cj : Int) := by
  induction row with
  | nil =>
    intro _ colIdx occ cells occ2 cells2 cols h
    simp only [placeRow, Except.ok.injEq, Prod.mk.injEq] at h
    obtain ⟨-, -, rfl⟩ := h
    simp
  | cons cell rest ih =>
    intro hs colIdx occ cells occ2 cells2 cols h
    obtain ⟨hs1, hs2⟩ := hs cell (List.mem_cons_self _ _)
    rcases placeRow_cons_ok _ _ _ _ _ _ _ _ _ _ h with ⟨-, -, -, rfl⟩ | ⟨h0, h1, hc, cols1, rfl, hrec⟩
    · simp
    · have hge := nextFree_ge (occ.getD rowIdx []) colIdx.toNat
      have hcol : colIdx ≤ (nextFree (occ.getD rowIdx []) colIdx.toNat : Int) := by omega
      obtain ⟨p1, p2⟩ := ih (fun x hx => hs x (List.mem_cons_of_mem _ hx)) _ _ _ _ _ _ hrec
      have hnext : ∀ c : Nat, c ∈ cols1 →
          (nextFree (occ.getD rowIdx []) colIdx.toNat : Int) ≤ (c : Int) := by
        intro c hcm
        by_cases hov : (nextFree (occ.getD rowIdx []) colIdx.toNat : Int) + cell.colSpan ≤ maxInt
        · have := p1 c hcm
          rw [wrap64_eq_self _ (by unfold minInt; norm_num; omega) hov] at this
          omega
        · have hneg := wrap64_neg_of_gt _ (not_le.mp hov) (by omega)
          have := placeRow_neg_cursor _ _ _ _ _ _ _ _ _ hneg hrec
          subst this
          simp at hcm
      constructor
      · intro c hcm
        rcases List.mem_cons.mp hcm with rfl | hcm
        · exact hcol
        · have := hnext c hcm
          omega
      · intro j0 j c0 cj cell0 hlt hc0 hcell0 hcj
        cases j with
        | zero => omega
        | succ j =>
          simp only [List.getElem?_cons_succ] at hcj
          cases j0 with
          | zero =>
            simp only [List.getElem?_cons_zero, Option.some.injEq] at hc0 hcell0
            subst hc0
            subst hcell0
            exact p1 cj (List.getElem?_mem hcj)
          | succ j0 =>
            simp only [List.getElem?_cons_succ] at hc0 hcell0
            exact p2 j0 j c0 cj cell0 (by omega) hc0 hcell0 hcj

/-- C3 (amended). In the grid that pass 2 fills: when a cell with col_span 2 is written at
column c and the next cell of the same input row is written at column c1, then c1 is at
least c + 2 (never c + 1), every column from c + 2 up to c1 that was skipped lies in the
footprint of a cell placed before (a cell of an earlier row or an earlier cell of the same
row), and c1 = c + 2 whenever column c + 2 of that row is not in such a footprint; in
particular c1 = c + 2 when no cell of the row has a negative col_span (each col_span being
an `int`, between 0 and the largest one) and column c + 2 of the row is not in the
footprint of a cell of an earlier row. -/
theorem placedCols_after_colSpan_two (blank : Cell) (rows : List (List cellContext))
    (colss : List (List Nat)) (r i c c1 : Nat) (row : List cellContext) (cols : List Nat)
    (cell : cellContext) (hp : placedCols blank rows = .ok colss)
    (hrow : rows[r]? = some row) (hcols : colss[r]? = some cols)
    (hcell : row[i]? = some cell) (hspan : cell.colSpan = 2)
    (hc : cols[i]? = some c) (hc1 : cols[i + 1]? = some c1) :
    c + 2 ≤ c1 ∧
    (∀ k : Nat, c + 2 ≤ k → k < c1 → CoveredBefore rows colss r (i + 1) k) ∧
    (¬ CoveredBefore rows colss r (i + 1) (c + 2) → c1 = c + 2) ∧
    ((∀ cell0 ∈ row, 0 ≤ cell0.colSpan ∧ cell0.colSpan ≤ maxInt) →
      (¬ ∃ (r0 j0 c0 : Nat) (cell0 : cellContext), PlacedAt rows colss r0 j0 c0 cell0 ∧ r0 < r ∧
        Covers r0 c0 cell0 r (c + 2)) →
      c1 = c + 2) := by
  unfold placedCols at hp
  split at hp
  · cases hp
  · rename_i maxCols hcc
    split at hp
    · cases hp
    · rename_i occ2 cells2 colss2 hpp
      simp only [Except.ok.injEq] at hp
      subst hp
      replace hpp := (placePass_ok _ _ _ _ hpp).1
      obtain ⟨-, hC⟩ := placeRows_gaps _ _ _ _ _ _ _ _ (fun _ _ => False) hpp (by
        intro r0 k0 hk
        rw [getElem?_replicate_row_any] at hk
        split at hk <;> simp at hk)
      obtain ⟨b0, b1, b2⟩ := hC r i c c1 row cols cell hrow hcols hcell hc hc1
      have hcm := (placeRows_cells _ _ _ _ _ _ _ _ hpp).2.2 r row cols hrow hcols
      have hcw : (c : Int) < maxCols := hcm.2.1 c (List.getElem?_mem hc)
      have hmax := countCols_le_maxInt rows maxCols hcc
      rw [hspan] at b0 b1 b2
      have hle : (c : Int) + 2 ≤ maxInt := by
        by_contra hgt
        have := wrap64_neg_of_gt ((c : Int) + 2) (by omega) (by omega)
        omega
      have hw2 : wrap64 ((c : Int) + 2) = (c : Int) + 2 :=
        wrap64_eq_self _ (by unfold minInt; norm_num; omega) hle
      rw [hw2] at b1 b2
      have hgap : ∀ k : Nat, c + 2 ≤ k → k < c1 → CoveredBefore rows colss2 r (i + 1) k := by
        intro k hk1 hk2
        rcases b2 k (by omega) hk2 with hF | ⟨r0, j0, c0, cell0, e1, e2, e3⟩
        · exact absurd hF id
        · simp only [Nat.zero_add] at e3
          exact ⟨r0, j0, c0, cell0, e1, by omega, e3⟩
      have heq : ¬ CoveredBefore rows colss2 r (i + 1) (c + 2) → c1 = c + 2 := by
        intro hn
        by_contra hne
        exact hn (hgap (c + 2) (le_refl _) (by omega))
      refine ⟨by omega, hgap, heq, ?_⟩
      intro hnn habove
      apply heq
      rintro ⟨r0, j0, c0, cell0, hpl, hord, hcov⟩
      rcases hord with hlt | ⟨hr0, hj0⟩
      · exact habove ⟨r0, j0, c0, cell0, hpl, hlt, hcov⟩
      · subst hr0
        obtain ⟨row0, cols0, g1, g2, g3, g4⟩ := hpl
        rw [hrow] at g1
        rw [hcols] at g2
        simp only [Option.some.injEq] at g1 g2
        subst g1
        subst g2
        obtain ⟨-, -, hk⟩ := hcov
        by_cases hji : j0 = i
        · subst hji
          rw [hcell] at g3
          rw [hc] at g4
          simp only [Option.some.injEq] at g3 g4
          subst g3
          subst g4
          rw [hspan, hw2] at hk
          push_cast at hk
          omega
        · obtain ⟨occA, cellsA, occB, cellsB, hrowp⟩ :=
            placeRows_row _ _ _ _ _ _ _ _ hpp r0 row cols hrow hcols
          have hend := (placeRow_span_end_le _ maxCols (by omega) row hnn _ _ _ _ _ _ hrowp).2
            j0 i c0 c cell0 (by omega) g4 g3 hc
          push_cast at hk
          omega

/-- C3 (counterexample). The third cell of row 0 spans two rows and occupies column 2 of
row 1; in row 1 the cell with col_span 2 is written at column 0 and the cell after it at
column 3, not at column 2. A negative col_span has the same effect inside one row: after
the cell with col_span -3 the cursor is back at column 0, where the cell with col_span 2 is
written, and the cell after it lands at column 3 because column 2 holds the second cell of
the row. -/
theorem placedCols_after_colSpan_two_counterexample :
    placedCols ⟨"", 1, 1⟩
      [[⟨"x", 1, 1⟩, ⟨"y", 1, 1⟩, ⟨"z", 1, 2⟩], [⟨"a", 2, 1⟩, ⟨"b", 1, 1⟩]] =
        .ok [[0, 1, 2], [0, 3]] ∧
    buildTable ⟨"", 1, 1⟩
      [[⟨"x", 1, 1⟩, ⟨"y", 1, 1⟩, ⟨"z", 1, 2⟩], [⟨"a", 2, 1⟩, ⟨"b", 1, 1⟩]] =
        .ok (some ⟨2, 4, [[⟨"x", 1, 1⟩, ⟨"y", 1, 1⟩, ⟨"z", 1, 2⟩, ⟨"", 1, 1⟩],
          [⟨"a", 2, 1⟩, ⟨"", 1, 1⟩, ⟨"", 1, 1⟩, ⟨"b", 1, 1⟩]], true⟩) ∧
    placedCols ⟨"", 1, 1⟩
      [[⟨"x", 2, 0⟩, ⟨"z", 1, 1⟩, ⟨"y", -3, 1⟩, ⟨"a", 2, 1⟩, ⟨"b", 1, 1⟩]] =
        .ok [[0, 2, 3, 0, 3]] :=
  ⟨rfl, rfl, rfl⟩

theorem placedCols_after_colSpan_two_witness :
    placedCols ⟨"", 1, 1⟩
      [[⟨"x", 1, 1⟩, ⟨"y", 1, 1⟩, ⟨"z", 1, 2⟩], [⟨"a", 2, 1⟩, ⟨"b", 1, 1⟩]] =
        .ok [[0, 1, 2], [0, 3]] ∧
    (0 + 2 ≤ 3 ∧
      CoveredBefore [[⟨"x", 1, 1⟩, ⟨"y", 1, 1⟩, ⟨"z", 1, 2⟩], [⟨"a", 2, 1⟩, ⟨"b", 1, 1⟩]]
        [[0, 1, 2], [0, 3]] 1 (0 + 1) 2) ∧
    placedCols ⟨"", 1, 1⟩ [[⟨"a", 2, 1⟩, ⟨"b", 1, 1⟩]] = .ok [[0, 2]] ∧
    (2 : Nat) = 0 + 2 := by
  have h := placedCols_after_colSpan_two ⟨"", 1, 1⟩
    [[⟨"x", 1, 1⟩, ⟨"y", 1, 1⟩, ⟨"z", 1, 2⟩], [⟨"a", 2, 1⟩, ⟨"b", 1, 1⟩]]
    [[0, 1, 2], [0, 3]] 1 0 0 3 [⟨"a", 2, 1⟩, ⟨"b", 1, 1⟩] [0, 3] ⟨"a", 2, 1⟩
    rfl rfl rfl rfl rfl rfl rfl
  have h2 := placedCols_after_colSpan_two ⟨"", 1, 1⟩ [[⟨"a", 2, 1⟩, ⟨"b", 1, 1⟩]]
    [[0, 2]] 0 0 0 2 [⟨"a", 2, 1⟩, ⟨"b", 1, 1⟩] [0, 2] ⟨"a", 2, 1⟩
    rfl rfl rfl rfl rfl rfl rfl
  refine ⟨rfl, ⟨h.1, h.2.1 2 (by decide) (by decide)⟩, rfl, ?_⟩
  refine h2.2.2.2 ?_ ?_
  · intro cell0 hm
    simp only [List.mem_cons, List.mem_singleton, List.not_mem_nil, or_false] at hm
    rcases hm with rfl | rfl <;> exact ⟨by decide, by unfold maxInt; decide⟩
  · rintro ⟨r0, j0, c0, cell0, -, hlt, -⟩
    omega

/-! ## `convertTableToText` -/

theorem writeRowText_append (row : List cellContext) :
    ∀ (sb : String) (i : Nat), writeRowText sb i row = sb ++ writeRowText "" i row := by
  induction row with
  | nil =>
    intro sb i
    simp [writeRowText]
  | cons cell rest ih =>
    intro sb i
    simp only [writeRowText]
    split
    · exact ih sb (i + 1)
    · rw [ih, ih ((if i > 0 then "" ++ " | " else "") ++ _)]
      split <;> simp [String.append_assoc]

theorem writeRowsText_append (rows : List (List cellContext)) :
    ∀ sb : String, writeRowsText sb rows =
      sb ++ (rows.map fun row => rowText row ++ "\n").foldr (fun a b => a ++ b) "" := by
  induction rows with
  | nil =>
    intro sb
    simp [writeRowsText]
  | cons row rest ih =>
    intro sb
    simp only [writeRowsText, List.map_cons, List.foldr_cons]
    rw [ih, writeRowText_append row sb 0]
    simp [rowText, String.append_assoc]

/-- C9 (amended). `convertTableToText` returns the per-row renderings each followed by a
newline: one newline after every row, the last one included, so the result for a single
row is that row's rendering followed by one newline. -/
theorem convertTableToText_rows (rows : List (List cellContext)) :
    convertTableToText rows =
      (rows.map fun row => rowText row ++ "\n").foldr (fun a b => a ++ b) "" ∧
    ∀ row : List cellContext, convertTableToText [row] = rowText row ++ "\n" := by
  constructor
  · unfold convertTableToText
    rw [writeRowsText_append]
    simp
  · intro row
    unfold convertTableToText
    rw [writeRowsText_append]
    simp

/-- C9 (counterexample). The text of a table of one row with one cell ends in a newline. -/
theorem convertTableToText_rows_counterexample :
    convertTableToText [[⟨"A", 1, 1⟩]] = "A\n" := by
  decide

/-- C8 (failing input). A row whose first cell is blank: the loop writes the separator
before the first rendered cell, whereas the non-blank cells joined by the separator give
the cell alone. -/
theorem rowText_leading_blank :
    rowText [⟨"", 1, 1⟩, ⟨"B", 1, 1⟩] = " | B" ∧
    rowTextSpec [⟨"", 1, 1⟩, ⟨"B", 1, 1⟩] = "B" ∧
    convertTableToText [[⟨"", 1, 1⟩, ⟨"B", 1, 1⟩]] = " | B\n" := by
  decide

/-! ## The section state machine: what a token does to the document and the tables -/

theorem writeText_doc (st : ParserState) (s : String) : (writeText st s).doc = st.doc := by
  unfold writeText
  split
  · split <;> rfl
  · rfl

theorem writeText_tableStack (st : ParserState) (s : String) :
    (writeText st s).tableStack = st.tableStack := by
  unfold writeText
  split
  · split <;> rfl
  · rfl

theorem writeText_currentTable_isSome (st : ParserState) (s : String) :
    (writeText st s).currentTable.isSome = st.currentTable.isSome := by
  unfold writeText
  cases h : st.currentTable with
  | none => rfl
  | some table =>
    dsimp only
    cases h2 : table.cell <;> rfl

theorem startElement_effect (p : Parser) (st : ParserState) (name : String) (attrs : List Attr) :
    ((startElement p st name attrs).doc = st.doc ∨
      ∃ img, (startElement p st name attrs).doc = st.doc.AddImage img) ∧
    ((name = "tbl" ∧ (startElement p st name attrs).currentTable.isSome = true ∧
      ((st.currentTable = none ∧ (startElement p st name attrs).tableStack = st.tableStack) ∨
       (∃ table, st.currentTable = some table ∧
          (startElement p st name attrs).tableStack = st.tableStack ++ [table]))) ∨
     (name ≠ "tbl" ∧ (startElement p st name attrs).tableStack = st.tableStack ∧
      (startElement p st name attrs).currentTable.isSome = st.currentTable.isSome)) := by
  unfold startElement
  by_cases h1 : name = "p"
  · rw [if_pos h1]
    exact ⟨Or.inl rfl, Or.inr ⟨by rw [h1]; decide, rfl, rfl⟩⟩
  rw [if_neg h1]
  by_cases h2 : name = "t"
  · rw [if_pos h2]
    refine ⟨?_, Or.inr ⟨by rw [h2]; decide, ?_⟩⟩
    · split <;> exact Or.inl rfl
    · split <;> exact ⟨rfl, rfl⟩
  rw [if_neg h2]
  by_cases h3 : name = "tab"
  · rw [if_pos h3]
    refine ⟨?_, Or.inr ⟨by rw [h3]; decide, ?_⟩⟩
    · split
      · exact Or.inl (writeText_doc _ _)
      · exact Or.inl rfl
    · split
      · exact ⟨writeText_tableStack _ _, writeText_currentTable_isSome _ _⟩
      · exact ⟨rfl, rfl⟩
  rw [if_neg h3]
  by_cases h4 : name = "br"
  · rw [if_pos h4]
    refine ⟨?_, Or.inr ⟨by rw [h4]; decide, ?_⟩⟩
    · split
      · split
        · exact Or.inl (writeText_doc _ _)
        · exact Or.inl rfl
      · exact Or.inl rfl
    · split
      · split
        · exact ⟨writeText_tableStack _ _, writeText_currentTable_isSome _ _⟩
        · exact ⟨rfl, rfl⟩
      · exact ⟨rfl, rfl⟩
  rw [if_neg h4]
  by_cases h5 : name = "tbl"
  · rw [if_pos h5]
    cases h : st.currentTable with
    | none => exact ⟨Or.inl rfl, Or.inl ⟨h5, rfl, Or.inl ⟨rfl, rfl⟩⟩⟩
    | some table => exact ⟨Or.inl rfl, Or.inl ⟨h5, rfl, Or.inr ⟨table, rfl, rfl⟩⟩⟩
  rw [if_neg h5]
  by_cases h6 : name = "tr"
  · rw [if_pos h6]
    cases h : st.currentTable with
    | none => exact ⟨Or.inl rfl, Or.inr ⟨h5, rfl, congrArg Option.isSome h⟩⟩
    | some table => exact ⟨Or.inl rfl, Or.inr ⟨h5, rfl, rfl⟩⟩
  rw [if_neg h6]
  by_cases h7 : name = "tc"
  · rw [if_pos h7]
    cases h : st.currentTable with
    | none => exact ⟨Or.inl rfl, Or.inr ⟨h5, rfl, congrArg Option.isSome h⟩⟩
    | some table => exact ⟨Or.inl rfl, Or.inr ⟨h5, rfl, rfl⟩⟩
  rw [if_neg h7]
  by_cases h8 : name = "cellSpan"
  · rw [if_pos h8]
    cases h : st.currentTable with
    | none => exact ⟨Or.inl rfl, Or.inr ⟨h5, rfl, congrArg Option.isSome h⟩⟩
    | some table =>
      dsimp only
      cases h9 : table.cell with
      | none => exact ⟨Or.inl rfl, Or.inr ⟨h5, rfl, congrArg Option.isSome h⟩⟩
      | some cell => exact ⟨Or.inl rfl, Or.inr ⟨h5, rfl, rfl⟩⟩
  rw [if_neg h8]
  by_cases h9 : name = "pic" ∨ name = "img"
  · rw [if_pos h9]
    by_cases h10 : p.ExtractImages = true
    · rw [if_pos h10]
      cases h : parseImage p attrs with
      | none => exact ⟨Or.inl rfl, Or.inr ⟨h5, rfl, rfl⟩⟩
      | some img => exact ⟨Or.inr ⟨img, rfl⟩, Or.inr ⟨h5, rfl, rfl⟩⟩
    · rw [if_neg h10]
      exact ⟨Or.inl rfl, Or.inr ⟨h5, rfl, rfl⟩⟩
  rw [if_neg h9]
  exact ⟨Or.inl rfl, Or.inr ⟨h5, rfl, rfl⟩⟩

theorem endTable_effect (blank : Cell) (st st2 : ParserState) (h : endTable blank st = .ok st2) :
    (∃ parent, st.tableStack.getLast? = some parent ∧ st2.doc = st.doc ∧
      st2.tableStack = st.tableStack.dropLast ∧ st2.currentTable.isSome = true) ∨
    (st.tableStack.getLast? = none ∧ st2.tableStack = st.tableStack ∧ st2.currentTable = none ∧
      (st2.doc = st.doc ∨ ∃ table t, st.currentTable = some table ∧
        buildTable blank table.rows = .ok (some t) ∧ st2.doc = st.doc.AddTable (some t))) := by
  unfold endTable at h
  cases hc : st.currentTable with
  | none =>
    rw [hc] at h
    dsimp only at h
    cases hl : st.tableStack.getLast? with
    | none =>
      rw [hl] at h
      simp only [Except.ok.injEq] at h
      subst h
      exact Or.inr ⟨rfl, rfl, rfl, Or.inl rfl⟩
    | some parent =>
      rw [hl] at h
      simp only [Except.ok.injEq] at h
      subst h
      exact Or.inl ⟨parent, rfl, rfl, rfl, rfl⟩
  | some table =>
    rw [hc] at h
    dsimp only at h
    by_cases hr : table.rows.length > 0
    · rw [if_pos hr] at h
      cases hl : st.tableStack.getLast? with
      | none =>
        rw [hl] at h
        dsimp only at h
        cases hb : buildTable blank table.rows with
        | error e =>
          rw [hb] at h
          cases h
        | ok built =>
          rw [hb] at h
          simp only [Except.ok.injEq] at h
          subst h
          refine Or.inr ⟨rfl, rfl, rfl, ?_⟩
          cases built with
          | none => exact Or.inl rfl
          | some t => exact Or.inr ⟨table, t, rfl, hb, rfl⟩
      | some parent =>
        rw [hl] at h
        simp only [Except.ok.injEq] at h
        subst h
        exact Or.inl ⟨parent, rfl, rfl, rfl, rfl⟩
    · rw [if_neg hr] at h
      cases hl : st.tableStack.getLast? with
      | none =>
        rw [hl] at h
        simp only [Except.ok.injEq] at h
        subst h
        exact Or.inr ⟨rfl, rfl, rfl, Or.inl rfl⟩
      | some parent =>
        rw [hl] at h
        simp only [Except.ok.injEq] at h
        subst h
        exact Or.inl ⟨parent, rfl, rfl, rfl, rfl⟩

theorem endElement_effect (blank : Cell) (st st2 : ParserState) (name : String)
    (h : endElement blank st name = .ok st2) :
    (name = "tbl" ∧ endTable blank st = .ok st2) ∨
    (name ≠ "tbl" ∧ st2.tableStack = st.tableStack ∧
      st2.currentTable.isSome = st.currentTable.isSome ∧
      (st2.doc = st.doc ∨ ∃ para, st2.doc = st.doc.AddParagraph para ∧
        para.IsEmpty = false ∧ st.currentTable = none)) := by
  unfold endElement at h
  by_cases h1 : name = "p"
  · rw [if_pos h1] at h
    right
    refine ⟨by rw [h1]; decide, ?_⟩
    cases hp : st.currentParagraph with
    | none =>
      rw [hp] at h
      simp only [Except.ok.injEq] at h
      subst h
      exact ⟨rfl, rfl, Or.inl rfl⟩
    | some para =>
      rw [hp] at h
      dsimp only at h
      by_cases he : ¬ para.IsEmpty = true
      · rw [if_pos he] at h
        cases hc : st.currentTable with
        | none =>
          rw [hc] at h
          simp only [Except.ok.injEq] at h
          subst h
          exact ⟨rfl, rfl,
            Or.inr ⟨para, rfl, by simpa using he, rfl⟩⟩
        | some table =>
          rw [hc] at h
          dsimp only at h
          cases hcell : table.cell with
          | none =>
            rw [hcell] at h
            simp only [Except.ok.injEq] at h
            subst h
            exact ⟨rfl, rfl, Or.inl rfl⟩
          | some cell =>
            rw [hcell] at h
            simp only [Except.ok.injEq] at h
            subst h
            exact ⟨rfl, rfl, Or.inl rfl⟩
      · rw [if_neg he] at h
        simp only [Except.ok.injEq] at h
        subst h
        exact ⟨rfl, rfl, Or.inl rfl⟩
  rw [if_neg h1] at h
  by_cases h2 : name = "tc"
  · rw [if_pos h2] at h
    right
    refine ⟨by rw [h2]; decide, ?_⟩
    cases hc : st.currentTable with
    | none =>
      rw [hc] at h
      simp only [Except.ok.injEq] at h
      subst h
      exact ⟨rfl, congrArg Option.isSome hc, Or.inl rfl⟩
    | some table =>
      rw [hc] at h
      dsimp only at h
      cases hcell : table.cell with
      | none =>
        rw [hcell] at h
        simp only [Except.ok.injEq] at h
        subst h
        exact ⟨rfl, congrArg Option.isSome hc, Or.inl rfl⟩
      | some cell =>
        rw [hcell] at h
        simp only [Except.ok.injEq] at h
        subst h
        exact ⟨rfl, rfl, Or.inl rfl⟩
  rw [if_neg h2] at h
  by_cases h3 : name = "tr"
  · rw [if_pos h3] at h
    right
    refine ⟨by rw [h3]; decide, ?_⟩
    cases hc : st.currentTable with
    | none =>
      rw [hc] at h
      simp only [Except.ok.injEq] at h
      subst h
      exact ⟨rfl, congrArg Option.isSome hc, Or.inl rfl⟩
    | some table =>
      rw [hc] at h
      dsimp only at h
      by_cases hr : table.currentRow.length > 0
      · rw [if_pos hr] at h
        simp only [Except.ok.injEq] at h
        subst h
        exact ⟨rfl, rfl, Or.inl rfl⟩
      · rw [if_neg hr] at h
        simp only [Except.ok.injEq] at h
        subst h
        exact ⟨rfl, congrArg Option.isSome hc, Or.inl rfl⟩
  rw [if_neg h3] at h
  by_cases h4 : name = "tbl"
  · rw [if_pos h4] at h
    exact Or.inl ⟨h4, h⟩
  · rw [if_neg h4] at h
    simp only [Except.ok.injEq] at h
    subst h
    exact Or.inr ⟨h4, rfl, rfl, Or.inl rfl⟩

theorem readElementTextStep_effect (st : ParserState) (depth : Nat) (text : String)
    (tok : Token) :
    (readElementTextStep st depth text tok).doc = st.doc ∧
    (readElementTextStep st depth text tok).tableStack = st.tableStack ∧
    (readElementTextStep st depth text tok).currentTable.isSome = st.currentTable.isSome := by
  unfold readElementTextStep
  cases tok with
  | CharData data => exact ⟨rfl, rfl, rfl⟩
  | StartElement name attrs =>
    dsimp only
    split <;> exact ⟨rfl, rfl, rfl⟩
  | EndElement name =>
    dsimp only
    split
    · exact ⟨writeText_doc _ _, writeText_tableStack _ _, writeText_currentTable_isSome _ _⟩
    · exact ⟨rfl, rfl, rfl⟩
  | Other => exact ⟨rfl, rfl, rfl⟩

theorem tableBlocks_addImage (d : Document) (i : ImageBlock) :
    tableBlocks (d.AddImage i) = tableBlocks d := by
  simp [tableBlocks, Document.AddImage, List.filter_append]

theorem tableBlocks_addParagraph (d : Document) (p : Paragraph) :
    tableBlocks (d.AddParagraph p) = tableBlocks d := by
  simp [tableBlocks, Document.AddParagraph, List.filter_append]

theorem tableBlocks_addTable (d : Document) (t : TableBlock) :
    tableBlocks (d.AddTable (some t)) = tableBlocks d + 1 := by
  simp [tableBlocks, Document.AddTable, List.filter_append]

/-- What one token does to the document. -/
theorem step_doc (p : Parser) (blank : Cell) (st st2 : ParserState) (tok : Token)
    (h : step p blank st tok = .ok st2) :
    st2.doc = st.doc ∨ (∃ img, st2.doc = st.doc.AddImage img) ∨
    (∃ para, st2.doc = st.doc.AddParagraph para ∧ para.IsEmpty = false ∧
      st.currentTable = none) ∨
    (∃ table t, st.currentTable = some table ∧ st.tableStack.getLast? = none ∧
      buildTable blank table.rows = .ok (some t) ∧ st2.doc = st.doc.AddTable (some t)) := by
  unfold step at h
  cases hr : st.reading with
  | some dt =>
    rw [hr] at h
    simp only [Except.ok.injEq] at h
    subst h
    exact Or.inl (readElementTextStep_effect _ _ _ _).1
  | none =>
    rw [hr] at h
    dsimp only at h
    cases tok with
    | StartElement name attrs =>
      simp only [Except.ok.injEq] at h
      subst h
      rcases (startElement_effect p st name attrs).1 with h1 | h1
      · exact Or.inl h1
      · exact Or.inr (Or.inl h1)
    | EndElement name =>
      dsimp only at h
      rcases endElement_effect blank st st2 name h with ⟨-, h1⟩ | ⟨-, -, -, h1 | h1⟩
      · rcases endTable_effect blank st st2 h1 with ⟨parent, -, h2, -⟩ | ⟨h2, -, -, h3 | h3⟩
        · exact Or.inl h2
        · exact Or.inl h3
        · obtain ⟨table, t, a, b, c⟩ := h3
          exact Or.inr (Or.inr (Or.inr ⟨table, t, a, h2, b, c⟩))
      · exact Or.inl h1
      · exact Or.inr (Or.inr (Or.inl h1))
    | CharData data =>
      simp only [Except.ok.injEq] at h
      subst h
      exact Or.inl rfl
    | Other =>
      simp only [Except.ok.injEq] at h
      subst h
      exact Or.inl rfl

/-- Tables are open only under a current table: the stack is empty when there is none. -/
theorem step_stack (p : Parser) (blank : Cell) (st st2 : ParserState) (tok : Token)
    (h : step p blank st tok = .ok st2) (hw : st.currentTable = none → st.tableStack = []) :
    (st2.currentTable = none → st2.tableStack = []) ∧
    tableBlocks st2.doc + (if st2.currentTable.isSome then 1 else 0) ≤
      tableBlocks st.doc + (if st.currentTable.isSome then 1 else 0) +
        (if startsTopLevelTable st tok then 1 else 0) := by
  have hw2 : ∀ s : ParserState, s.tableStack = st.tableStack →
      s.currentTable.isSome = st.currentTable.isSome →
      (s.currentTable = none → s.tableStack = []) := by
    intro s e1 e2 hn
    rw [e1]
    apply hw
    rw [hn] at e2
    cases hc : st.currentTable with
    | none => rfl
    | some t => rw [hc] at e2; cases e2
  unfold step at h
  cases hr : st.reading with
  | some dt =>
    rw [hr] at h
    simp only [Except.ok.injEq] at h
    subst h
    obtain ⟨a, b, c⟩ := readElementTextStep_effect st dt.1 dt.2 tok
    refine ⟨hw2 _ b c, ?_⟩
    rw [a, c]
    omega
  | none =>
    rw [hr] at h
    dsimp only at h
    cases tok with
    | StartElement name attrs =>
      simp only [Except.ok.injEq] at h
      subst h
      obtain ⟨hd, ht⟩ := startElement_effect p st name attrs
      have hdoc : tableBlocks (startElement p st name attrs).doc = tableBlocks st.doc := by
        rcases hd with h1 | ⟨img, h1⟩
        · rw [h1]
        · rw [h1, tableBlocks_addImage]
      rcases ht with ⟨hn, hs, hcase⟩ | ⟨hn, e1, e2⟩
      · refine ⟨fun hnone => absurd hs (by rw [hnone]; decide), ?_⟩
        rw [hdoc, hs]
        rcases hcase with ⟨hc, -⟩ | ⟨table, hc, -⟩
        · have : startsTopLevelTable st (Token.StartElement name attrs) = true := by
            simp [startsTopLevelTable, hn, hr, hc]
          rw [this]
          simp
        · rw [hc]
          simp
      · refine ⟨hw2 _ e1 e2, ?_⟩
        rw [hdoc, e2]
        omega
    | EndElement name =>
      dsimp only at h
      rcases endElement_effect blank st st2 name h with ⟨-, h1⟩ | ⟨-, e1, e2, h1⟩
      · rcases endTable_effect blank st st2 h1 with ⟨parent, hl, h2, -, h4⟩ | ⟨h2, e1, e3, h3⟩
        · refine ⟨fun hnone => absurd h4 (by rw [hnone]; decide), ?_⟩
          have hsome : st.currentTable.isSome = true := by
            cases hc : st.currentTable with
            | none =>
              rw [hw hc] at hl
              cases hl
            | some t => rfl
          rw [h2, h4, hsome]
          omega
        · have hnil : st.tableStack = [] := List.getLast?_eq_none_iff.mp h2
          refine ⟨fun _ => by rw [e1, hnil], ?_⟩
          rw [e3]
          rcases h3 with h3 | ⟨table, t, hc, -, h3⟩
          · rw [h3]
            exact le_trans (Nat.le_add_right _ _) (Nat.le_add_right _ _)
          · rw [h3, tableBlocks_addTable, hc]
            simp
      · refine ⟨hw2 _ e1 e2, ?_⟩
        rw [e2]
        rcases h1 with h1 | ⟨para, h1, -, -⟩
        · rw [h1]
          omega
        · rw [h1, tableBlocks_addParagraph]
          omega
    | CharData data =>
      simp only [Except.ok.injEq] at h
      subst h
      exact ⟨hw, by omega⟩
    | Other =>
      simp only [Except.ok.injEq] at h
      subst h
      exact ⟨hw, by omega⟩

/-! ## The section state machine: tables in the document -/

theorem step_tablesNonEmpty (p : Parser) (blank : Cell) (st st2 : ParserState) (tok : Token)
    (h : step p blank st tok = .ok st2) (hi : TablesNonEmpty st.doc) : TablesNonEmpty st2.doc := by
  rcases step_doc p blank st st2 tok h with h1 | ⟨img, h1⟩ | ⟨para, h1, -, -⟩ |
    ⟨table, t, -, -, hb, h1⟩
  · rw [h1]
    exact hi
  · rw [h1]
    intro t ht
    simp only [Document.AddImage, List.mem_append, List.mem_singleton] at ht
    rcases ht with ht | ht
    · exact hi t ht
    · cases ht
  · rw [h1]
    intro t ht
    simp only [Document.AddParagraph, List.mem_append, List.mem_singleton] at ht
    rcases ht with ht | ht
    · exact hi t ht
    · cases ht
  · rw [h1]
    intro t1 ht
    simp only [Document.AddTable, List.mem_append, List.mem_singleton] at ht
    rcases ht with ht | ht
    · exact hi t1 ht
    · simp only [Block.Table.injEq] at ht
      subst ht
      obtain ⟨maxCols, occ, cells, colss, hne, -, hm, -, rfl⟩ :=
        buildTable_eq_some blank table.rows t1 hb
      have hl : 0 < table.rows.length := List.length_pos.mpr hne
      exact ⟨by show (1 : Int) ≤ (table.rows.length : Int); omega, hm⟩

theorem runTokens_tablesNonEmpty (p : Parser) (blank : Cell) (tokens : List Token) :
    ∀ st st2 : ParserState, runTokens p blank st tokens = .ok st2 →
      TablesNonEmpty st.doc → TablesNonEmpty st2.doc := by
  induction tokens with
  | nil =>
    intro st st2 h hi
    simp only [runTokens, Except.ok.injEq] at h
    rw [← h]
    exact hi
  | cons tok rest ih =>
    intro st st2 h hi
    simp only [runTokens] at h
    split at h
    · cases h
    · rename_i st1 h1
      exact ih st1 st2 h (step_tablesNonEmpty p blank st st1 tok h1 hi)

theorem endOfTokens_doc (st : ParserState) : (endOfTokens st).doc = st.doc := by
  unfold endOfTokens
  split
  · exact writeText_doc _ _
  · rfl

/-- C5. At the end of a top-level table nothing is appended when `buildTable` returns none,
and every Table block of the document after `parseSectionXML` has rows >= 1 and cols >= 1
(given that those already in the document have). -/
theorem parseSectionXML_tables_nonEmpty (p : Parser) (blank : Cell) (doc doc2 : Document)
    (tokens : List Token) (fails err : Bool)
    (h : parseSectionXML p blank doc tokens fails = .ok (doc2, err))
    (hd : TablesNonEmpty doc) :
    TablesNonEmpty doc2 ∧
    ∀ (st : ParserState) (table : tableState), st.reading = none →
      st.currentTable = some table → st.tableStack = [] →
      buildTable blank table.rows = .ok none →
      step p blank st (Token.EndElement "tbl") = .ok { st with currentTable := none } := by
  constructor
  · unfold parseSectionXML at h
    split at h
    · cases h
    · rename_i st hrun
      simp only [Except.ok.injEq, Prod.mk.injEq] at h
      rw [← h.1, endOfTokens_doc]
      exact runTokens_tablesNonEmpty p blank tokens _ st hrun hd
  · intro st table hr hc hs hb
    unfold step
    rw [hr]
    dsimp only
    unfold endElement
    rw [if_neg (by decide), if_neg (by decide), if_neg (by decide), if_pos rfl]
    unfold endTable
    rw [hc, hs]
    dsimp only
    split
    · rw [List.getLast?_nil]
      dsimp only
      rw [hb]
      dsimp only [Document.AddTable]
      rw [hr]
    · rw [List.getLast?_nil]
      dsimp only
      rw [hr]

theorem parseSectionXML_tables_nonEmpty_witness :
    parseSectionXML ⟨false, fun _ => none, fun _ => none⟩ ⟨"", 1, 1⟩ NewDocument
      [.StartElement "tbl" [], .StartElement "tr" [], .StartElement "tc" [],
       .StartElement "cellSpan" [⟨"colSpan", "0"⟩, ⟨"rowSpan", "1"⟩], .EndElement "cellSpan",
       .StartElement "p" [], .StartElement "t" [], .CharData "X", .EndElement "t",
       .EndElement "p", .EndElement "tc", .EndElement "tr", .EndElement "tbl"] false =
      .ok (NewDocument, false) ∧
    TablesNonEmpty NewDocument ∧ TablesNonEmpty NewDocument := by
  have hd : TablesNonEmpty NewDocument := by
    intro t ht
    simp [NewDocument] at ht
  have hp : parseSectionXML ⟨false, fun _ => none, fun _ => none⟩ ⟨"", 1, 1⟩ NewDocument
      [.StartElement "tbl" [], .StartElement "tr" [], .StartElement "tc" [],
       .StartElement "cellSpan" [⟨"colSpan", "0"⟩, ⟨"rowSpan", "1"⟩], .EndElement "cellSpan",
       .StartElement "p" [], .StartElement "t" [], .CharData "X", .EndElement "t",
       .EndElement "p", .EndElement "tc", .EndElement "tr", .EndElement "tbl"] false =
      .ok (NewDocument, false) := by
    rfl
  exact ⟨hp, hd, (parseSectionXML_tables_nonEmpty _ _ _ _ _ _ _ hp hd).1⟩

theorem string_length_pos_iff (s : String) : s.length > 0 ↔ s ≠ "" := by
  cases s with
  | mk data =>
    cases data with
    | nil => simp [String.length]
    | cons c cs =>
      simp only [String.length, List.length_cons, gt_iff_lt, Nat.zero_lt_succ, true_iff]
      intro h
      have := congrArg String.data h
      simp at this

theorem runTokens_tableBlocks (p : Parser) (blank : Cell) (tokens : List Token) :
    ∀ st st2 : ParserState, runTokens p blank st tokens = .ok st2 →
      (st.currentTable = none → st.tableStack = []) →
      tableBlocks st2.doc + (if st2.currentTable.isSome then 1 else 0) ≤
        tableBlocks st.doc + (if st.currentTable.isSome then 1 else 0) +
          topLevelTables p blank st tokens := by
  induction tokens with
  | nil =>
    intro st st2 h _
    simp only [runTokens, Except.ok.injEq] at h
    rw [← h]
    simp [topLevelTables]
  | cons tok rest ih =>
    intro st st2 h hw
    simp only [runTokens] at h
    split at h
    · cases h
    · rename_i st1 h1
      obtain ⟨hw1, hm⟩ := step_stack p blank st st1 tok h1 hw
      have := ih st1 st2 h hw1
      simp only [topLevelTables, h1]
      omega

/-- C7. A table that ends while a table is on the stack is not appended to the document:
the parent becomes current again and, when the nested table has a row and the parent's cell
is open, `convertTableToText` of the rows is appended to that cell's text, after a newline
exactly when the cell already held text. The Table blocks appended by `parseSectionXML` are
at most the top-level tables it starts. -/
theorem nested_table_is_text (p : Parser) (blank : Cell) :
    (∀ (st : ParserState) (cur parent : tableState), st.reading = none →
      st.currentTable = some cur → st.tableStack.getLast? = some parent →
      step p blank st (Token.EndElement "tbl") =
        .ok { st with
          tableStack := st.tableStack.dropLast,
          currentTable := some
            (if cur.rows = [] then parent
             else match parent.cell with
              | some cell => { parent with cell := some { cell with
                  text := if cell.text = "" then convertTableToText cur.rows
                    else cell.text ++ "\n" ++ convertTableToText cur.rows } }
              | none => parent) }) ∧
    ∀ (doc doc2 : Document) (tokens : List Token) (fails err : Bool),
      parseSectionXML p blank doc tokens fails = .ok (doc2, err) →
      tableBlocks doc2 ≤ tableBlocks doc + topLevelTables p blank (initialState doc) tokens := by
  constructor
  · intro st cur parent hr hc hl
    unfold step
    rw [hr]
    dsimp only
    unfold endElement
    rw [if_neg (by decide), if_neg (by decide), if_neg (by decide), if_pos rfl]
    unfold endTable
    rw [hc, hl]
    dsimp only
    by_cases hrows : cur.rows = []
    · rw [if_neg (by rw [hrows]; decide), if_pos hrows, hr]
    · rw [if_pos (List.length_pos.mpr hrows), if_neg hrows, hr]
      cases hcell : parent.cell with
      | none => rfl
      | some cell =>
        dsimp only
        by_cases ht : cell.text = ""
        · rw [if_neg (by rw [string_length_pos_iff]; exact not_not.mpr ht), if_pos ht, ht]
          simp
        · rw [if_pos ((string_length_pos_iff _).mpr ht), if_neg ht]
  · intro doc doc2 tokens fails err h
    unfold parseSectionXML at h
    split at h
    · cases h
    · rename_i st hrun
      simp only [Except.ok.injEq, Prod.mk.injEq] at h
      rw [← h.1, endOfTokens_doc]
      have := runTokens_tableBlocks p blank tokens (initialState doc) st hrun (fun _ => rfl)
      simp only [initialState] at this ⊢
      have h2 : (if (none : Option tableState).isSome = true then 1 else 0) = 0 := rfl
      rw [h2] at this
      omega

/-- C10 (failing input). A cell with two paragraphs, `X` and `Y`: each text run is written
straight to the cell, the paragraph accumulator stays empty, so the end of a paragraph adds
no newline and the finished cell holds `XY`. -/
theorem cell_paragraphs_not_newline_joined :
    runTokens ⟨false, fun _ => none, fun _ => none⟩ ⟨"", 1, 1⟩ (initialState NewDocument)
      [.StartElement "tbl" [], .StartElement "tr" [], .StartElement "tc" [],
       .StartElement "p" [], .StartElement "t" [], .CharData "X", .EndElement "t",
       .EndElement "p",
       .StartElement "p" [], .StartElement "t" [], .CharData "Y", .EndElement "t",
       .EndElement "p", .EndElement "tc"] =
      .ok { doc := NewDocument, currentParagraph := none, tableStack := [],
            currentTable := some { rows := [], currentRow := [⟨"XY", 1, 1⟩], cell := none },
            reading := none } ∧
    parseSectionXML ⟨false, fun _ => none, fun _ => none⟩ ⟨"", 1, 1⟩ NewDocument
      [.StartElement "tbl" [], .StartElement "tr" [], .StartElement "tc" [],
       .StartElement "p" [], .StartElement "t" [], .CharData "X", .EndElement "t",
       .EndElement "p",
       .StartElement "p" [], .StartElement "t" [], .CharData "Y", .EndElement "t",
       .EndElement "p", .EndElement "tc", .EndElement "tr", .EndElement "tbl"] false =
      .ok ({ Metadata := ⟨"", ""⟩,
             Content := [Block.Table ⟨1, 1, [[⟨"XY", 1, 1⟩]], false⟩] }, false) :=
  ⟨rfl, rfl⟩

theorem buildTable_none_iff_and_dimensions_witness :
    buildTable ⟨"", 1, 1⟩ [] = .ok none ∧
    buildTable ⟨"", 1, 1⟩ [[⟨"a", 0, 1⟩]] = .ok none ∧
    (∀ t, buildTable ⟨"", 1, 1⟩ [[⟨"a", 1, 1⟩, ⟨"b", 3, 1⟩]] = .ok (some t) →
      t.Rows = 1 ∧ t.Cols = 4) := by
  refine ⟨(buildTable_none_iff_and_dimensions ⟨"", 1, 1⟩ []).1.mpr (Or.inl rfl),
    (buildTable_none_iff_and_dimensions ⟨"", 1, 1⟩ [[⟨"a", 0, 1⟩]]).1.mpr (Or.inr rfl), ?_⟩
  intro t ht
  obtain ⟨a, -, c, -⟩ :=
    (buildTable_none_iff_and_dimensions ⟨"", 1, 1⟩ [[⟨"a", 1, 1⟩, ⟨"b", 3, 1⟩]]).2 t ht
  refine ⟨a, ?_⟩
  have h4 : countCols [[⟨"a", 1, 1⟩, ⟨"b", 3, 1⟩]] = .ok 4 := rfl
  rw [h4] at c
  simp only [Except.ok.injEq] at c
  exact c.symm

theorem nested_table_is_text_witness :
    parseSectionXML ⟨false, fun _ => none, fun _ => none⟩ ⟨"", 1, 1⟩ NewDocument
      [.StartElement "tbl" [], .StartElement "tr" [], .StartElement "tc" [],
       .StartElement "p" [], .StartElement "t" [], .CharData "X", .EndElement "t",
       .EndElement "p",
       .StartElement "tbl" [], .StartElement "tr" [],
       .StartElement "tc" [], .StartElement "p" [], .StartElement "t" [], .CharData "A",
       .EndElement "t", .EndElement "p", .EndElement "tc",
       .StartElement "tc" [], .StartElement "p" [], .StartElement "t" [], .CharData "B",
       .EndElement "t", .EndElement "p", .EndElement "tc",
       .EndElement "tr", .EndElement "tbl",
       .EndElement "tc", .EndElement "tr", .EndElement "tbl"] false =
      .ok ({ Metadata := ⟨"", ""⟩,
             Content := [Block.Table ⟨1, 1, [[⟨"X\nA | B", 1, 1⟩]], false⟩] }, false) ∧
    tableBlocks ⟨⟨"", ""⟩, [Block.Table ⟨1, 1, [[⟨"X\nA | B", 1, 1⟩]], false⟩]⟩ ≤
      tableBlocks NewDocument +
        topLevelTables ⟨false, fun _ => none, fun _ => none⟩ ⟨"", 1, 1⟩
          (initialState NewDocument)
          [.StartElement "tbl" [], .StartElement "tr" [], .StartElement "tc" [],
           .StartElement "p" [], .StartElement "t" [], .CharData "X", .EndElement "t",
           .EndElement "p",
           .StartElement "tbl" [], .StartElement "tr" [],
           .StartElement "tc" [], .StartElement "p" [], .StartElement "t" [], .CharData "A",
           .EndElement "t", .EndElement "p", .EndElement "tc",
           .StartElement "tc" [], .StartElement "p" [], .StartElement "t" [], .CharData "B",
           .EndElement "t", .EndElement "p", .EndElement "tc",
           .EndElement "tr", .EndElement "tbl",
           .EndElement "tc", .EndElement "tr", .EndElement "tbl"] :=
  ⟨rfl, (nested_table_is_text ⟨false, fun _ => none, fun _ => none⟩ ⟨"", 1, 1⟩).2
    NewDocument _ _ false false rfl⟩

/-! ## Text routing -/

theorem writeText_cell (st : ParserState) (s : String) (table : tableState) (cell : cellContext)
    (ht : st.currentTable = some table) (hc : table.cell = some cell) :
    writeText st s =
      { st with currentTable := some { table with cell := some { cell with text := cell.text ++ s } } } := by
  unfold writeText
  rw [ht]
  dsimp only
  rw [hc]

theorem writeText_paragraph (st : ParserState) (s : String) (para : Paragraph)
    (hc : getCurrentCell st = none) (hp : st.currentParagraph = some para) :
    writeText st s = { st with currentParagraph := some { para with Text := para.Text ++ s } } := by
  unfold writeText
  unfold getCurrentCell at hc
  cases ht : st.currentTable with
  | none =>
    dsimp only
    rw [hp]
    rfl
  | some table =>
    rw [ht] at hc
    dsimp only at hc ⊢
    rw [hc]
    dsimp only
    rw [hp]
    rfl

theorem step_br (p : Parser) (blank : Cell) (st : ParserState) (attrs : List Attr)
    (hr : st.reading = none) :
    step p blank st (Token.StartElement "br" attrs) =
      .ok (if st.currentParagraph.isSome = true ∧ brType attrs = "line" then writeText st "\n"
        else st) := by
  unfold step
  rw [hr]
  dsimp only
  unfold startElement
  rw [if_neg (by decide), if_neg (by decide), if_neg (by decide), if_pos rfl]
  by_cases h1 : st.currentParagraph.isSome = true
  · rw [if_pos h1]
    by_cases h2 : brType attrs = "line"
    · rw [if_pos h2, if_pos ⟨h1, h2⟩]
    · rw [if_neg h2, if_neg (fun h => h2 h.2)]
  · rw [if_neg h1, if_neg (fun h => h1 h.1)]

theorem step_tab (p : Parser) (blank : Cell) (st : ParserState) (attrs : List Attr)
    (hr : st.reading = none) (hp : st.currentParagraph.isSome = true) :
    step p blank st (Token.StartElement "tab" attrs) = .ok (writeText st "\t") := by
  unfold step
  rw [hr]
  dsimp only
  unfold startElement
  rw [if_neg (by decide), if_neg (by decide), if_pos rfl, if_pos hp]

theorem brType_of_no_type (attrs : List Attr) :
    ∀ ty : String, (∀ a ∈ attrs, a.Local ≠ "type") →
      attrs.foldl (fun ty attr => if attr.Local = "type" then attr.Value else ty) ty = ty := by
  induction attrs with
  | nil => intro ty _; rfl
  | cons a rest ih =>
    intro ty h
    rw [List.foldl_cons, if_neg (h a (List.mem_cons_self _ _))]
    exact ih ty (fun x hx => h x (List.mem_cons_of_mem _ hx))

theorem brType_last (pre post : List Attr) (v : String)
    (h : ∀ a ∈ post, a.Local ≠ "type") : brType (pre ++ ⟨"type", v⟩ :: post) = v := by
  unfold brType
  rw [List.foldl_append, List.foldl_cons, if_pos rfl]
  exact brType_of_no_type post v h

theorem runTokens_append (p : Parser) (blank : Cell) (a : List Token) :
    ∀ (st : ParserState) (b : List Token),
      runTokens p blank st (a ++ b) =
        match runTokens p blank st a with
        | .error e => .error e
        | .ok st1 => runTokens p blank st1 b := by
  induction a with
  | nil => intro st b; rfl
  | cons tok rest ih =>
    intro st b
    simp only [List.cons_append, runTokens]
    cases step p blank st tok with
    | error e => rfl
    | ok st1 => exact ih st1 b

theorem runTokens_reading (p : Parser) (blank : Cell) (content : List Token) :
    ∀ (d : Nat) (acc : String) (st : ParserState) (d1 : Nat),
      st.reading = some (d, acc) → runDepth d content = some d1 →
      runTokens p blank st content =
        .ok { st with reading := some (d1, acc ++ runText content) } := by
  induction content with
  | nil =>
    intro d acc st d1 hr hd
    simp only [runDepth, Option.some.injEq] at hd
    subst hd
    simp only [runTokens, runText, String.append_empty, ← hr]
  | cons tok rest ih =>
    intro d acc st d1 hr hd
    simp only [runTokens, step, hr]
    cases tok with
    | CharData data =>
      simp only [runDepth] at hd
      rw [ih d (acc ++ data) _ d1 rfl hd]
      simp only [readElementTextStep, runText, String.append_assoc]
    | StartElement name attrs =>
      simp only [runDepth] at hd
      by_cases hn : name = "fwSpace" ∨ name = "hwSpace"
      · rw [ih (d + 1) (acc ++ " ") _ d1 (by simp only [readElementTextStep, if_pos hn]) hd]
        simp only [readElementTextStep, runText, if_pos hn, String.append_assoc]
      · rw [ih (d + 1) acc _ d1 (by simp only [readElementTextStep, if_neg hn]) hd]
        simp only [readElementTextStep, runText, if_neg hn, String.empty_append]
    | EndElement name =>
      simp only [runDepth] at hd
      by_cases h0 : d - 1 = 0
      · rw [if_pos h0] at hd
        cases hd
      · rw [if_neg h0] at hd
        rw [ih (d - 1) acc _ d1 (by simp only [readElementTextStep, if_neg h0]) hd]
        simp only [readElementTextStep, runText, if_neg h0]
    | Other =>
      simp only [runDepth] at hd
      rw [ih d acc _ d1 (by simp only [readElementTextStep, hr]) hd]
      simp only [readElementTextStep, runText]

theorem reading_none_eta (st : ParserState) (hr : st.reading = none) :
    { st with reading := none } = st := by
  cases st
  simp only at hr
  subst hr
  rfl

/-- A text run handled while a paragraph is active routes its text through `writeText`. -/
theorem runTokens_textRun (p : Parser) (blank : Cell) (st : ParserState) (attrs : List Attr)
    (content : List Token) (name : String) (hr : st.reading = none)
    (hp : st.currentParagraph.isSome = true) (hd : runDepth 1 content = some 1) :
    runTokens p blank st (Token.StartElement "t" attrs :: (content ++ [Token.EndElement name])) =
      .ok (writeText st (runText content)) := by
  have h1 : step p blank st (Token.StartElement "t" attrs) =
      .ok { st with reading := some (1, "") } := by
    unfold step
    rw [hr]
    dsimp only
    unfold startElement
    rw [if_neg (by decide), if_pos rfl, if_pos hp]
  rw [runTokens, h1]
  dsimp only
  rw [runTokens_append, runTokens_reading p blank content 1 "" _ 1 rfl hd]
  dsimp only
  simp only [runTokens, step, readElementTextStep, String.empty_append]
  rw [if_pos trivial, reading_none_eta st hr]

/-! ## Blank text -/

theorem trimSpaceChars_eq_nil_iff (cs : List Char) :
    trimSpaceChars cs = [] ↔ ∀ c ∈ cs, isSpace c = true := by
  unfold trimSpaceChars
  rw [List.reverse_eq_nil_iff, List.dropWhile_eq_nil_iff]
  constructor
  · intro h
    have hall : ∀ c ∈ cs.dropWhile isSpace, isSpace c = true :=
      fun c hc => h c (List.mem_reverse.mpr hc)
    have hnil : cs.dropWhile isSpace = [] := by
      by_contra hne
      have h1 := List.head_dropWhile_not isSpace cs hne
      have h2 := hall _ (List.head_mem hne)
      rw [h1] at h2
      cases h2
    exact List.dropWhile_eq_nil_iff.mp hnil
  · intro h c hc
    rw [List.dropWhile_eq_nil_iff.mpr h] at hc
    simp at hc

theorem trimSpace_eq_empty_iff (s : String) : TrimSpace s = "" ↔ Blank s := by
  unfold TrimSpace Blank
  rw [← trimSpaceChars_eq_nil_iff]
  constructor
  · intro h
    exact congrArg String.data h
  · intro h
    rw [h]

theorem isEmpty_eq_false_iff (para : Paragraph) : para.IsEmpty = false ↔ ¬ Blank para.Text := by
  unfold Paragraph.IsEmpty
  rw [← trimSpace_eq_empty_iff]
  simp

theorem not_blank_iff (s : String) :
    ¬ Blank s ↔ s ≠ "" ∧ ∃ c ∈ s.data, isSpace c = false := by
  unfold Blank
  constructor
  · intro h
    push_neg at h
    obtain ⟨c, hc, hs⟩ := h
    refine ⟨?_, c, hc, by simpa using hs⟩
    intro he
    rw [he] at hc
    simp at hc
  · rintro ⟨-, c, hc, hs⟩ h
    rw [h c hc] at hs
    cases hs

/-! ## Line breaks, text routing and paragraphs outside tables -/

/-- C11 (amended). A `br` element handled while a paragraph is active appends a newline (to
the open cell, else to the paragraph) exactly when its effective type is "line": the value
of its last `type` attribute, or "line" when it has no `type` attribute. With another type
value, or while no paragraph is active, the state is left unchanged. -/
theorem br_appends_newline (p : Parser) (blank : Cell) (st : ParserState) (attrs : List Attr)
    (hr : st.reading = none) :
    step p blank st (Token.StartElement "br" attrs) =
      .ok (if st.currentParagraph.isSome = true ∧ brType attrs = "line" then writeText st "\n"
        else st) ∧
    ((∀ a ∈ attrs, a.Local ≠ "type") → brType attrs = "line") ∧
    (∀ (pre post : List Attr) (v : String), attrs = pre ++ ⟨"type", v⟩ :: post →
      (∀ a ∈ post, a.Local ≠ "type") → brType attrs = v) ∧
    (∀ (table : tableState) (cell : cellContext), st.currentTable = some table →
      table.cell = some cell →
      writeText st "\n" =
        { st with currentTable := some { table with cell := some { cell with text := cell.text ++ "\n" } } }) ∧
    (∀ para : Paragraph, getCurrentCell st = none → st.currentParagraph = some para →
      writeText st "\n" =
        { st with currentParagraph := some { para with Text := para.Text ++ "\n" } }) := by
  refine ⟨step_br p blank st attrs hr, ?_, ?_, ?_, ?_⟩
  · intro h
    exact brType_of_no_type attrs "line" h
  · intro pre post v he h
    rw [he]
    exact brType_last pre post v h
  · intro table cell ht hc
    exact writeText_cell st "\n" table cell ht hc
  · intro para hc hp
    exact writeText_paragraph st "\n" para hc hp

/-- C11 (counterexample). A `br` element without a `type` attribute, inside a paragraph
with text `a` and outside any table: a newline is appended to the paragraph. -/
theorem br_appends_newline_counterexample :
    step ⟨false, fun _ => none, fun _ => none⟩ ⟨"", 1, 1⟩
      { doc := NewDocument, currentParagraph := some ⟨"a", ⟨0, false⟩⟩, tableStack := [],
        currentTable := none, reading := none } (Token.StartElement "br" []) =
      .ok { doc := NewDocument, currentParagraph := some ⟨"a\n", ⟨0, false⟩⟩, tableStack := [],
            currentTable := none, reading := none } :=
  rfl

theorem br_appends_newline_witness :
    step ⟨false, fun _ => none, fun _ => none⟩ ⟨"", 1, 1⟩
      { doc := NewDocument, currentParagraph := some ⟨"a", ⟨0, false⟩⟩, tableStack := [],
        currentTable := none, reading := none }
      (Token.StartElement "br" [⟨"type", "column"⟩]) =
      .ok { doc := NewDocument, currentParagraph := some ⟨"a", ⟨0, false⟩⟩, tableStack := [],
            currentTable := none, reading := none } ∧
    brType [⟨"type", "column"⟩] = "column" := by
  have h := br_appends_newline ⟨false, fun _ => none, fun _ => none⟩ ⟨"", 1, 1⟩
    { doc := NewDocument, currentParagraph := some ⟨"a", ⟨0, false⟩⟩, tableStack := [],
      currentTable := none, reading := none } [⟨"type", "column"⟩] rfl
  exact ⟨h.1, h.2.2.1 [] [] "column" rfl (by simp)⟩

/-- While no paragraph is active, a token of inline content leaves the state as it is. -/
theorem step_inline (p : Parser) (blank : Cell) (st : ParserState) (tok : Token)
    (hr : st.reading = none) (hp : st.currentParagraph = none)
    (h : isInlineToken tok = true) : step p blank st tok = .ok st := by
  obtain ⟨doc, cp, ts, ct, rd⟩ := st
  simp only at hr hp
  subst hr
  subst hp
  cases tok with
  | CharData data => rfl
  | Other => rfl
  | StartElement name attrs =>
    simp only [isInlineToken, Bool.decide_and, Bool.and_eq_true, decide_eq_true_eq] at h
    obtain ⟨h1, h2, h3, h4, h5, h6, h7⟩ := h
    show Except.ok (startElement p _ name attrs) = _
    unfold startElement
    rw [if_neg h1]
    by_cases ht : name = "t"
    · rw [if_pos ht]
      rfl
    · rw [if_neg ht]
      by_cases htab : name = "tab"
      · rw [if_pos htab]
        rfl
      · rw [if_neg htab]
        by_cases hbr : name = "br"
        · rw [if_pos hbr]
          rfl
        · rw [if_neg hbr, if_neg h2, if_neg h3, if_neg h4, if_neg h5,
            if_neg (fun hc => hc.elim h6 h7)]
  | EndElement name =>
    simp only [isInlineToken, Bool.decide_and, Bool.and_eq_true, decide_eq_true_eq] at h
    obtain ⟨h1, h2, h3, h4⟩ := h
    show endElement blank _ name = _
    unfold endElement
    rw [if_neg h1, if_neg h2, if_neg h3, if_neg h4]

/-- While no paragraph is active, inline content leaves the state as it is. -/
theorem runTokens_inline (p : Parser) (blank : Cell) (st : ParserState)
    (hr : st.reading = none) (hp : st.currentParagraph = none) (content : List Token)
    (h : ∀ tok ∈ content, isInlineToken tok = true) : runTokens p blank st content = .ok st := by
  induction content with
  | nil => rfl
  | cons tok rest ih =>
    unfold runTokens
    rw [step_inline p blank st tok hr hp (h tok (List.mem_cons_self _ _))]
    exact ih (fun t ht => h t (List.mem_cons_of_mem _ ht))

/-- C12 (amended). While a paragraph is active: a text run appends its text, a tab mark a
tab and a line break of type "line" a newline to the text of the open cell, the paragraph
accumulator staying as it is; when no cell is open the same characters are appended to the
paragraph's text instead; so the text run `X`, the line break of type "line" and the text
run `Y` append `X`, a newline and `Y` to the text of the open cell. While no paragraph is
active the three events append nothing: the tab mark, the line break and the text run (with
a content of text and inline marks) leave the state of the parser as it is. -/
theorem text_routing (p : Parser) (blank : Cell) (st : ParserState) (para : Paragraph)
    (hr : st.reading = none) (hp : st.currentParagraph = some para) :
    (∀ (attrs : List Attr) (content : List Token) (name : String),
      runDepth 1 content = some 1 →
      runTokens p blank st
        (Token.StartElement "t" attrs :: (content ++ [Token.EndElement name])) =
        .ok (writeText st (runText content))) ∧
    (∀ attrs : List Attr,
      step p blank st (Token.StartElement "tab" attrs) = .ok (writeText st "\t")) ∧
    (∀ attrs : List Attr, brType attrs = "line" →
      step p blank st (Token.StartElement "br" attrs) = .ok (writeText st "\n")) ∧
    (∀ (s : String) (table : tableState) (cell : cellContext), st.currentTable = some table →
      table.cell = some cell →
      writeText st s =
        { st with currentTable := some { table with cell := some { cell with text := cell.text ++ s } } }) ∧
    (∀ s : String, getCurrentCell st = none →
      writeText st s = { st with currentParagraph := some { para with Text := para.Text ++ s } }) ∧
    (∀ (X Y : String) (table : tableState) (cell : cellContext), st.currentTable = some table →
      table.cell = some cell →
      runTokens p blank st
        [.StartElement "t" [], .CharData X, .EndElement "t",
         .StartElement "br" [⟨"type", "line"⟩], .EndElement "br",
         .StartElement "t" [], .CharData Y, .EndElement "t"] =
        .ok { st with
              currentTable :=
                some { table with cell := some { cell with text := cell.text ++ X ++ "\n" ++ Y } } }) ∧
    (∀ st0 : ParserState, st0.reading = none → st0.currentParagraph = none →
      (∀ (attrs : List Attr) (content : List Token),
        (∀ tok ∈ content, isInlineToken tok = true) →
        runTokens p blank st0
          (Token.StartElement "t" attrs :: (content ++ [Token.EndElement "t"])) = .ok st0) ∧
      (∀ attrs : List Attr, step p blank st0 (Token.StartElement "tab" attrs) = .ok st0) ∧
      (∀ attrs : List Attr, step p blank st0 (Token.StartElement "br" attrs) = .ok st0)) := by
  have hsome : st.currentParagraph.isSome = true := by rw [hp]; rfl
  refine ⟨?_, ?_, ?_, ?_, ?_, ?_, ?_⟩
  · intro attrs content name hd
    exact runTokens_textRun p blank st attrs content name hr hsome hd
  · intro attrs
    exact step_tab p blank st attrs hr hsome
  · intro attrs hb
    rw [step_br p blank st attrs hr, if_pos ⟨hsome, hb⟩]
  · intro s table cell ht hc
    exact writeText_cell st s table cell ht hc
  · intro s hc
    exact writeText_paragraph st s para hc hp
  · intro X Y table cell ht hc
    obtain ⟨doc, cp, ts, ct, rd⟩ := st
    simp only at hr hp ht
    subst hr
    subst hp
    subst ht
    obtain ⟨rows, currentRow, c⟩ := table
    simp only at hc
    subst hc
    show Except.ok _ = Except.ok _
    simp [writeText, startElement, readElementTextStep, brType, String.append_assoc]
  · intro st0 hr0 hp0
    refine ⟨?_, ?_, ?_⟩
    · intro attrs content hc
      have hall : ∀ tok ∈ Token.StartElement "t" attrs :: (content ++ [Token.EndElement "t"]),
          isInlineToken tok = true := by
        intro tok htok
        rcases List.mem_cons.mp htok with rfl | htok
        · rfl
        · rcases List.mem_append.mp htok with h | h
          · exact hc tok h
          · rw [List.mem_singleton] at h
            subst h
            rfl
      exact runTokens_inline p blank st0 hr0 hp0 _ hall
    · intro attrs
      exact step_inline p blank st0 _ hr0 hp0 rfl
    · intro attrs
      exact step_inline p blank st0 _ hr0 hp0 rfl

/-- C12 (counterexample). A cell opened while no paragraph is active whose content is the
text run `X`, a line break of type "line" and the text run `Y`: nothing is appended, the
finished cell has empty text. -/
theorem text_routing_counterexample :
    runTokens ⟨false, fun _ => none, fun _ => none⟩ ⟨"", 1, 1⟩ (initialState NewDocument)
      [.StartElement "tbl" [], .StartElement "tr" [], .StartElement "tc" [],
       .StartElement "t" [], .CharData "X", .EndElement "t",
       .StartElement "br" [⟨"type", "line"⟩], .EndElement "br",
       .StartElement "t" [], .CharData "Y", .EndElement "t", .EndElement "tc"] =
      .ok { doc := NewDocument, currentParagraph := none, tableStack := [],
            currentTable := some { rows := [], currentRow := [⟨"", 1, 1⟩], cell := none },
            reading := none } :=
  rfl

theorem text_routing_witness :
    runTokens ⟨false, fun _ => none, fun _ => none⟩ ⟨"", 1, 1⟩ (initialState NewDocument)
      [.StartElement "p" [], .StartElement "tbl" [], .StartElement "tr" [],
       .StartElement "tc" [],
       .StartElement "t" [], .CharData "X", .EndElement "t",
       .StartElement "br" [⟨"type", "line"⟩], .EndElement "br",
       .StartElement "t" [], .CharData "Y", .EndElement "t", .EndElement "tc"] =
      .ok { doc := NewDocument, currentParagraph := some ⟨"", ⟨0, false⟩⟩, tableStack := [],
            currentTable := some { rows := [], currentRow := [⟨"X\nY", 1, 1⟩], cell := none },
            reading := none } ∧
    runTokens ⟨false, fun _ => none, fun _ => none⟩ ⟨"", 1, 1⟩
      { doc := NewDocument, currentParagraph := some ⟨"", ⟨0, false⟩⟩, tableStack := [],
        currentTable := some { rows := [], currentRow := [], cell := some ⟨"", 1, 1⟩ },
        reading := none }
      (Token.StartElement "t" [] ::
        ([.CharData "X", .StartElement "fwSpace" [], .EndElement "fwSpace", .CharData "Y"] ++
          [Token.EndElement "t"])) =
      .ok (writeText
        { doc := NewDocument, currentParagraph := some ⟨"", ⟨0, false⟩⟩, tableStack := [],
          currentTable := some { rows := [], currentRow := [], cell := some ⟨"", 1, 1⟩ },
          reading := none }
        (runText [.CharData "X", .StartElement "fwSpace" [], .EndElement "fwSpace",
          .CharData "Y"])) :=
  ⟨rfl, (text_routing ⟨false, fun _ => none, fun _ => none⟩ ⟨"", 1, 1⟩ _ ⟨"", ⟨0, false⟩⟩
    rfl rfl).1 [] _ "t" rfl⟩

theorem step_paragraph_start (p : Parser) (blank : Cell) (st : ParserState) (attrs : List Attr)
    (hr : st.reading = none) :
    step p blank st (Token.StartElement "p" attrs) =
      .ok { st with currentParagraph := some (NewParagraph "") } := by
  unfold step
  rw [hr]
  dsimp only
  unfold startElement
  rw [if_pos rfl, hr]

theorem step_paragraph_end (p : Parser) (blank : Cell) (st : ParserState) (para : Paragraph)
    (hr : st.reading = none) (ht : st.currentTable = none)
    (hp : st.currentParagraph = some para) (hb : ¬ Blank para.Text) :
    step p blank st (Token.EndElement "p") =
      .ok { st with doc := st.doc.AddParagraph para, currentParagraph := none } := by
  unfold step
  rw [hr]
  dsimp only
  unfold endElement
  rw [if_pos rfl, hp]
  dsimp only
  have he : para.IsEmpty = false := (isEmpty_eq_false_iff para).mpr hb
  rw [if_pos (by rw [he]; decide), ht]
  dsimp only
  rw [hr]

/-- C13. With no table open, the events paragraph-start, text-run, paragraph-end for a text
that is not blank append exactly one block, a Paragraph with that text, heading level 0
and not a quote, after the blocks already in the document, and clear the paragraph
accumulator. -/
theorem paragraph_outside_table (p : Parser) (blank : Cell) (st : ParserState)
    (a1 a2 : List Attr) (content : List Token) (name : String)
    (hr : st.reading = none) (ht : st.currentTable = none)
    (hd : runDepth 1 content = some 1) (hs : ¬ Blank (runText content)) :
    ∃ st2, runTokens p blank st
        (Token.StartElement "p" a1 :: Token.StartElement "t" a2 ::
          (content ++ [Token.EndElement name, Token.EndElement "p"])) = .ok st2 ∧
      st2.doc.Content = st.doc.Content ++
        [Block.Paragraph { Text := runText content,
                           Style := { HeadingLevel := 0, IsQuote := false } }] ∧
      st2.doc.Metadata = st.doc.Metadata ∧
      st2.currentParagraph = none ∧ st2.currentTable = none ∧
      st2.tableStack = st.tableStack ∧ st2.reading = none := by
  have e : content ++ [Token.EndElement name, Token.EndElement "p"] =
      (content ++ [Token.EndElement name]) ++ [Token.EndElement "p"] := by simp
  have hA := step_paragraph_start p blank st a1 hr
  have hB := runTokens_textRun p blank { st with currentParagraph := some (NewParagraph "") } a2
    content name hr rfl hd
  have hW := writeText_paragraph { st with currentParagraph := some (NewParagraph "") }
    (runText content) (NewParagraph "") (by unfold getCurrentCell; dsimp only; rw [ht]) rfl
  rw [hW] at hB
  dsimp only at hB
  have hC := step_paragraph_end p blank
    ⟨st.doc, some ⟨(NewParagraph "").Text ++ runText content, (NewParagraph "").Style⟩,
      st.tableStack, st.currentTable, st.reading⟩
    ⟨(NewParagraph "").Text ++ runText content, (NewParagraph "").Style⟩ hr ht rfl
    (by simpa [NewParagraph] using hs)
  refine ⟨⟨st.doc.AddParagraph
      ⟨(NewParagraph "").Text ++ runText content, (NewParagraph "").Style⟩,
    none, st.tableStack, st.currentTable, st.reading⟩, ?_, ?_, rfl, rfl, ht, rfl, hr⟩
  · rw [e, runTokens, hA]
    dsimp only
    rw [← List.cons_append, runTokens_append, hB]
    dsimp only
    rw [runTokens, hC]
    rfl
  · simp [Document.AddParagraph, NewParagraph]

theorem paragraph_outside_table_witness :
    parseSectionXML ⟨false, fun _ => none, fun _ => none⟩ ⟨"", 1, 1⟩ NewDocument
      [.StartElement "p" [], .StartElement "t" [], .CharData "Hello", .EndElement "t",
       .EndElement "p"] false =
      .ok ({ Metadata := ⟨"", ""⟩,
             Content := [Block.Paragraph ⟨"Hello", ⟨0, false⟩⟩] }, false) ∧
    ∃ st2, runTokens ⟨false, fun _ => none, fun _ => none⟩ ⟨"", 1, 1⟩ (initialState NewDocument)
        (Token.StartElement "p" [] :: Token.StartElement "t" [] ::
          ([Token.CharData "Hello"] ++ [Token.EndElement "t", Token.EndElement "p"])) = .ok st2 ∧
      st2.doc.Content = (initialState NewDocument).doc.Content ++
        [Block.Paragraph ⟨runText [Token.CharData "Hello"], ⟨0, false⟩⟩] := by
  refine ⟨rfl, ?_⟩
  obtain ⟨st2, h1, h2, -⟩ := paragraph_outside_table ⟨false, fun _ => none, fun _ => none⟩
    ⟨"", 1, 1⟩ (initialState NewDocument) [] [] [Token.CharData "Hello"] "t" rfl rfl rfl
    (by
      rw [not_blank_iff]
      exact ⟨by decide, Char.ofNat 72, by decide, by decide⟩)
  exact ⟨st2, h1, h2⟩

/-! ## Paragraph blocks are never blank -/

theorem step_paragraphsNonBlank (p : Parser) (blank : Cell) (st st2 : ParserState) (tok : Token)
    (h : step p blank st tok = .ok st2) (hi : ParagraphsNonBlank st.doc) :
    ParagraphsNonBlank st2.doc := by
  rcases step_doc p blank st st2 tok h with h1 | ⟨img, h1⟩ | ⟨para, h1, he, -⟩ |
    ⟨table, t, -, -, -, h1⟩
  · rw [h1]
    exact hi
  · rw [h1]
    intro q hq
    simp only [Document.AddImage, List.mem_append, List.mem_singleton] at hq
    rcases hq with hq | hq
    · exact hi q hq
    · cases hq
  · rw [h1]
    intro q hq
    simp only [Document.AddParagraph, List.mem_append, List.mem_singleton] at hq
    rcases hq with hq | hq
    · exact hi q hq
    · simp only [Block.Paragraph.injEq] at hq
      subst hq
      exact (isEmpty_eq_false_iff q).mp he
  · rw [h1]
    intro q hq
    simp only [Document.AddTable, List.mem_append, List.mem_singleton] at hq
    rcases hq with hq | hq
    · exact hi q hq
    · cases hq

theorem runTokens_paragraphsNonBlank (p : Parser) (blank : Cell) (tokens : List Token) :
    ∀ st st2 : ParserState, runTokens p blank st tokens = .ok st2 →
      ParagraphsNonBlank st.doc → ParagraphsNonBlank st2.doc := by
  induction tokens with
  | nil =>
    intro st st2 h hi
    simp only [runTokens, Except.ok.injEq] at h
    rw [← h]
    exact hi
  | cons tok rest ih =>
    intro st st2 h hi
    simp only [runTokens] at h
    split at h
    · cases h
    · rename_i st1 h1
      exact ih st1 st2 h (step_paragraphsNonBlank p blank st st1 tok h1 hi)

theorem step_adds_paragraph (p : Parser) (blank : Cell) (st st2 : ParserState) (tok : Token)
    (para : Paragraph) (h : step p blank st tok = .ok st2)
    (ha : st2.doc.Content = st.doc.Content ++ [Block.Paragraph para]) :
    st.currentTable = none ∧ ¬ Blank para.Text := by
  rcases step_doc p blank st st2 tok h with h1 | ⟨img, h1⟩ | ⟨q, h1, he, hn⟩ |
    ⟨table, t, -, -, -, h1⟩
  · rw [h1] at ha
    have := congrArg List.length ha
    simp at this
  · rw [h1] at ha
    simp only [Document.AddImage] at ha
    have := List.append_cancel_left ha
    simp at this
  · rw [h1] at ha
    simp only [Document.AddParagraph] at ha
    have := List.append_cancel_left ha
    simp only [List.cons.injEq, Block.Paragraph.injEq, and_true] at this
    subst this
    exact ⟨hn, (isEmpty_eq_false_iff q).mp he⟩
  · rw [h1] at ha
    simp only [Document.AddTable] at ha
    have := List.append_cancel_left ha
    simp at this

/-- C14. After `parseSectionXML` every Paragraph block of the document has text that is not
empty and not made only of white space (given that those already in the document have);
a token appends a paragraph only while no table is open and only when its text is not
blank. -/
theorem parseSectionXML_paragraphs_nonBlank (p : Parser) (blank : Cell) (doc doc2 : Document)
    (tokens : List Token) (fails err : Bool)
    (h : parseSectionXML p blank doc tokens fails = .ok (doc2, err))
    (hd : ParagraphsNonBlank doc) :
    (∀ para : Paragraph, Block.Paragraph para ∈ doc2.Content →
      para.Text ≠ "" ∧ ∃ c ∈ para.Text.data, isSpace c = false) ∧
    ∀ (st st2 : ParserState) (tok : Token) (para : Paragraph),
      step p blank st tok = .ok st2 →
      st2.doc.Content = st.doc.Content ++ [Block.Paragraph para] →
      st.currentTable = none ∧ ¬ Blank para.Text := by
  constructor
  · unfold parseSectionXML at h
    split at h
    · cases h
    · rename_i st hrun
      simp only [Except.ok.injEq, Prod.mk.injEq] at h
      intro para hpara
      rw [← h.1, endOfTokens_doc] at hpara
      exact (not_blank_iff para.Text).mp
        (runTokens_paragraphsNonBlank p blank tokens _ st hrun hd para hpara)
  · intro st st2 tok para hs ha
    exact step_adds_paragraph p blank st st2 tok para hs ha

theorem parseSectionXML_paragraphs_nonBlank_witness :
    parseSectionXML ⟨false, fun _ => none, fun _ => none⟩ ⟨"", 1, 1⟩ NewDocument
      [.StartElement "p" [], .StartElement "t" [], .CharData "  ", .EndElement "t",
       .EndElement "p", .StartElement "p" [], .EndElement "p",
       .StartElement "p" [], .StartElement "t" [], .CharData "Hi", .EndElement "t",
       .EndElement "p"] false =
      .ok (⟨⟨"", ""⟩, [Block.Paragraph ⟨"Hi", ⟨0, false⟩⟩]⟩, false) ∧
    ∀ para : Paragraph,
      Block.Paragraph para ∈
        (⟨⟨"", ""⟩, [Block.Paragraph ⟨"Hi", ⟨0, false⟩⟩]⟩ : Document).Content →
      para.Text ≠ "" ∧ ∃ c ∈ para.Text.data, isSpace c = false := by
  have hp : parseSectionXML ⟨false, fun _ => none, fun _ => none⟩ ⟨"", 1, 1⟩ NewDocument
      [.StartElement "p" [], .StartElement "t" [], .CharData "  ", .EndElement "t",
       .EndElement "p", .StartElement "p" [], .EndElement "p",
       .StartElement "p" [], .StartElement "t" [], .CharData "Hi", .EndElement "t",
       .EndElement "p"] false =
      .ok (⟨⟨"", ""⟩, [Block.Paragraph ⟨"Hi", ⟨0, false⟩⟩]⟩, false) := rfl
  have hd : ParagraphsNonBlank NewDocument := by
    intro q hq
    simp [NewDocument] at hq
  exact ⟨hp, (parseSectionXML_paragraphs_nonBlank _ _ _ _ _ _ _ hp hd).1⟩

/-! ## `parseImage` -/

theorem parseImageLoop_snoc (p : Parser) (attrs : List Attr) (attr : Attr) :
    parseImageLoop p (attrs ++ [attr]) =
      if attr.Local = "binItemIDRef" ∨ attr.Local = "binItemId" then
        match p.binData attr.Value with
        | some path => { parseImageLoop p attrs with ID := attr.Value, Path := path }
        | none => { parseImageLoop p attrs with ID := attr.Value }
      else if attr.Local = "alt" ∨ attr.Local = "descr" then
        { parseImageLoop p attrs with Alt := attr.Value }
      else if attr.Local = "width" then
        match Sscanf attr.Value with
        | some n => { parseImageLoop p attrs with Width := n }
        | none => parseImageLoop p attrs
      else if attr.Local = "height" then
        match Sscanf attr.Value with
        | some n => { parseImageLoop p attrs with Height := n }
        | none => parseImageLoop p attrs
      else parseImageLoop p attrs := by
  unfold parseImageLoop
  rw [List.foldl_append]
  rfl

theorem lastValue_snoc (pred : Attr → Bool) (attrs : List Attr) (attr : Attr) :
    lastValue pred (attrs ++ [attr]) =
      if pred attr = true then attr.Value else lastValue pred attrs := by
  unfold lastValue
  rw [List.filter_append]
  by_cases h : pred attr = true
  · rw [if_pos h]
    simp only [List.filter_cons, h, if_true, List.filter_nil, List.getLast?_concat,
      Option.map_some', Option.getD_some]
  · rw [if_neg h]
    simp [List.filter_cons, h]

theorem lastInt_snoc (name : String) (attrs : List Attr) (attr : Attr) :
    lastInt name (attrs ++ [attr]) =
      if attr.Local = name then
        match Sscanf attr.Value with
        | some n => n
        | none => lastInt name attrs
      else lastInt name attrs := by
  unfold lastInt
  rw [List.filter_append, List.filterMap_append]
  by_cases h : attr.Local = name
  · rw [if_pos h]
    cases hs : Sscanf attr.Value with
    | none => simp [List.filter_cons, h, hs]
    | some n => simp [List.filter_cons, h, hs, List.getLast?_concat]
  · rw [if_neg h]
    simp [List.filter_cons, h]

theorem lastPath_snoc (p : Parser) (attrs : List Attr) (attr : Attr) :
    lastPath p (attrs ++ [attr]) =
      if isIdAttr attr = true then
        match p.binData attr.Value with
        | some path => path
        | none => lastPath p attrs
      else lastPath p attrs := by
  unfold lastPath
  rw [List.filter_append, List.filterMap_append]
  by_cases h : isIdAttr attr = true
  · rw [if_pos h]
    cases hs : p.binData attr.Value with
    | none => simp [List.filter_cons, h, hs]
    | some n => simp [List.filter_cons, h, hs, List.getLast?_concat]
  · rw [if_neg h]
    simp [List.filter_cons, h]

/-- The fields of the image after the loop of `parseImage` over the attributes. -/
theorem parseImageLoop_fields (p : Parser) (attrs : List Attr) :
    (parseImageLoop p attrs).ID = lastValue isIdAttr attrs ∧
    (parseImageLoop p attrs).Path = lastPath p attrs ∧
    (parseImageLoop p attrs).Alt = lastValue isAltAttr attrs ∧
    (parseImageLoop p attrs).Width = lastInt "width" attrs ∧
    (parseImageLoop p attrs).Height = lastInt "height" attrs ∧
    (parseImageLoop p attrs).Format = "" ∧
    (parseImageLoop p attrs).Data = none := by
  induction attrs using List.reverseRecOn with
  | nil => exact ⟨rfl, rfl, rfl, rfl, rfl, rfl, rfl⟩
  | append_singleton attrs attr ih =>
    obtain ⟨i1, i2, i3, i4, i5, i6, i7⟩ := ih
    rw [parseImageLoop_snoc, lastValue_snoc, lastValue_snoc, lastPath_snoc, lastInt_snoc,
      lastInt_snoc]
    by_cases h1 : attr.Local = "binItemIDRef" ∨ attr.Local = "binItemId"
    · have hid : isIdAttr attr = true := by simpa [isIdAttr] using h1
      have halt : ¬ isAltAttr attr = true := by
        rcases h1 with h | h <;> simp [isAltAttr, h]
      have hw : ¬ attr.Local = "width" := by
        rcases h1 with h | h <;> rw [h] <;> decide
      have hh : ¬ attr.Local = "height" := by
        rcases h1 with h | h <;> rw [h] <;> decide
      rw [if_pos h1, if_pos hid, if_neg halt, if_pos hid, if_neg hw, if_neg hh]
      cases hb : p.binData attr.Value with
      | none => exact ⟨rfl, i2, i3, i4, i5, i6, i7⟩
      | some path => exact ⟨rfl, rfl, i3, i4, i5, i6, i7⟩
    · have hid : ¬ isIdAttr attr = true := by simpa [isIdAttr] using h1
      rw [if_neg h1, if_neg hid, if_neg hid]
      by_cases h2 : attr.Local = "alt" ∨ attr.Local = "descr"
      · have halt : isAltAttr attr = true := by simpa [isAltAttr] using h2
        have hw : ¬ attr.Local = "width" := by
          rcases h2 with h | h <;> rw [h] <;> decide
        have hh : ¬ attr.Local = "height" := by
          rcases h2 with h | h <;> rw [h] <;> decide
        rw [if_pos h2, if_pos halt, if_neg hw, if_neg hh]
        exact ⟨i1, i2, rfl, i4, i5, i6, i7⟩
      · have halt : ¬ isAltAttr attr = true := by simpa [isAltAttr] using h2
        rw [if_neg h2, if_neg halt]
        by_cases h3 : attr.Local = "width"
        · have hh : ¬ attr.Local = "height" := by rw [h3]; decide
          rw [if_pos h3, if_pos h3, if_neg hh]
          cases hs : Sscanf attr.Value with
          | none => exact ⟨i1, i2, i3, i4, i5, i6, i7⟩
          | some n => exact ⟨i1, i2, i3, rfl, i5, i6, i7⟩
        · rw [if_neg h3, if_neg h3]
          by_cases h4 : attr.Local = "height"
          · rw [if_pos h4, if_pos h4]
            cases hs : Sscanf attr.Value with
            | none => exact ⟨i1, i2, i3, i4, i5, i6, i7⟩
            | some n => exact ⟨i1, i2, i3, i4, rfl, i6, i7⟩
          · rw [if_neg h4, if_neg h4]
            exact ⟨i1, i2, i3, i4, i5, i6, i7⟩

theorem parseImage_eq (p : Parser) (attrs : List Attr) :
    parseImage p attrs =
      if (parseImageLoop p attrs).ID = "" then none
      else some
        (if p.ExtractImages = true ∧ (parseImageLoop p attrs).Path ≠ "" then
          match p.extractBinData (parseImageLoop p attrs).Path with
          | some data =>
            { parseImageLoop p attrs with
              Data := some data, Format := TrimPrefixDot (Ext (parseImageLoop p attrs).Path) }
          | none => parseImageLoop p attrs
        else parseImageLoop p attrs) := by
  unfold parseImage
  show (if (if p.ExtractImages = true ∧ (parseImageLoop p attrs).Path ≠ "" then
      match p.extractBinData (parseImageLoop p attrs).Path with
      | some data =>
        { parseImageLoop p attrs with
          Data := some data, Format := TrimPrefixDot (Ext (parseImageLoop p attrs).Path) }
      | none => parseImageLoop p attrs
    else parseImageLoop p attrs).ID = "" then none else _) = _
  have hid : (if p.ExtractImages = true ∧ (parseImageLoop p attrs).Path ≠ "" then
      match p.extractBinData (parseImageLoop p attrs).Path with
      | some data =>
        { parseImageLoop p attrs with
          Data := some data, Format := TrimPrefixDot (Ext (parseImageLoop p attrs).Path) }
      | none => parseImageLoop p attrs
    else parseImageLoop p attrs).ID = (parseImageLoop p attrs).ID := by
    split
    · split <;> rfl
    · rfl
  rw [hid]
  rfl

/-! ## The `%d` scan on a run of digits -/

theorem isDigit_toNat (c : Char) (h : c.isDigit = true) : 48 ≤ c.toNat ∧ c.toNat ≤ 57 := by
  unfold Char.isDigit at h
  rw [Bool.and_eq_true, decide_eq_true_eq, decide_eq_true_eq] at h
  exact ⟨h.1, h.2⟩

theorem isSpace_of_digit (c : Char) (h : c.isDigit = true) : isSpace c = false := by
  obtain ⟨h1, h2⟩ := isDigit_toNat c h
  unfold isSpace
  simp only [Bool.or_eq_false_iff, Bool.and_eq_false_iff, decide_eq_false_iff_not,
    beq_eq_false_iff_ne, ne_eq]
  omega

theorem digit_ne (c d : Char) (h : c.isDigit = true) (hd : d.isDigit = false) : c ≠ d := by
  intro e
  rw [e, hd] at h
  cases h

theorem digitsValue_foldl_nonneg (ds : List Char) :
    ∀ acc : Int, 0 ≤ acc →
      0 ≤ ds.foldl (fun acc d => 10 * acc + ((d.toNat - 48 : Nat) : Int)) acc := by
  induction ds with
  | nil =>
    intro acc h
    exact h
  | cons d rest ih =>
    intro acc h
    refine ih _ ?_
    show 0 ≤ 10 * acc + ((d.toNat - 48 : Nat) : Int)
    omega

theorem digitsValue_nonneg (ds : List Char) : 0 ≤ digitsValue ds :=
  digitsValue_foldl_nonneg ds 0 (le_refl 0)

/-- The scan of a value that is a decimal integer: a non-empty run of digits whose value
fits an `int` scans as that value. -/
theorem Sscanf_digits (ds : List Char) (hne : ds ≠ []) (hd : ∀ c ∈ ds, c.isDigit = true)
    (hv : digitsValue ds ≤ maxInt) : Sscanf (String.mk ds) = some (digitsValue ds) := by
  cases ds with
  | nil => exact absurd rfl hne
  | cons c rest =>
    have hc : c.isDigit = true := hd c (List.mem_cons_self c rest)
    have h13 : c ≠ Char.ofNat 13 := digit_ne c _ hc (by decide)
    have h10 : c ≠ newline := digit_ne c _ hc (by decide)
    have h43 : c ≠ Char.ofNat 43 := digit_ne c _ hc (by decide)
    have h45 : c ≠ Char.ofNat 45 := digit_ne c _ hc (by decide)
    have hsk : skipSpace (c :: rest) = some (c :: rest) := by
      unfold skipSpace
      rw [if_neg (fun h => h13 h.1), if_neg h10,
        if_neg (by rw [isSpace_of_digit c hc]; decide)]
    have htw : (c :: rest).takeWhile Char.isDigit = c :: rest := by
      rw [List.takeWhile_eq_self_iff]
      exact hd
    have hbody : (if c = Char.ofNat 43 ∨ c = Char.ofNat 45 then rest else c :: rest) =
        c :: rest := if_neg (fun h => h.elim h43 h45)
    unfold Sscanf
    show (match skipSpace (c :: rest) with
      | none => none
      | some [] => none
      | some (c :: rest) => _) = _
    rw [hsk]
    dsimp only
    rw [hbody, htw, if_neg (List.cons_ne_nil c rest), if_neg h45,
      if_pos ⟨le_trans (by unfold minInt; norm_num) (digitsValue_nonneg (c :: rest)), hv⟩]

/-! ## Image elements -/

theorem step_image (p : Parser) (blank : Cell) (st : ParserState) (name : String)
    (attrs : List Attr) (hr : st.reading = none) (hn : name = "pic" ∨ name = "img") :
    step p blank st (Token.StartElement name attrs) =
      .ok (if p.ExtractImages = true then
        match parseImage p attrs with
        | some img => { st with doc := st.doc.AddImage img }
        | none => st
      else st) := by
  unfold step
  rw [hr]
  dsimp only
  unfold startElement
  rcases hn with h | h
  · subst h
    rw [if_neg (by decide), if_neg (by decide), if_neg (by decide), if_neg (by decide),
      if_neg (by decide), if_neg (by decide), if_neg (by decide), if_neg (by decide),
      if_pos (Or.inl rfl), hr]
  · subst h
    rw [if_neg (by decide), if_neg (by decide), if_neg (by decide), if_neg (by decide),
      if_neg (by decide), if_neg (by decide), if_neg (by decide), if_neg (by decide),
      if_pos (Or.inr rfl), hr]

theorem lastPath_of_last (p : Parser) (attrs : List Attr) (P : String)
    (hid : lastValue isIdAttr attrs ≠ "")
    (hP : p.binData (lastValue isIdAttr attrs) = some P) : lastPath p attrs = P := by
  induction attrs using List.reverseRecOn with
  | nil => exact absurd rfl hid
  | append_singleton attrs attr ih =>
    rw [lastValue_snoc] at hid hP
    rw [lastPath_snoc]
    by_cases h : isIdAttr attr = true
    · rw [if_pos h] at hP
      rw [if_pos h, hP]
    · rw [if_neg h] at hid hP
      rw [if_neg h]
      exact ih hid hP

/-- The image that `parseImage` returns, field by field. -/
theorem parseImage_some (p : Parser) (attrs : List Attr)
    (hid : lastValue isIdAttr attrs ≠ "") :
    ∃ img : ImageBlock, parseImage p attrs = some img ∧
      img.ID = lastValue isIdAttr attrs ∧ img.Path = lastPath p attrs ∧
      img.Alt = lastValue isAltAttr attrs ∧ img.Width = lastInt "width" attrs ∧
      img.Height = lastInt "height" attrs := by
  obtain ⟨i1, i2, i3, i4, i5, _, _⟩ := parseImageLoop_fields p attrs
  rw [parseImage_eq, if_neg (by rw [i1]; exact hid)]
  refine ⟨_, rfl, ?_⟩
  split
  · split
    · exact ⟨i1, i2, i3, i4, i5⟩
    · exact ⟨i1, i2, i3, i4, i5⟩
  · exact ⟨i1, i2, i3, i4, i5⟩

theorem parseImage_none (p : Parser) (attrs : List Attr)
    (hid : lastValue isIdAttr attrs = "") : parseImage p attrs = none := by
  rw [parseImage_eq, if_pos (by rw [(parseImageLoop_fields p attrs).1]; exact hid)]

/-- No attribute named `name` has a value from which `Sscanf` reads a number: the field
keeps the 0 of the new image. -/
theorem lastInt_none (name : String) (attrs : List Attr)
    (h : ∀ a ∈ attrs, a.Local = name → Sscanf a.Value = none) : lastInt name attrs = 0 := by
  unfold lastInt
  have hnil : (attrs.filter fun a => a.Local = name).filterMap (fun a => Sscanf a.Value) = [] := by
    rw [List.filterMap_eq_nil_iff]
    intro a ha
    rw [List.mem_filter] at ha
    exact h a ha.1 (by simpa using ha.2)
  rw [hnil]
  rfl

/-- The last attribute named `name` from whose value `Sscanf` reads a number decides the
field. -/
theorem lastInt_last (name : String) (pre post : List Attr) (v : String) (n : Int)
    (hv : Sscanf v = some n) (hpost : ∀ a ∈ post, a.Local = name → Sscanf a.Value = none) :
    lastInt name (pre ++ ⟨name, v⟩ :: post) = n := by
  unfold lastInt
  have hnil : (post.filter fun a => a.Local = name).filterMap (fun a => Sscanf a.Value) = [] := by
    rw [List.filterMap_eq_nil_iff]
    intro a ha
    rw [List.mem_filter] at ha
    exact hpost a ha.1 (by simpa using ha.2)
  have hx : ((⟨name, v⟩ : Attr) :: post).filter (fun a => a.Local = name) =
      ⟨name, v⟩ :: post.filter (fun a => a.Local = name) :=
    List.filter_cons_of_pos (by simp)
  have hcons : ∀ l : List Attr,
      List.filterMap (fun a : Attr => Sscanf a.Value) (⟨name, v⟩ :: l) =
        n :: List.filterMap (fun a : Attr => Sscanf a.Value) l := by
    intro l
    simp only [List.filterMap_cons, hv]
  rw [List.filter_append, hx, List.filterMap_append, hcons, hnil,
    List.getLast?_append_of_ne_nil _ (List.cons_ne_nil _ _)]
  rfl

/-- C15 (amended). With image extraction enabled, a `pic` or `img` element whose identifier
(the value of its last `binItemIDRef`/`binItemId` attribute) is not empty and is in the asset
index with path `P` appends exactly one Image block and changes nothing else: the block has
that id and `Path = P`, its alt text is the value of the last `alt`/`descr` attribute (empty
when there is none), and its width (height) comes from the last `width` (`height`) attribute
on whose value `Sscanf` with `%d` succeeds: it is the number read there (the leading integer;
the value itself when the value is a run of digits that fits an `int`), and 0 when `Sscanf`
succeeds on no such attribute. -/
theorem image_block_appended (p : Parser) (blank : Cell) (st : ParserState) (name : String)
    (attrs : List Attr) (P : String)
    (hx : p.ExtractImages = true) (hr : st.reading = none)
    (hn : name = "pic" ∨ name = "img")
    (hid : lastValue isIdAttr attrs ≠ "")
    (hP : p.binData (lastValue isIdAttr attrs) = some P) :
    (∃ img : ImageBlock,
      step p blank st (Token.StartElement name attrs) =
        .ok { st with doc := st.doc.AddImage img } ∧
      (st.doc.AddImage img).Content = st.doc.Content ++ [Block.Image img] ∧
      img.ID = lastValue isIdAttr attrs ∧ img.Path = P ∧
      img.Alt = lastValue isAltAttr attrs ∧
      img.Width = lastInt "width" attrs ∧ img.Height = lastInt "height" attrs) ∧
    (∀ field : String,
      ((∀ a ∈ attrs, a.Local = field → Sscanf a.Value = none) → lastInt field attrs = 0) ∧
      (∀ (pre post : List Attr) (v : String) (n : Int), attrs = pre ++ ⟨field, v⟩ :: post →
        Sscanf v = some n → (∀ a ∈ post, a.Local = field → Sscanf a.Value = none) →
        lastInt field attrs = n)) ∧
    (∀ ds : List Char, ds ≠ [] → (∀ c ∈ ds, c.isDigit = true) → digitsValue ds ≤ maxInt →
      Sscanf (String.mk ds) = some (digitsValue ds)) := by
  refine ⟨?_, ?_, ?_⟩
  · obtain ⟨img, himg, j1, j2, j3, j4, j5⟩ := parseImage_some p attrs hid
    refine ⟨img, ?_, rfl, j1, ?_, j3, j4, j5⟩
    · rw [step_image p blank st name attrs hr hn, if_pos hx, himg]
    · rw [j2]
      exact lastPath_of_last p attrs P hid hP
  · intro field
    refine ⟨lastInt_none field attrs, ?_⟩
    intro pre post v n he hv hpost
    rw [he]
    exact lastInt_last field pre post v n hv hpost
  · intro ds hne hd hv
    exact Sscanf_digits ds hne hd hv

/-- C15 (counterexample). The image `binItemIDRef="img1" width="12px" height="px"` with
`img1` in the asset index: the width value `12px` is not an integer (it has a character
that is no digit), yet the block gets width 12, not 0 (the height, whose value does not
start with an integer, is 0). -/
theorem image_block_appended_counterexample :
    "12px".data.all Char.isDigit = false ∧
    parseImage parserImg1
        [⟨"binItemIDRef", "img1"⟩, ⟨"width", "12px"⟩, ⟨"height", "px"⟩] =
      some ⟨"img1", "BinData/image1.png", "", 12, 0, "", none⟩ := by
  constructor
  · decide
  · rfl

theorem image_block_appended_witness :
    (initialState NewDocument).reading = none ∧
    ∃ img : ImageBlock,
      step parserImg1 ⟨"", 1, 1⟩ (initialState NewDocument)
          (Token.StartElement "img"
            [⟨"binItemIDRef", "img1"⟩, ⟨"alt", "logo"⟩, ⟨"width", "640"⟩,
              ⟨"height", "480"⟩]) =
        .ok { initialState NewDocument with doc := NewDocument.AddImage img } ∧
      (NewDocument.AddImage img).Content = NewDocument.Content ++ [Block.Image img] ∧
      img.ID = "img1" ∧ img.Path = "BinData/image1.png" ∧ img.Alt = "logo" ∧
      img.Width = 640 ∧ img.Height = 480 :=
  ⟨rfl, (image_block_appended parserImg1 ⟨"", 1, 1⟩ (initialState NewDocument) "img"
    [⟨"binItemIDRef", "img1"⟩, ⟨"alt", "logo"⟩, ⟨"width", "640"⟩, ⟨"height", "480"⟩]
    "BinData/image1.png" rfl rfl (Or.inr rfl) (by decide) rfl).1⟩

/-- C16 (amended). A `pic` or `img` element yields no image, and appends no Block, exactly
when it has no identifier: it carries no `binItemIDRef`/`binItemId` attribute or the value
of the last one is empty (or image extraction is off, for the Block). An element whose
identifier is not empty still yields an image with that id, also when the identifier is
absent from the asset index, and with image extraction on one Image block is appended; the
path of the image is the path of the last identifier attribute of the element whose value
is in the asset index, and it is empty when no identifier attribute of the element has its
value in the index. -/
theorem image_without_identifier (p : Parser) (blank : Cell) (st : ParserState)
    (name : String) (attrs : List Attr)
    (hr : st.reading = none) (hn : name = "pic" ∨ name = "img") :
    (parseImage p attrs = none ↔ lastValue isIdAttr attrs = "") ∧
    (lastValue isIdAttr attrs = "" ∨ p.ExtractImages = false →
      step p blank st (Token.StartElement name attrs) = .ok st) ∧
    (lastValue isIdAttr attrs ≠ "" →
      ∃ img : ImageBlock, parseImage p attrs = some img ∧
        img.ID = lastValue isIdAttr attrs ∧ img.Path = lastPath p attrs ∧
        (p.ExtractImages = true →
          step p blank st (Token.StartElement name attrs) =
            .ok { st with doc := st.doc.AddImage img })) ∧
    ((∀ a ∈ attrs, isIdAttr a = true → p.binData a.Value = none) → lastPath p attrs = "") ∧
    (∀ (pre post : List Attr) (a : Attr) (P : String), attrs = pre ++ a :: post →
      isIdAttr a = true → p.binData a.Value = some P →
      (∀ b ∈ post, isIdAttr b = true → p.binData b.Value = none) → lastPath p attrs = P) := by
  refine ⟨⟨?_, parseImage_none p attrs⟩, ?_, ?_, ?_, ?_⟩
  · intro hnone
    by_contra hid
    obtain ⟨img, himg, _⟩ := parseImage_some p attrs hid
    rw [hnone] at himg
    cases himg
  · intro h
    rw [step_image p blank st name attrs hr hn]
    rcases h with h | h
    · rw [parseImage_none p attrs h]
      split <;> rfl
    · rw [if_neg (by rw [h]; decide)]
  · intro hid
    obtain ⟨img, himg, j1, j2, _⟩ := parseImage_some p attrs hid
    refine ⟨img, himg, j1, j2, ?_⟩
    intro hx
    rw [step_image p blank st name attrs hr hn, if_pos hx, himg]
  · intro hno
    unfold lastPath
    have : (attrs.filter isIdAttr).filterMap (fun a => p.binData a.Value) = [] := by
      rw [List.filterMap_eq_nil_iff]
      intro a ha
      rw [List.mem_filter] at ha
      exact hno a ha.1 ha.2
    rw [this]
    rfl
  · intro pre post a P he ha hP hpost
    rw [he]
    unfold lastPath
    have hnil : (post.filter isIdAttr).filterMap (fun a => p.binData a.Value) = [] := by
      rw [List.filterMap_eq_nil_iff]
      intro b hb
      rw [List.mem_filter] at hb
      exact hpost b hb.1 hb.2
    have hcons : ∀ l : List Attr,
        List.filterMap (fun a : Attr => p.binData a.Value) (a :: l) =
          P :: List.filterMap (fun a : Attr => p.binData a.Value) l := by
      intro l
      simp only [List.filterMap_cons, hP]
    rw [List.filter_append, List.filter_cons_of_pos ha, List.filterMap_append, hcons, hnil,
      List.getLast?_append_of_ne_nil _ (List.cons_ne_nil _ _)]
    rfl

/-- C16 (counterexample). The image `binItemIDRef="img1"` with an empty asset index:
`parseImage` yields an image with id `img1` and an empty path, and the state machine
appends it as a Block. And with `img1` in the index, the image
`binItemIDRef="img1" binItemId="ghost"`, whose identifier `ghost` is absent from the index,
yields an image with id `ghost` and the path of `img1`. -/
theorem image_without_identifier_counterexample :
    parserNoIndex.binData "img1" = none ∧
    parseImage parserNoIndex [⟨"binItemIDRef", "img1"⟩] =
      some ⟨"img1", "", "", 0, 0, "", none⟩ ∧
    (step parserNoIndex ⟨"", 1, 1⟩ (initialState NewDocument)
        (Token.StartElement "img" [⟨"binItemIDRef", "img1"⟩])).map (fun st => st.doc.Content) =
      .ok [Block.Image ⟨"img1", "", "", 0, 0, "", none⟩] ∧
    parserImg1.binData "ghost" = none ∧
    parseImage parserImg1 [⟨"binItemIDRef", "img1"⟩, ⟨"binItemId", "ghost"⟩] =
      some ⟨"ghost", "BinData/image1.png", "", 0, 0, "", none⟩ :=
  ⟨rfl, rfl, rfl, rfl, rfl⟩

theorem image_without_identifier_witness :
    (initialState NewDocument).reading = none ∧
    (parseImage parserNoIndex [⟨"alt", "logo"⟩] = none ↔
      lastValue isIdAttr [⟨"alt", "logo"⟩] = "") ∧
    (lastValue isIdAttr [⟨"alt", "logo"⟩] = "" ∨ parserNoIndex.ExtractImages = false →
      step parserNoIndex ⟨"", 1, 1⟩ (initialState NewDocument)
        (Token.StartElement "pic" [⟨"alt", "logo"⟩]) = .ok (initialState NewDocument)) :=
  ⟨rfl,
    (image_without_identifier parserNoIndex ⟨"", 1, 1⟩ (initialState NewDocument) "pic"
      [⟨"alt", "logo"⟩] rfl (Or.inl rfl)).1,
    (image_without_identifier parserNoIndex ⟨"", 1, 1⟩ (initialState NewDocument) "pic"
      [⟨"alt", "logo"⟩] rfl (Or.inl rfl)).2.1⟩

/-! ## The blocks of a section do not depend on the document so far -/

theorem prependDoc_AddImage (d0 d : Document) (img : ImageBlock) :
    (prependDoc d0 d).AddImage img = prependDoc d0 (d.AddImage img) := by
  simp only [prependDoc, Document.AddImage, List.append_assoc]

theorem prependDoc_AddParagraph (d0 d : Document) (para : Paragraph) :
    (prependDoc d0 d).AddParagraph para = prependDoc d0 (d.AddParagraph para) := by
  simp only [prependDoc, Document.AddParagraph, List.append_assoc]

theorem prependDoc_AddTable (d0 d : Document) (t : Option TableBlock) :
    (prependDoc d0 d).AddTable t = prependDoc d0 (d.AddTable t) := by
  cases t with
  | none => rfl
  | some table => simp only [prependDoc, Document.AddTable, List.append_assoc]

theorem writeText_prepend (d0 : Document) (st : ParserState) (s : String) :
    writeText (prependState d0 st) s = prependState d0 (writeText st s) := by
  obtain ⟨doc, cp, ts, ct, rd⟩ := st
  rcases cp with _ | cp <;> rcases ct with _ | ⟨rows, cur, _ | cell⟩ <;> rfl

theorem readElementTextStep_prepend (d0 : Document) (st : ParserState) (depth : Nat)
    (text : String) (tok : Token) :
    readElementTextStep (prependState d0 st) depth text tok =
      prependState d0 (readElementTextStep st depth text tok) := by
  cases tok with
  | CharData data => rfl
  | StartElement name attrs =>
    unfold readElementTextStep
    dsimp only
    by_cases h : name = "fwSpace" ∨ name = "hwSpace"
    · rw [if_pos h, if_pos h]
      rfl
    · rw [if_neg h, if_neg h]
      rfl
  | EndElement name =>
    unfold readElementTextStep
    dsimp only
    by_cases h : depth - 1 = 0
    · rw [if_pos h, if_pos h]
      exact writeText_prepend d0 { st with reading := none } text
    · rw [if_neg h, if_neg h]
      rfl
  | Other => rfl

theorem startElement_prepend (p : Parser) (d0 : Document) (st : ParserState) (name : String)
    (attrs : List Attr) :
    startElement p (prependState d0 st) name attrs =
      prependState d0 (startElement p st name attrs) := by
  by_cases h1 : name = "p"
  · subst h1
    rfl
  by_cases h2 : name = "t"
  · subst h2
    obtain ⟨doc, cp, ts, ct, rd⟩ := st
    rcases cp with _ | cp <;> rfl
  by_cases h3 : name = "tab"
  · subst h3
    have e : ∀ s : ParserState, startElement p s "tab" attrs =
        if s.currentParagraph.isSome = true then writeText s "\t" else s := by
      intro s
      unfold startElement
      rw [if_neg (by decide), if_neg (by decide), if_pos rfl]
    rw [e, e]
    by_cases hp : st.currentParagraph.isSome = true
    · rw [if_pos hp, if_pos (show (prependState d0 st).currentParagraph.isSome = true from hp)]
      exact writeText_prepend d0 st "\t"
    · rw [if_neg hp, if_neg (show ¬ (prependState d0 st).currentParagraph.isSome = true from hp)]
  by_cases h4 : name = "br"
  · subst h4
    have e : ∀ s : ParserState, startElement p s "br" attrs =
        if s.currentParagraph.isSome = true then
          if brType attrs = "line" then writeText s "\n" else s
        else s := by
      intro s
      unfold startElement
      rw [if_neg (by decide), if_neg (by decide), if_neg (by decide), if_pos rfl]
    rw [e, e]
    by_cases hp : st.currentParagraph.isSome = true
    · rw [if_pos hp, if_pos (show (prependState d0 st).currentParagraph.isSome = true from hp)]
      by_cases hb : brType attrs = "line"
      · rw [if_pos hb, if_pos hb]
        exact writeText_prepend d0 st "\n"
      · rw [if_neg hb, if_neg hb]
    · rw [if_neg hp, if_neg (show ¬ (prependState d0 st).currentParagraph.isSome = true from hp)]
  by_cases h5 : name = "tbl"
  · subst h5
    obtain ⟨doc, cp, ts, ct, rd⟩ := st
    rcases ct with _ | table <;> rfl
  by_cases h6 : name = "tr"
  · subst h6
    obtain ⟨doc, cp, ts, ct, rd⟩ := st
    rcases ct with _ | table <;> rfl
  by_cases h7 : name = "tc"
  · subst h7
    obtain ⟨doc, cp, ts, ct, rd⟩ := st
    rcases ct with _ | table <;> rfl
  by_cases h8 : name = "cellSpan"
  · subst h8
    obtain ⟨doc, cp, ts, ct, rd⟩ := st
    rcases ct with _ | ⟨rows, cur, _ | cell⟩ <;> rfl
  have e : ∀ s : ParserState, startElement p s name attrs =
      if name = "pic" ∨ name = "img" then
        if p.ExtractImages = true then
          match parseImage p attrs with
          | some img => { s with doc := s.doc.AddImage img }
          | none => s
        else s
      else s := by
    intro s
    unfold startElement
    rw [if_neg h1, if_neg h2, if_neg h3, if_neg h4, if_neg h5, if_neg h6, if_neg h7, if_neg h8]
  rw [e, e]
  by_cases h9 : name = "pic" ∨ name = "img"
  · rw [if_pos h9, if_pos h9]
    by_cases hx : p.ExtractImages = true
    · rw [if_pos hx, if_pos hx]
      cases parseImage p attrs with
      | none => rfl
      | some img =>
        show ({ prependState d0 st with doc := (prependDoc d0 st.doc).AddImage img } : ParserState) = _
        rw [prependDoc_AddImage]
        rfl
    · rw [if_neg hx, if_neg hx]
  · rw [if_neg h9, if_neg h9]

theorem endTable_prepend (blank : Cell) (d0 : Document) (st : ParserState) :
    endTable blank (prependState d0 st) =
      match endTable blank st with
      | .error e => .error e
      | .ok st1 => .ok (prependState d0 st1) := by
  obtain ⟨doc, cp, ts, ct, rd⟩ := st
  rcases ct with _ | table
  · unfold endTable
    show (match ts.getLast? with
      | some parentTable => _
      | none => _) = _
    dsimp only
    cases ts.getLast? <;> rfl
  · unfold endTable
    dsimp only [prependState]
    by_cases hl : table.rows.length > 0
    · rw [if_pos hl, if_pos hl]
      cases hts : ts.getLast? with
      | some parentTable => rfl
      | none =>
        dsimp only
        cases hb : buildTable blank table.rows with
        | error e => rfl
        | ok built =>
          dsimp only
          rw [prependDoc_AddTable]
    · rw [if_neg hl, if_neg hl]
      cases hts : ts.getLast? <;> rfl

theorem endElement_prepend (blank : Cell) (d0 : Document) (st : ParserState) (name : String) :
    endElement blank (prependState d0 st) name =
      match endElement blank st name with
      | .error e => .error e
      | .ok st1 => .ok (prependState d0 st1) := by
  by_cases h1 : name = "p"
  · subst h1
    obtain ⟨doc, cp, ts, ct, rd⟩ := st
    rcases cp with _ | para
    · rfl
    · unfold endElement
      rw [if_pos rfl, if_pos rfl]
      dsimp only [prependState]
      by_cases hp : ¬ para.IsEmpty = true
      · rw [if_pos hp, if_pos hp]
        rcases ct with _ | ⟨rows, cur, _ | cell⟩
        · dsimp only
          rw [prependDoc_AddParagraph]
        · rfl
        · rfl
      · rw [if_neg hp, if_neg hp]
  by_cases h2 : name = "tc"
  · subst h2
    obtain ⟨doc, cp, ts, ct, rd⟩ := st
    rcases ct with _ | ⟨rows, cur, _ | cell⟩ <;> rfl
  by_cases h3 : name = "tr"
  · subst h3
    obtain ⟨doc, cp, ts, ct, rd⟩ := st
    rcases ct with _ | table
    · rfl
    · unfold endElement
      rw [if_neg (by decide), if_neg (by decide), if_pos rfl, if_neg (by decide),
        if_neg (by decide), if_pos rfl]
      dsimp only [prependState]
      by_cases hl : table.currentRow.length > 0
      · rw [if_pos hl, if_pos hl]
      · rw [if_neg hl, if_neg hl]
  by_cases h4 : name = "tbl"
  · subst h4
    have e : ∀ s : ParserState, endElement blank s "tbl" = endTable blank s := by
      intro s
      unfold endElement
      rw [if_neg (by decide), if_neg (by decide), if_neg (by decide), if_pos rfl]
    rw [e, e]
    exact endTable_prepend blank d0 st
  have e : ∀ s : ParserState, endElement blank s name = .ok s := by
    intro s
    unfold endElement
    rw [if_neg h1, if_neg h2, if_neg h3, if_neg h4]
  rw [e, e]

theorem step_prepend (p : Parser) (blank : Cell) (d0 : Document) (st : ParserState)
    (tok : Token) :
    step p blank (prependState d0 st) tok =
      match step p blank st tok with
      | .error e => .error e
      | .ok st1 => .ok (prependState d0 st1) := by
  unfold step
  show (match st.reading with
    | some (depth, text) => _
    | none => _) = _
  cases hr : st.reading with
  | some dt =>
    obtain ⟨depth, text⟩ := dt
    dsimp only
    rw [readElementTextStep_prepend]
  | none =>
    dsimp only
    cases tok with
    | StartElement name attrs =>
      dsimp only
      rw [startElement_prepend]
    | EndElement name =>
      dsimp only
      exact endElement_prepend blank d0 st name
    | CharData data => rfl
    | Other => rfl

theorem runTokens_prepend (p : Parser) (blank : Cell) (d0 : Document) (tokens : List Token) :
    ∀ st : ParserState, runTokens p blank (prependState d0 st) tokens =
      match runTokens p blank st tokens with
      | .error e => .error e
      | .ok st1 => .ok (prependState d0 st1) := by
  induction tokens with
  | nil =>
    intro st
    rfl
  | cons tok rest ih =>
    intro st
    unfold runTokens
    rw [step_prepend]
    cases hs : step p blank st tok with
    | error e => rfl
    | ok st1 =>
      dsimp only
      exact ih st1

theorem endOfTokens_prepend (d0 : Document) (st : ParserState) :
    endOfTokens (prependState d0 st) = prependState d0 (endOfTokens st) := by
  unfold endOfTokens
  show (match st.reading with
    | some (depth, text) => _
    | none => _) = _
  cases hr : st.reading with
  | some dt =>
    obtain ⟨depth, text⟩ := dt
    dsimp only
    exact writeText_prepend d0 { st with reading := none } text
  | none => rfl

theorem parseSectionXML_prepend (p : Parser) (blank : Cell) (d0 doc : Document)
    (tokens : List Token) (fails : Bool) :
    parseSectionXML p blank (prependDoc d0 doc) tokens fails =
      match parseSectionXML p blank doc tokens fails with
      | .error e => .error e
      | .ok (doc1, f) => .ok (prependDoc d0 doc1, f) := by
  unfold parseSectionXML
  have hi : initialState (prependDoc d0 doc) = prependState d0 (initialState doc) := rfl
  rw [hi, runTokens_prepend]
  cases hrun : runTokens p blank (initialState doc) tokens with
  | error e => rfl
  | ok st =>
    dsimp only
    rw [endOfTokens_prepend]
    rfl

/-! ## `sort.Strings` -/

theorem lessChars_asymm : ∀ a b : List Char, lessChars a b = true → lessChars b a = false := by
  intro a
  induction a with
  | nil =>
    intro b _
    cases b <;> rfl
  | cons x s ih =>
    intro b h
    cases b with
    | nil => simp [lessChars] at h
    | cons y t =>
      simp only [lessChars, Bool.or_eq_true, Bool.and_eq_true, decide_eq_true_eq] at h
      simp only [lessChars, Bool.or_eq_false_iff, Bool.and_eq_false_iff, decide_eq_false_iff_not]
      rcases h with h | ⟨h1, h2⟩
      · exact ⟨by omega, Or.inl (by omega)⟩
      · exact ⟨by omega, Or.inr (ih t h2)⟩

theorem lessChars_le_trans : ∀ a b c : List Char,
    lessChars b a = false → lessChars c b = false → lessChars c a = false := by
  intro a
  induction a with
  | nil =>
    intro b c _ _
    cases c <;> rfl
  | cons x s ih =>
    intro b c h1 h2
    cases c with
    | nil =>
      cases b with
      | nil => simp [lessChars] at h1
      | cons y t => simp [lessChars] at h2
    | cons z r =>
      cases b with
      | nil => simp [lessChars] at h1
      | cons y t =>
        simp only [lessChars, Bool.or_eq_false_iff, Bool.and_eq_false_iff,
          decide_eq_false_iff_not] at h1 h2 ⊢
        obtain ⟨a1, a2⟩ := h1
        obtain ⟨b1, b2⟩ := h2
        refine ⟨by omega, ?_⟩
        by_cases e : z.toNat = x.toNat
        · right
          have e1 : y.toNat = x.toNat := by omega
          have e2 : z.toNat = y.toNat := by omega
          rcases a2 with a2 | a2
          · exact absurd e1 a2
          · rcases b2 with b2 | b2
            · exact absurd e2 b2
            · exact ih t r a2 b2
        · exact Or.inl e

theorem less_asymm (s t : String) (h : less s t = true) : less t s = false :=
  lessChars_asymm s.data t.data h

theorem less_le_trans (a b c : String) (h1 : less b a = false) (h2 : less c b = false) :
    less c a = false :=
  lessChars_le_trans a.data b.data c.data h1 h2

theorem insertString_perm (s : String) (l : List String) :
    (insertString s l).Perm (s :: l) := by
  induction l with
  | nil => exact List.Perm.refl _
  | cons t rest ih =>
    unfold insertString
    by_cases h : less t s = true
    · rw [if_pos h]
      exact (List.Perm.cons t ih).trans (List.Perm.swap s t rest)
    · rw [if_neg h]

theorem sortStrings_perm (l : List String) : (sortStrings l).Perm l := by
  induction l with
  | nil => exact List.Perm.refl _
  | cons s rest ih =>
    unfold sortStrings
    exact (insertString_perm s (sortStrings rest)).trans (List.Perm.cons s ih)

theorem insertString_sorted (s : String) (l : List String) (h : StringsSorted l) :
    StringsSorted (insertString s l) := by
  induction l with
  | nil => exact List.pairwise_singleton _ _
  | cons t rest ih =>
    unfold StringsSorted at h ⊢
    rw [List.pairwise_cons] at h
    unfold insertString
    by_cases hl : less t s = true
    · rw [if_pos hl, List.pairwise_cons]
      refine ⟨?_, ih h.2⟩
      intro b hb
      have hb2 := (List.Perm.mem_iff (insertString_perm s rest)).1 hb
      rw [List.mem_cons] at hb2
      rcases hb2 with hb2 | hb2
      · rw [hb2]
        exact less_asymm t s hl
      · exact h.1 b hb2
    · rw [if_neg hl, List.pairwise_cons]
      have hst : less t s = false := by
        cases hv : less t s with
        | true => exact absurd hv hl
        | false => rfl
      refine ⟨?_, List.pairwise_cons.2 h⟩
      intro b hb
      simp only [List.mem_cons] at hb
      rcases hb with hb | hb
      · rw [hb]
        exact hst
      · exact less_le_trans s t b hst (h.1 b hb)

theorem sortStrings_sorted (l : List String) : StringsSorted (sortStrings l) := by
  induction l with
  | nil => exact List.Pairwise.nil
  | cons s rest ih =>
    unfold sortStrings
    exact insertString_sorted s (sortStrings rest) ih

/-! ## The loops of the resolver -/

theorem manifestLoop_sections (u : Unicode) (items : List ManifestItem) :
    ∀ acc : List String × (String → Option String),
      (items.foldl (manifestItemStep u) acc).1 =
        acc.1 ++ (items.filter fun item => Contains (ToLower u item.ID) "section").map
          normalizedHref := by
  induction items with
  | nil =>
    intro acc
    simp
  | cons item rest ih =>
    intro acc
    rw [List.foldl_cons, ih]
    by_cases h : Contains (ToLower u item.ID) "section" = true
    · simp [manifestItemStep, h, List.filter_cons]
    · simp [manifestItemStep, h, List.filter_cons]

theorem fileLoop_sections (files : List File) :
    ∀ acc : List String × (String → Option String),
      (files.foldl fileStep acc).1 =
        acc.1 ++ (files.filter fun f => Contains f.Name "section" && HasSuffix f.Name ".xml").map
          fun f => f.Name := by
  induction files with
  | nil =>
    intro acc
    simp
  | cons f rest ih =>
    intro acc
    rw [List.foldl_cons, ih]
    by_cases h : Contains f.Name "section" = true ∧ HasSuffix f.Name ".xml" = true
    · simp [fileStep, h, List.filter_cons]
    · have h2 : (Contains f.Name "section" && HasSuffix f.Name ".xml") = false := by
        cases h1 : Contains f.Name "section" <;> cases h3 : HasSuffix f.Name ".xml" <;>
          simp_all
      simp [fileStep, h, h2, List.filter_cons]

/-- What `New` leaves in the parser when it returns no error. -/
theorem New_some (u : Unicode) (files : List File) (x : Bool) (p : Resolver)
    (h : New u (some files) x = some p) :
    p.reader = files ∧ p.ExtractImages = x ∧
    p.sections = sortStrings (classifiedSections u files) ∧
    (findManifestFile u files = none → p.manifest = none) := by
  unfold New parseManifest at h
  dsimp only at h
  unfold classifiedSections
  cases hm : findManifestFile u files with
  | none =>
    rw [hm] at h
    simp only [Option.some.injEq] at h
    subst h
    refine ⟨rfl, rfl, ?_, fun _ => rfl⟩
    unfold findSectionsWithoutManifest
    dsimp only
    rw [fileLoop_sections]
    rfl
  | some mf =>
    rw [hm] at h
    dsimp only at h
    by_cases ho : mf.Open = false
    · rw [if_pos ho] at h
      cases h
    · rw [if_neg ho] at h
      cases hd : mf.Data with
      | none =>
        rw [hd] at h
        cases h
      | some data =>
        rw [hd] at h
        dsimp only at h
        cases hmm : mf.Manifest with
        | none =>
          rw [hmm] at h
          cases h
        | some manifest =>
          rw [hmm] at h
          simp only [Option.some.injEq] at h
          subst h
          refine ⟨rfl, rfl, ?_, fun hc => by cases hc⟩
          dsimp only
          rw [manifestLoop_sections, hmm]
          rfl

/-! ## `parseSection` and `Parse` -/

theorem prependDoc_new (doc : Document) : prependDoc doc NewDocument = doc := by
  obtain ⟨md, content⟩ := doc
  simp [prependDoc, NewDocument]

theorem parseSection_prepend (u : Unicode) (blank : Cell) (p : Resolver) (d0 doc : Document)
    (path : String) :
    parseSection u blank p (prependDoc d0 doc) path =
      prependOutcome d0 (parseSection u blank p doc path) := by
  unfold parseSection
  cases hf : findFile u p.reader path with
  | none => rfl
  | some f =>
    dsimp only
    by_cases ho : f.Open = false
    · rw [if_pos ho, if_pos ho]
      rfl
    · rw [if_neg ho, if_neg ho, parseSectionXML_prepend]
      cases hx : parseSectionXML (p.toParser u) blank doc f.Tokens.1 f.Tokens.2 with
      | error e => rfl
      | ok r =>
        obtain ⟨doc1, fails⟩ := r
        dsimp only
        cases fails <;> rfl

theorem parseSection_eq (u : Unicode) (blank : Cell) (p : Resolver) (doc : Document)
    (path : String) :
    parseSection u blank p doc path =
      prependOutcome doc (parseSection u blank p NewDocument path) := by
  rw [← parseSection_prepend, prependDoc_new]

/-- What `parseSection` needs to return a document. -/
theorem parseSection_some (u : Unicode) (blank : Cell) (p : Resolver) (doc doc1 : Document)
    (path : String) (h : parseSection u blank p doc path = .ok (some doc1)) :
    ∃ f : File, findFile u p.reader path = some f ∧ f.Open = true ∧ f.Tokens.2 = false := by
  unfold parseSection at h
  cases hf : findFile u p.reader path with
  | none =>
    rw [hf] at h
    cases h
  | some f =>
    rw [hf] at h
    dsimp only at h
    refine ⟨f, rfl, ?_⟩
    by_cases ho : f.Open = false
    · rw [if_pos ho] at h
      cases h
    · rw [if_neg ho] at h
      cases hx : parseSectionXML (p.toParser u) blank doc f.Tokens.1 f.Tokens.2 with
      | error e =>
        rw [hx] at h
        cases h
      | ok r =>
        obtain ⟨doc2, fails⟩ := r
        rw [hx] at h
        dsimp only at h
        have hx2 := hx
        unfold parseSectionXML at hx2
        cases hrun : runTokens (p.toParser u) blank (initialState doc) f.Tokens.1 with
        | error e =>
          rw [hrun] at hx2
          cases hx2
        | ok st =>
          rw [hrun] at hx2
          simp only [Except.ok.injEq, Prod.mk.injEq] at hx2
          cases hfl : fails with
          | true =>
            rw [hfl, if_pos rfl] at h
            cases h
          | false =>
            refine ⟨?_, ?_⟩
            · cases hv : f.Open with
              | true => rfl
              | false => exact absurd hv ho
            · rw [hx2.2, hfl]

/-- When `parseSection` returns an error. -/
theorem parseSection_none (u : Unicode) (blank : Cell) (p : Resolver) (doc : Document)
    (path : String)
    (h : findFile u p.reader path = none ∨
      ∃ f : File, findFile u p.reader path = some f ∧
        (f.Open = false ∨ (f.Tokens.2 = true ∧
          ∃ st, runTokens (p.toParser u) blank (initialState doc) f.Tokens.1 = .ok st))) :
    parseSection u blank p doc path = .ok none := by
  unfold parseSection
  rcases h with h | ⟨f, h, h2⟩
  · rw [h]
  · rw [h]
    dsimp only
    rcases h2 with ho | ⟨ht, st, hst⟩
    · rw [if_pos ho]
    · by_cases ho : f.Open = false
      · rw [if_pos ho]
      · rw [if_neg ho]
        unfold parseSectionXML
        rw [hst]
        dsimp only
        rw [if_pos ht]

theorem sectionBlocks_some_iff (u : Unicode) (blank : Cell) (p : Resolver) (path : String)
    (b : List Block) :
    sectionBlocks u blank p path = .ok (some b) ↔
      ∃ d : Document, parseSection u blank p NewDocument path = .ok (some d) ∧ d.Content = b := by
  unfold sectionBlocks
  cases hp : parseSection u blank p NewDocument path with
  | error e => simp
  | ok r =>
    cases r with
    | none => simp
    | some d => simp

theorem parseSections_iff (u : Unicode) (blank : Cell) (p : Resolver) (paths : List String) :
    ∀ doc d : Document, parseSections u blank p doc paths = .ok (some d) ↔
      ∃ bs : List (List Block),
        List.Forall₂ (fun path b => sectionBlocks u blank p path = .ok (some b)) paths bs ∧
        d.Content = doc.Content ++ bs.flatten ∧ d.Metadata = doc.Metadata := by
  induction paths with
  | nil =>
    intro doc d
    unfold parseSections
    constructor
    · intro h
      simp only [Except.ok.injEq, Option.some.injEq] at h
      subst h
      exact ⟨[], List.Forall₂.nil, by simp, rfl⟩
    · rintro ⟨bs, hbs, hc, hm⟩
      rw [List.forall₂_nil_left_iff] at hbs
      subst hbs
      obtain ⟨md, content⟩ := doc
      obtain ⟨md2, content2⟩ := d
      simp only [List.flatten_nil, List.append_nil] at hc hm
      subst hc
      subst hm
      rfl
  | cons path rest ih =>
    intro doc d
    unfold parseSections
    rw [parseSection_eq]
    cases hp : parseSection u blank p NewDocument path with
    | error e =>
      constructor
      · intro h
        cases h
      · rintro ⟨bs, hbs, -, -⟩
        rw [List.forall₂_cons_left_iff] at hbs
        obtain ⟨b, bs2, hb, -, -⟩ := hbs
        rw [sectionBlocks_some_iff] at hb
        obtain ⟨d1, hd1, -⟩ := hb
        rw [hp] at hd1
        cases hd1
    | ok r =>
      cases r with
      | none =>
        constructor
        · intro h
          cases h
        · rintro ⟨bs, hbs, -, -⟩
          rw [List.forall₂_cons_left_iff] at hbs
          obtain ⟨b, bs2, hb, -, -⟩ := hbs
          rw [sectionBlocks_some_iff] at hb
          obtain ⟨d1, hd1, -⟩ := hb
          rw [hp] at hd1
          cases hd1
      | some d1 =>
        show parseSections u blank p (prependDoc doc d1) rest = .ok (some d) ↔ _
        rw [ih]
        constructor
        · rintro ⟨bs, hbs, hc, hm⟩
          refine ⟨d1.Content :: bs, ?_, ?_, hm⟩
          · exact List.Forall₂.cons
              ((sectionBlocks_some_iff u blank p path d1.Content).2 ⟨d1, hp, rfl⟩) hbs
          · rw [hc, List.flatten_cons]
            simp only [prependDoc, List.append_assoc]
        · rintro ⟨bs, hbs, hc, hm⟩
          rw [List.forall₂_cons_left_iff] at hbs
          obtain ⟨b, bs2, hb, hbs2, e⟩ := hbs
          subst e
          rw [sectionBlocks_some_iff] at hb
          obtain ⟨d2, hd2, hb2⟩ := hb
          rw [hp] at hd2
          simp only [Except.ok.injEq, Option.some.injEq] at hd2
          subst hd2
          subst hb2
          refine ⟨bs2, hbs2, ?_, hm⟩
          rw [hc, List.flatten_cons]
          simp only [prependDoc, List.append_assoc]

/-- The loop of `Parse` stops with an error at the first section that fails, after sections
that were parsed. -/
theorem parseSections_fail (u : Unicode) (blank : Cell) (p : Resolver) (pre : List String)
    (path : String) (post : List String) :
    ∀ doc : Document,
      (∀ q ∈ pre, ∃ b, sectionBlocks u blank p q = .ok (some b)) →
      parseSection u blank p NewDocument path = .ok none →
      parseSections u blank p doc (pre ++ path :: post) = .ok none := by
  induction pre with
  | nil =>
    intro doc _ hf
    show parseSections u blank p doc (path :: post) = .ok none
    unfold parseSections
    rw [parseSection_eq, hf]
    rfl
  | cons q pre ih =>
    intro doc hpre hf
    show parseSections u blank p doc (q :: (pre ++ path :: post)) = .ok none
    unfold parseSections
    obtain ⟨b, hb⟩ := hpre q (List.mem_cons_self q pre)
    rw [sectionBlocks_some_iff] at hb
    obtain ⟨d1, hd1, -⟩ := hb
    rw [parseSection_eq, hd1]
    show parseSections u blank p (prependDoc doc d1) (pre ++ path :: post) = .ok none
    exact ih _ (fun q2 hq2 => hpre q2 (List.mem_cons_of_mem q hq2)) hf

/-- A document is returned only when every section was parsed. -/
theorem parseSections_some (u : Unicode) (blank : Cell) (p : Resolver) (paths : List String) :
    ∀ doc d : Document, parseSections u blank p doc paths = .ok (some d) →
      ∀ path ∈ paths, ∃ f : File,
        findFile u p.reader path = some f ∧ f.Open = true ∧ f.Tokens.2 = false := by
  induction paths with
  | nil =>
    intro doc d _ path hpath
    cases hpath
  | cons q rest ih =>
    intro doc d h path hpath
    unfold parseSections at h
    cases hp : parseSection u blank p doc q with
    | error e =>
      rw [hp] at h
      cases h
    | ok r =>
      cases r with
      | none =>
        rw [hp] at h
        cases h
      | some d1 =>
        rw [hp] at h
        dsimp only at h
        rw [List.mem_cons] at hpath
        rcases hpath with e | hmem
        · rw [e]
          exact parseSection_some u blank p doc d1 q hp
        · exact ih d1 d h path hmem

/-- When no section panics, one failing section makes the loop of `Parse` return an
error. -/
theorem parseSections_any_fail (u : Unicode) (blank : Cell) (p : Resolver)
    (paths : List String) :
    ∀ doc : Document,
      (∀ q ∈ paths, ∀ e, sectionBlocks u blank p q ≠ .error e) →
      (∃ path ∈ paths, findFile u p.reader path = none ∨
        ∃ f : File, findFile u p.reader path = some f ∧ (f.Open = false ∨ f.Tokens.2 = true)) →
      parseSections u blank p doc paths = .ok none := by
  induction paths with
  | nil =>
    rintro doc - ⟨path, hpath, -⟩
    cases hpath
  | cons q rest ih =>
    rintro doc hnp ⟨path, hpath, hfail⟩
    unfold parseSections
    rw [parseSection_eq]
    cases hp : parseSection u blank p NewDocument q with
    | error e =>
      exfalso
      apply hnp q (List.mem_cons_self q rest) e
      unfold sectionBlocks
      rw [hp]
    | ok r =>
      cases r with
      | none => rfl
      | some d1 =>
        show parseSections u blank p (prependDoc doc d1) rest = .ok none
        rw [List.mem_cons] at hpath
        rcases hpath with e | hmem
        · exfalso
          subst e
          obtain ⟨f, hf, ho, ht⟩ := parseSection_some u blank p NewDocument d1 path hp
          rcases hfail with h1 | ⟨g, hg, h2⟩
          · rw [h1] at hf
            cases hf
          · rw [hg] at hf
            simp only [Option.some.injEq] at hf
            subst hf
            rcases h2 with h2 | h2
            · rw [h2] at ho
              cases ho
            · rw [h2] at ht
              cases ht
        · exact ih _ (fun q2 hq2 => hnp q2 (List.mem_cons_of_mem q hq2)) ⟨path, hmem, hfail⟩

/-- C17 (code evaluation). The loop of `parseManifest` records a manifest item as a section
exactly when its lower-cased id contains `section`, and records the normalized href; but the
normalization tests the id as written. For the item with id `Section0`, href `section0.xml`
and media type `application/xml` (id contains `section` ignoring case, href relative, media
type ends in `xml`) the recorded section path is `section0.xml`, not
`Contents/section0.xml`. -/
theorem manifest_section_href (u : Unicode) (items : List ManifestItem)
    (acc : List String × (String → Option String)) :
    (items.foldl (manifestItemStep u) acc).1 =
      acc.1 ++ (items.filter fun item => Contains (ToLower u item.ID) "section").map
        normalizedHref ∧
    Contains (ToLower asciiOnly "Section0") "section" = true ∧
    Contains "Section0" "section" = false ∧
    HasPrefix "section0.xml" "/" = false ∧ HasPrefix "section0.xml" "Contents/" = false ∧
    HasSuffix "application/xml" "xml" = true ∧
    normalizedHref ⟨"Section0", "section0.xml", "application/xml"⟩ = "section0.xml" ∧
    (New asciiOnly (some packageSection0) false).map (fun p => p.sections) =
      some ["section0.xml"] :=
  ⟨manifestLoop_sections u items acc, rfl, rfl, rfl, rfl, rfl, rfl, rfl⟩

/-- C18. After `New` has returned a parser (with or without a manifest), its section list
is in ascending order of the path strings and is a permutation of the classified section
paths (duplicates kept); and `Parse` returns a document exactly when every section of the
list, parsed on its own, yields its blocks, and then the blocks of the document are the
concatenation of the blocks of the sections in the order of the list (the metadata is that
of the manifest, if there is one). -/
theorem sections_sorted_and_parsed_in_order (u : Unicode) (blank : Cell) (files : List File)
    (x : Bool) (p : Resolver) (h : New u (some files) x = some p) :
    StringsSorted p.sections ∧ p.sections.Perm (classifiedSections u files) ∧
    ∀ doc : Document, Parse u blank p = .ok (some doc) ↔
      ∃ bs : List (List Block),
        List.Forall₂ (fun path b => sectionBlocks u blank p path = .ok (some b)) p.sections bs ∧
        doc.Content = bs.flatten ∧
        doc.Metadata =
          match p.manifest with
          | some manifest => manifest.ToMetadata
          | none => NewDocument.Metadata := by
  obtain ⟨-, -, hs, -⟩ := New_some u files x p h
  refine ⟨?_, ?_, ?_⟩
  · rw [hs]
    exact sortStrings_sorted _
  · rw [hs]
    exact sortStrings_perm _
  · intro doc
    unfold Parse
    dsimp only
    rw [parseSections_iff]
    cases p.manifest with
    | none =>
      show (∃ bs : List (List Block), _ ∧ doc.Content = [] ++ bs.flatten ∧ _) ↔ _
      simp only [List.nil_append]
    | some manifest =>
      show (∃ bs : List (List Block), _ ∧ doc.Content = [] ++ bs.flatten ∧ _) ↔ _
      simp only [List.nil_append]

theorem sections_sorted_and_parsed_in_order_witness :
    New asciiOnly (some packageTwoSections) false = some resolverTwoSections ∧
    resolverTwoSections.sections = ["Contents/section0.xml", "Contents/section1.xml"] ∧
    Parse asciiOnly ⟨"", 1, 1⟩ resolverTwoSections =
      .ok (some ⟨⟨"", ""⟩,
        [Block.Paragraph (NewParagraph "A"), Block.Paragraph (NewParagraph "B")]⟩) ∧
    (StringsSorted resolverTwoSections.sections ∧
      resolverTwoSections.sections.Perm (classifiedSections asciiOnly packageTwoSections) ∧
      ∀ doc : Document, Parse asciiOnly ⟨"", 1, 1⟩ resolverTwoSections = .ok (some doc) ↔
        ∃ bs : List (List Block),
          List.Forall₂
            (fun path b => sectionBlocks asciiOnly ⟨"", 1, 1⟩ resolverTwoSections path =
              .ok (some b))
            resolverTwoSections.sections bs ∧
          doc.Content = bs.flatten ∧
          doc.Metadata =
            match resolverTwoSections.manifest with
            | some manifest => manifest.ToMetadata
            | none => NewDocument.Metadata) :=
  ⟨rfl, rfl, rfl,
    sections_sorted_and_parsed_in_order asciiOnly ⟨"", 1, 1⟩ packageTwoSections false
      resolverTwoSections rfl⟩

/-- C19. `Parse` returns a document only if every section of the section list is found in
the archive, can be opened, and has a token stream that ends without an error. If the
sections before some section were parsed and that section is missing, cannot be opened, or
has a token stream that ends in an error (its tokens being handled without a panic), then
`Parse` returns an error and no document, whatever the number of sections parsed before.
And when no section of the list panics, `Parse` returns an error and no document as soon as
any section of the list is missing, cannot be opened, or has a token stream that ends in an
error. -/
theorem Parse_error_no_document (u : Unicode) (blank : Cell) (p : Resolver) :
    (∀ doc : Document, Parse u blank p = .ok (some doc) →
      ∀ path ∈ p.sections, ∃ f : File,
        findFile u p.reader path = some f ∧ f.Open = true ∧ f.Tokens.2 = false) ∧
    (∀ (pre : List String) (path : String) (post : List String),
      p.sections = pre ++ path :: post →
      (∀ q ∈ pre, ∃ b, sectionBlocks u blank p q = .ok (some b)) →
      (findFile u p.reader path = none ∨
        ∃ f : File, findFile u p.reader path = some f ∧
          (f.Open = false ∨ (f.Tokens.2 = true ∧
            ∃ st, runTokens (p.toParser u) blank (initialState NewDocument) f.Tokens.1 =
              .ok st))) →
      Parse u blank p = .ok none) ∧
    ((∀ q ∈ p.sections, ∀ e, sectionBlocks u blank p q ≠ .error e) →
      (∃ path ∈ p.sections, findFile u p.reader path = none ∨
        ∃ f : File, findFile u p.reader path = some f ∧ (f.Open = false ∨ f.Tokens.2 = true)) →
      Parse u blank p = .ok none) := by
  refine ⟨?_, ?_, ?_⟩
  · intro doc h
    unfold Parse at h
    exact parseSections_some u blank p p.sections _ doc h
  · intro pre path post hs hpre hfail
    unfold Parse
    dsimp only
    rw [hs]
    exact parseSections_fail u blank p pre path post _ hpre
      (parseSection_none u blank p NewDocument path hfail)
  · intro hnp hfail
    unfold Parse
    exact parseSections_any_fail u blank p p.sections _ hnp hfail

theorem Parse_error_no_document_witness :
    New asciiOnly (some packageMissingSection) false = some resolverMissingSection ∧
    Parse asciiOnly ⟨"", 1, 1⟩ resolverMissingSection = .ok none :=
  ⟨rfl, (Parse_error_no_document asciiOnly ⟨"", 1, 1⟩ resolverMissingSection).2.1
    ["Contents/section0.xml"] "Contents/section1.xml" [] rfl
    (fun q hq => by
      rw [List.mem_singleton] at hq
      rw [hq]
      exact ⟨[Block.Paragraph (NewParagraph "A")], rfl⟩)
    (Or.inl rfl)⟩

/-- C20. For a package without a manifest in which no entry name both contains `section`
and ends in `.xml`, `New` returns a parser with an empty section list, and `Parse` returns a
document without blocks and no error. -/
theorem Parse_without_sections (u : Unicode) (blank : Cell) (files : List File) (x : Bool)
    (hm : findManifestFile u files = none)
    (hs : ∀ f ∈ files, ¬ (Contains f.Name "section" = true ∧ HasSuffix f.Name ".xml" = true)) :
    ∃ p : Resolver, New u (some files) x = some p ∧ p.sections = [] ∧
      Parse u blank p = .ok (some NewDocument) ∧ NewDocument.Content = [] := by
  have hnew : New u (some files) x =
      some (findSectionsWithoutManifest ⟨files, x, none, [], fun _ => none⟩) := by
    unfold New parseManifest
    dsimp only
    rw [hm]
  obtain ⟨-, -, hsec, hman⟩ := New_some u files x _ hnew
  have hcl : classifiedSections u files = [] := by
    unfold classifiedSections
    rw [hm]
    dsimp only
    rw [List.map_eq_nil_iff, List.filter_eq_nil_iff]
    intro f hf hc
    rw [Bool.and_eq_true] at hc
    exact hs f hf hc
  rw [hcl] at hsec
  refine ⟨_, hnew, hsec, ?_, rfl⟩
  unfold Parse
  dsimp only
  rw [hsec, hman hm]
  rfl

theorem Parse_without_sections_witness :
    findManifestFile asciiOnly packageNoSections = none ∧
    ∃ p : Resolver, New asciiOnly (some packageNoSections) true = some p ∧ p.sections = [] ∧
      Parse asciiOnly ⟨"", 1, 1⟩ p = .ok (some NewDocument) ∧ NewDocument.Content = [] :=
  ⟨rfl, Parse_without_sections asciiOnly ⟨"", 1, 1⟩ packageNoSections true rfl
    (fun f hf => by
      rw [packageNoSections, List.mem_singleton] at hf
      rw [hf]
      decide)⟩

/-! ## Cell spans -/

theorem applyCellSpan_snoc (cell : cellContext) (attrs : List Attr) (attr : Attr) :
    applyCellSpan cell (attrs ++ [attr]) =
      if attr.Local = "colSpan" then
        match Sscanf attr.Value with
        | some n => { applyCellSpan cell attrs with colSpan := n }
        | none => { applyCellSpan cell attrs with colSpan := 1 }
      else if attr.Local = "rowSpan" then
        match Sscanf attr.Value with
        | some n => { applyCellSpan cell attrs with rowSpan := n }
        | none => { applyCellSpan cell attrs with rowSpan := 1 }
      else applyCellSpan cell attrs := by
  unfold applyCellSpan
  rw [List.foldl_append]
  rfl

theorem lastSpan_snoc (name : String) (old : Int) (attrs : List Attr) (attr : Attr) :
    lastSpan name old (attrs ++ [attr]) =
      if attr.Local = name then (Sscanf attr.Value).getD 1 else lastSpan name old attrs := by
  unfold lastSpan
  rw [List.filter_append]
  by_cases h : attr.Local = name
  · rw [if_pos h]
    simp [List.filter_cons, h, List.getLast?_concat]
  · rw [if_neg h]
    simp [List.filter_cons, h]

/-- The cell after the loop over the attributes of a `cellSpan` element, field by field. -/
theorem applyCellSpan_fields (cell : cellContext) (attrs : List Attr) :
    (applyCellSpan cell attrs).text = cell.text ∧
    (applyCellSpan cell attrs).colSpan = lastSpan "colSpan" cell.colSpan attrs ∧
    (applyCellSpan cell attrs).rowSpan = lastSpan "rowSpan" cell.rowSpan attrs := by
  induction attrs using List.reverseRecOn with
  | nil => exact ⟨rfl, rfl, rfl⟩
  | append_singleton attrs attr ih =>
    obtain ⟨i1, i2, i3⟩ := ih
    rw [applyCellSpan_snoc, lastSpan_snoc, lastSpan_snoc]
    by_cases h1 : attr.Local = "colSpan"
    · have h2 : ¬ attr.Local = "rowSpan" := by rw [h1]; decide
      rw [if_pos h1, if_pos h1, if_neg h2]
      cases hs : Sscanf attr.Value with
      | none => exact ⟨i1, rfl, i3⟩
      | some n => exact ⟨i1, rfl, i3⟩
    · rw [if_neg h1, if_neg h1]
      by_cases h2 : attr.Local = "rowSpan"
      · rw [if_pos h2, if_pos h2]
        cases hs : Sscanf attr.Value with
        | none => exact ⟨i1, i2, rfl⟩
        | some n => exact ⟨i1, i2, rfl⟩
      · rw [if_neg h2, if_neg h2]
        exact ⟨i1, i2, i3⟩

theorem step_cell_start (p : Parser) (blank : Cell) (st : ParserState) (attrs : List Attr)
    (hr : st.reading = none) :
    step p blank st (Token.StartElement "tc" attrs) =
      .ok (match st.currentTable with
        | some table =>
          { st with
            currentTable := some { table with cell := some { text := "", colSpan := 1, rowSpan := 1 } } }
        | none => st) := by
  unfold step
  rw [hr]
  dsimp only
  unfold startElement
  rw [if_neg (by decide), if_neg (by decide), if_neg (by decide), if_neg (by decide),
    if_neg (by decide), if_neg (by decide), if_pos rfl, hr]

theorem step_cell_span (p : Parser) (blank : Cell) (st : ParserState) (attrs : List Attr)
    (hr : st.reading = none) :
    step p blank st (Token.StartElement "cellSpan" attrs) =
      .ok (match st.currentTable with
        | some table =>
          match table.cell with
          | some cell =>
            { st with currentTable := some { table with cell := some (applyCellSpan cell attrs) } }
          | none => st
        | none => st) := by
  unfold step
  rw [hr]
  dsimp only
  unfold startElement
  rw [if_neg (by decide), if_neg (by decide), if_neg (by decide), if_neg (by decide),
    if_neg (by decide), if_neg (by decide), if_neg (by decide), if_pos rfl, hr]

/-- C21 (amended). While a table is open, a cell-start event opens a cell with
`colSpan = rowSpan = 1`. A cell-span event on the open cell returns no error and keeps the
text; it leaves `colSpan` as it is when the element has no `colSpan` attribute, and otherwise
sets it from the last `colSpan` attribute: to the number that `Sscanf` with `%d` reads from
the value (the leading integer: the value itself when it is a run of digits that fits an
`int`), or to 1 when `Sscanf` reads none. The same holds for `rowSpan`. With no open cell
the event changes nothing. -/
theorem cell_span_events (p : Parser) (blank : Cell) (st : ParserState) (table : tableState)
    (attrs : List Attr) (hr : st.reading = none) (ht : st.currentTable = some table) :
    step p blank st (Token.StartElement "tc" attrs) =
      .ok { st with
        currentTable := some { table with cell := some { text := "", colSpan := 1, rowSpan := 1 } } } ∧
    (∀ cell, table.cell = some cell →
      ∃ cell2, step p blank st (Token.StartElement "cellSpan" attrs) =
          .ok { st with currentTable := some { table with cell := some cell2 } } ∧
        cell2.text = cell.text ∧
        cell2.colSpan = lastSpan "colSpan" cell.colSpan attrs ∧
        cell2.rowSpan = lastSpan "rowSpan" cell.rowSpan attrs) ∧
    (table.cell = none → step p blank st (Token.StartElement "cellSpan" attrs) = .ok st) ∧
    (∀ (name : String) (old : Int),
      ((∀ a ∈ attrs, a.Local ≠ name) → lastSpan name old attrs = old) ∧
      (∀ (pre : List Attr) (v : String), attrs = pre ++ [⟨name, v⟩] →
        (∀ n, Sscanf v = some n → lastSpan name old attrs = n) ∧
        (Sscanf v = none → lastSpan name old attrs = 1) ∧
        (∀ ds : List Char, v = String.mk ds → ds ≠ [] → (∀ c ∈ ds, c.isDigit = true) →
          digitsValue ds ≤ maxInt → lastSpan name old attrs = digitsValue ds))) := by
  refine ⟨?_, ?_, ?_, ?_⟩
  · rw [step_cell_start p blank st attrs hr, ht]
  · intro cell hc
    obtain ⟨f1, f2, f3⟩ := applyCellSpan_fields cell attrs
    refine ⟨applyCellSpan cell attrs, ?_, f1, f2, f3⟩
    rw [step_cell_span p blank st attrs hr, ht]
    dsimp only
    rw [hc]
  · intro hc
    rw [step_cell_span p blank st attrs hr, ht]
    dsimp only
    rw [hc]
  · intro name old
    constructor
    · intro hno
      unfold lastSpan
      have : (attrs.filter fun a => a.Local = name) = [] := by
        rw [List.filter_eq_nil_iff]
        intro a ha
        simpa using hno a ha
      rw [this]
      rfl
    · intro pre v he
      have hl : lastSpan name old attrs = (Sscanf v).getD 1 := by
        rw [he, lastSpan_snoc, if_pos rfl]
      refine ⟨?_, ?_, ?_⟩
      · intro n hn
        rw [hl, hn]
        rfl
      · intro hn
        rw [hl, hn]
        rfl
      · intro ds hv hne hd hmax
        rw [hl, hv, Sscanf_digits ds hne hd hmax]
        rfl

/-- C21 (counterexample). The cell-span element `colSpan="2abc"` on a cell just opened: the
value is not an integer (it has characters that are no digits), yet the cell gets
`colSpan = 2`, not the default 1. -/
theorem cell_span_events_counterexample :
    "2abc".data.all Char.isDigit = false ∧
    (runTokens parserNoIndex ⟨"", 1, 1⟩ (initialState NewDocument)
        [.StartElement "tbl" [], .StartElement "tr" [], .StartElement "tc" [],
          .StartElement "cellSpan" [⟨"colSpan", "2abc"⟩]]).map getCurrentCell =
      .ok (some ⟨"", 2, 1⟩) :=
  ⟨by decide, rfl⟩

theorem cell_span_events_witness :
    ∃ cell2, step parserNoIndex ⟨"", 1, 1⟩
        ⟨NewDocument, none, [], some ⟨[], [], some ⟨"", 1, 1⟩⟩, none⟩
        (Token.StartElement "cellSpan" [⟨"colSpan", "3"⟩, ⟨"rowSpan", "x"⟩]) =
        .ok ⟨NewDocument, none, [], some ⟨[], [], some cell2⟩, none⟩ ∧
      cell2.text = "" ∧ cell2.colSpan = 3 ∧ cell2.rowSpan = 1 :=
  ((cell_span_events parserNoIndex ⟨"", 1, 1⟩
    ⟨NewDocument, none, [], some ⟨[], [], some ⟨"", 1, 1⟩⟩, none⟩ ⟨[], [], some ⟨"", 1, 1⟩⟩
    [⟨"colSpan", "3"⟩, ⟨"rowSpan", "x"⟩] rfl rfl).2.1 ⟨"", 1, 1⟩ rfl)

/-- C22 (code evaluation). A row whose first cell has `colSpan = -1` and that has a second
cell: pass 1 moves the cursor to column -1 and indexes the occupancy bitmap there, so
`buildTable` panics instead of returning a table or nil; the section with the span element
`colSpan="-1"` makes the whole parse panic. -/
theorem buildTable_negative_colSpan (blank : Cell) :
    buildTable blank [[⟨"a", -1, 1⟩, ⟨"b", 1, 1⟩]] = .error "index out of range" ∧
    parseSectionXML parserNoIndex blank NewDocument tokensNegativeSpan false =
      .error "index out of range" :=
  ⟨rfl, rfl⟩

/-! ## The two passes of `buildTable` compared -/

theorem countRow_width (rowIdx : Nat) (row : List cellContext) :
    ∀ (colIdx : Int) (occ : Occupancy) (m : Int) (occ2 : Occupancy) (m2 : Int) (cols : List Nat),
      countRow rowIdx row colIdx occ m = .ok (occ2, m2, cols) →
      (∀ (j c : Nat) (cell : cellContext), cols[j]? = some c → row[j]? = some cell →
        c < 100 ∧ wrap64 ((c : Int) + cell.colSpan) ≤ m2) ∧
      (m2 = m ∨ ∃ (j c : Nat) (cell : cellContext), cols[j]? = some c ∧ row[j]? = some cell ∧
        m2 = wrap64 ((c : Int) + cell.colSpan)) := by
  induction row with
  | nil =>
    intro colIdx occ m occ2 m2 cols h
    simp only [countRow, Except.ok.injEq, Prod.mk.injEq] at h
    obtain ⟨-, rfl, rfl⟩ := h
    refine ⟨?_, Or.inl rfl⟩
    intro j c cell hj
    simp at hj
  | cons cell0 rest ih =>
    intro colIdx occ m occ2 m2 cols h
    obtain ⟨-, hcase⟩ := countRow_cons_ok _ _ _ _ _ _ _ _ _ h
    rcases hcase with ⟨-, -, rfl, rfl⟩ | ⟨hc, cols1, rfl, hrec⟩
    · refine ⟨?_, Or.inl rfl⟩
      intro j c cell hj
      simp at hj
    · obtain ⟨i1, i2⟩ := ih _ _ _ _ _ _ hrec
      have hle := countRow_maxCols_le _ _ _ _ _ _ _ _ hrec
      constructor
      · intro j c cell hj hcell
        cases j with
        | zero =>
          simp only [List.getElem?_cons_zero, Option.some.injEq] at hj hcell
          subst hj
          subst hcell
          refine ⟨hc, ?_⟩
          split at hle <;> omega
        | succ j =>
          simp only [List.getElem?_cons_succ] at hj hcell
          exact i1 j c cell hj hcell
      · rcases i2 with e | ⟨j, c, cell, a1, a2, a3⟩
        · by_cases hgt : wrap64 ((nextFree (occ.getD rowIdx []) colIdx.toNat : Int) +
              cell0.colSpan) > m
          · rw [if_pos hgt] at e
            exact Or.inr ⟨0, _, cell0, by simp, by simp, e⟩
          · rw [if_neg hgt] at e
            exact Or.inl e
        · exact Or.inr ⟨j + 1, c, cell, by simpa using a1, by simpa using a2, a3⟩

theorem countRows_width (rows : List (List cellContext)) :
    ∀ (rowIdx : Nat) (occ : Occupancy) (m : Int) (occ2 : Occupancy) (m2 : Int)
      (colss : List (List Nat)),
      countRows rowIdx rows occ m = .ok (occ2, m2, colss) →
      (∀ (r j c : Nat) (cell : cellContext), PlacedAt rows colss r j c cell →
        c < 100 ∧ wrap64 ((c : Int) + cell.colSpan) ≤ m2) ∧
      (m2 = m ∨ ∃ (r j c : Nat) (cell : cellContext), PlacedAt rows colss r j c cell ∧
        m2 = wrap64 ((c : Int) + cell.colSpan)) := by
  induction rows with
  | nil =>
    intro rowIdx occ m occ2 m2 colss h
    simp only [countRows, Except.ok.injEq, Prod.mk.injEq] at h
    obtain ⟨-, rfl, rfl⟩ := h
    refine ⟨?_, Or.inl rfl⟩
    rintro r j c cell ⟨row0, cols0, hr, -⟩
    simp at hr
  | cons row rest ih =>
    intro rowIdx occ m occ2 m2 colss h
    simp only [countRows] at h
    split at h
    · cases h
    · rename_i occ1 m1 cols h1
      split at h
      · cases h
      · rename_i occ3 m3 colss3 h2
        simp only [Except.ok.injEq, Prod.mk.injEq] at h
        obtain ⟨-, rfl, rfl⟩ := h
        obtain ⟨a1, a2⟩ := countRow_width _ _ _ _ _ _ _ _ h1
        obtain ⟨b1, b2⟩ := ih _ _ _ _ _ _ h2
        have hle := countRows_maxCols_le _ _ _ _ _ _ _ h2
        constructor
        · rintro r j c cell ⟨row0, cols0, hr, hcs, hcell, hcol⟩
          cases r with
          | zero =>
            simp only [List.getElem?_cons_zero, Option.some.injEq] at hr hcs
            subst hr
            subst hcs
            obtain ⟨x1, x2⟩ := a1 j c cell hcol hcell
            exact ⟨x1, by omega⟩
          | succ r =>
            simp only [List.getElem?_cons_succ] at hr hcs
            exact b1 r j c cell ⟨row0, cols0, hr, hcs, hcell, hcol⟩
        · rcases b2 with e | ⟨r, j, c, cell, ⟨row0, cols0, hr, hcs, hcell, hcol⟩, e⟩
          · rcases a2 with e2 | ⟨j, c, cell, hcol, hcell, e2⟩
            · exact Or.inl (by rw [e, e2])
            · exact Or.inr ⟨0, j, c, cell, ⟨row, cols, by simp, by simp, hcell, hcol⟩,
                by rw [e, e2]⟩
          · exact Or.inr ⟨r + 1, j, c, cell,
              ⟨row0, cols0, by simpa using hr, by simpa using hcs, hcell, hcol⟩, e⟩

/-- C26 (amended). When every cell has a col_span between 1 and the largest int minus 99
and pass 1 (the column-count pass) placed every input cell (no row ran into the 100-column
limit of its bitmap): whenever pass 2 (the placement pass), run with the width that pass 1
discovered, runs to its end, it has placed every input cell at the column at which pass 1
placed it; pass 2 does run to its end when the width is at most 100, the width of the bitmap
rows of pass 1, and it panics in `make` when the width is over `maxAlloc`; every placed cell
ends inside the discovered width, so its owner position lies inside the rows x cols grid;
and the discovered width is 0 (no cell at all) or equals column + col_span of some placed
cell, hence the largest such value. -/
theorem placePass_follows_countPass (blank : Cell) (rows : List (List cellContext)) (w : Int)
    (colss : List (List Nat))
    (hs : ∀ row ∈ rows, ∀ cell ∈ row, 1 ≤ cell.colSpan ∧ cell.colSpan ≤ maxInt - 99)
    (hp : CountPlaces rows w colss) :
    (∀ (occ2 : Occupancy) (cells : List (List Cell)) (colss2 : List (List Nat)),
      placePass blank rows w = .ok (occ2, cells, colss2) → colss2 = colss) ∧
    (w ≤ 100 → ∃ occ2 cells, placePass blank rows w = .ok (occ2, cells, colss)) ∧
    (maxAlloc < w → placePass blank rows w = .error "makeslice: len out of range") ∧
    (∀ (r j c : Nat) (cell : cellContext), PlacedAt rows colss r j c cell →
      r < rows.length ∧ (c : Int) < w ∧ (c : Int) + cell.colSpan ≤ w) ∧
    (w = 0 ∨ ∃ (r j c : Nat) (cell : cellContext), PlacedAt rows colss r j c cell ∧
      w = (c : Int) + cell.colSpan) := by
  obtain ⟨⟨occ, hc⟩, hall⟩ := hp
  unfold countPass at hc
  obtain ⟨w1, w2⟩ := countRows_width _ _ _ _ _ _ _ hc
  have h0 : 0 ≤ w := countRows_maxCols_le _ _ _ _ _ _ _ hc
  have hwrap : ∀ (r j c : Nat) (cell : cellContext), PlacedAt rows colss r j c cell →
      wrap64 ((c : Int) + cell.colSpan) = (c : Int) + cell.colSpan := by
    rintro r j c cell hpl
    obtain ⟨hlt, -⟩ := w1 r j c cell hpl
    obtain ⟨row0, cols0, hr, -, hcell, -⟩ := hpl
    obtain ⟨s1, s2⟩ := hs row0 (List.getElem?_mem hr) cell (List.getElem?_mem hcell)
    exact wrap64_eq_self _ (by unfold minInt; norm_num; omega) (by omega)
  have hrows : ∀ (r j c : Nat) (cell : cellContext), PlacedAt rows colss r j c cell →
      r < rows.length := by
    rintro r j c cell ⟨row0, cols0, hr, -, -, -⟩
    by_contra hge
    rw [List.getElem?_eq_none (by omega)] at hr
    cases hr
  have hw : ((w.toNat : Nat) : Int) = w := Int.toNat_of_nonneg h0
  obtain ⟨occ4, cells4, h4, -⟩ := placeRows_follows_countRows w.toNat rows hs 0 _ 0 occ w colss
    (List.replicate rows.length (List.replicate w.toNat false))
    (NewTable blank rows.length w).Cells hc hall (by omega) (agree_replicate _ _)
  rw [hw] at h4
  refine ⟨?_, ?_, ?_, ?_, ?_⟩
  · intro occ2 cells colss2 hpp
    have h5 := (placePass_ok _ _ _ _ hpp).1
    rw [h4] at h5
    simp only [Except.ok.injEq, Prod.mk.injEq] at h5
    exact h5.2.2.symm
  · intro hle
    rw [placePass_of_le blank rows w h0 (by unfold maxAlloc; omega)]
    exact ⟨occ4, cells4, h4⟩
  · intro hover
    have hpos : 0 < w := by unfold maxAlloc at hover; omega
    rcases w2 with e | ⟨r, j, c, cell, hpl, -⟩
    · omega
    · exact placePass_over blank rows w (by have := hrows r j c cell hpl; omega) hover
  · rintro r j c cell hpl
    have e := hwrap r j c cell hpl
    obtain ⟨-, x2⟩ := w1 r j c cell hpl
    rw [e] at x2
    have hrl := hrows r j c cell hpl
    obtain ⟨row0, cols0, hr, -, hcell, -⟩ := hpl
    obtain ⟨s1, -⟩ := hs row0 (List.getElem?_mem hr) cell (List.getElem?_mem hcell)
    exact ⟨hrl, by omega, x2⟩
  · rcases w2 with e | ⟨r, j, c, cell, hpl, e⟩
    · exact Or.inl e
    · exact Or.inr ⟨r, j, c, cell, hpl, by rw [e, hwrap r j c cell hpl]⟩

/-- C26 (counterexample). The row of a cell with col_span 1 and a cell with col_span 0:
pass 1 places the second cell at column 1 and discovers width 1; pass 2 stops at the width
and does not place the second cell. And the row of one cell with col_span 2^63 - 100: pass
1 places it at column 0 and discovers that width, for which `make` panics before pass 2
places anything. -/
theorem placePass_follows_countPass_counterexample :
    (countPass [[⟨"a", 1, 1⟩, ⟨"b", 0, 1⟩]]).map (fun r => r.2) = .ok (1, [[0, 1]]) ∧
    placedCols ⟨"", 1, 1⟩ [[⟨"a", 1, 1⟩, ⟨"b", 0, 1⟩]] = .ok [[0]] ∧
    (countPass [[⟨"a", 9223372036854775708, 1⟩]]).map (fun r => r.2) =
      .ok (9223372036854775708, [[0]]) ∧
    placedCols ⟨"", 1, 1⟩ [[⟨"a", 9223372036854775708, 1⟩]] =
      .error "makeslice: len out of range" ∧
    buildTable ⟨"", 1, 1⟩ [[⟨"a", 9223372036854775708, 1⟩]] =
      .error "makeslice: len out of range" :=
  ⟨rfl, rfl, rfl, rfl, rfl⟩

theorem placePass_follows_countPass_witness :
    CountPlaces [[⟨"a", 2, 2⟩, ⟨"b", 1, 1⟩], [⟨"c", 1, 1⟩]] 3 [[0, 2], [2]] ∧
    (∃ occ2 cells, placePass ⟨"", 1, 1⟩ [[⟨"a", 2, 2⟩, ⟨"b", 1, 1⟩], [⟨"c", 1, 1⟩]] 3 =
      .ok (occ2, cells, [[0, 2], [2]])) := by
  have hp : CountPlaces [[⟨"a", 2, 2⟩, ⟨"b", 1, 1⟩], [⟨"c", 1, 1⟩]] 3 [[0, 2], [2]] :=
    ⟨⟨_, rfl⟩, rfl⟩
  exact ⟨hp, (placePass_follows_countPass ⟨"", 1, 1⟩
    [[⟨"a", 2, 2⟩, ⟨"b", 1, 1⟩], [⟨"c", 1, 1⟩]] 3 [[0, 2], [2]]
    (by unfold maxInt; decide) hp).2.1 (by decide)⟩

/-! ## The table stack -/

theorem isTableStart_reading (st : ParserState) (tok : Token) (dt : Nat × String)
    (hr : st.reading = some dt) : isTableStart st tok = false ∧ isTableEnd st tok = false := by
  cases tok <;> simp [isTableStart, isTableEnd, hr]

theorem step_table_start (p : Parser) (blank : Cell) (st : ParserState) (attrs : List Attr)
    (hr : st.reading = none) :
    step p blank st (Token.StartElement "tbl" attrs) =
      .ok (match st.currentTable with
        | some table =>
          { st with tableStack := st.tableStack ++ [table],
                    currentTable := some { rows := [], currentRow := [], cell := none } }
        | none => { st with currentTable := some { rows := [], currentRow := [], cell := none } }) := by
  unfold step
  rw [hr]
  dsimp only
  unfold startElement
  rw [if_neg (by decide), if_neg (by decide), if_neg (by decide), if_neg (by decide),
    if_pos rfl, hr]

theorem step_table_end (p : Parser) (blank : Cell) (st : ParserState) (hr : st.reading = none) :
    step p blank st (Token.EndElement "tbl") = endTable blank st := by
  unfold step
  rw [hr]
  dsimp only
  unfold endElement
  rw [if_neg (by decide), if_neg (by decide), if_neg (by decide), if_pos rfl]

/-- One step of the token loop keeps the tables on the stack below the level `base` and
moves the number of tables above it by the table event of the token. -/
theorem step_frame (p : Parser) (blank : Cell) (st st1 : ParserState) (tok : Token)
    (base ext : List tableState) (h : step p blank st tok = .ok st1)
    (hcur : st.currentTable.isSome = true) (hst : st.tableStack = base ++ ext)
    (hne : ¬ (isTableEnd st tok = true ∧ ext.length = 0)) :
    st1.currentTable.isSome = true ∧ ∃ ext1, st1.tableStack = base ++ ext1 ∧
      ext1.length = (if isTableStart st tok = true then ext.length + 1
        else if isTableEnd st tok = true then ext.length - 1 else ext.length) := by
  cases hr : st.reading with
  | some dt =>
    obtain ⟨e1, e2⟩ := isTableStart_reading st tok dt hr
    unfold step at h
    rw [hr] at h
    simp only [Except.ok.injEq] at h
    subst h
    obtain ⟨-, f2, f3⟩ := readElementTextStep_effect st dt.1 dt.2 tok
    rw [e1, e2]
    exact ⟨by rw [f3]; exact hcur, ext, by rw [f2]; exact hst, by simp⟩
  | none =>
    cases tok with
    | StartElement name attrs =>
      have e2 : isTableEnd st (Token.StartElement name attrs) = false := rfl
      unfold step at h
      rw [hr] at h
      simp only [Except.ok.injEq] at h
      subst h
      rcases (startElement_effect p st name attrs).2 with ⟨hn, g1, g2⟩ | ⟨hn, g1, g2⟩
      · have e1 : isTableStart st (Token.StartElement name attrs) = true := by
          simp [isTableStart, hn, hr]
        rw [e1, if_pos rfl]
        rcases g2 with ⟨hc, -⟩ | ⟨table, hc, g3⟩
        · rw [hc] at hcur
          cases hcur
        · exact ⟨g1, ext ++ [table], by rw [g3, hst, List.append_assoc], by simp⟩
      · have e1 : isTableStart st (Token.StartElement name attrs) = false := by
          simp [isTableStart, hn]
        rw [e1, e2]
        exact ⟨by rw [g2]; exact hcur, ext, by rw [g1]; exact hst, by simp⟩
    | EndElement name =>
      have e1 : isTableStart st (Token.EndElement name) = false := rfl
      unfold step at h
      rw [hr] at h
      dsimp only at h
      rcases endElement_effect blank st st1 name h with ⟨hn, ht⟩ | ⟨hn, g1, g2, -⟩
      · have e2 : isTableEnd st (Token.EndElement name) = true := by
          simp [isTableEnd, hn, hr]
        rw [e1, e2]
        have hext : ext ≠ [] := by
          intro he
          exact hne ⟨e2, by rw [he]; rfl⟩
        rcases endTable_effect blank st st1 ht with ⟨parent, -, -, g3, g4⟩ | ⟨g3, -⟩
        · refine ⟨g4, ext.dropLast, ?_, by simp⟩
          rw [g3, hst, List.dropLast_append_of_ne_nil _ hext]
        · exfalso
          rw [hst, List.getLast?_eq_none_iff] at g3
          exact hext (List.append_eq_nil.mp g3).2
      · have e2 : isTableEnd st (Token.EndElement name) = false := by
          simp [isTableEnd, hn]
        rw [e1, e2]
        exact ⟨by rw [g2]; exact hcur, ext, by rw [g1]; exact hst, by simp⟩
    | CharData data =>
      unfold step at h
      rw [hr] at h
      simp only [Except.ok.injEq] at h
      subst h
      exact ⟨hcur, ext, hst, rfl⟩
    | Other =>
      unfold step at h
      rw [hr] at h
      simp only [Except.ok.injEq] at h
      subst h
      exact ⟨hcur, ext, hst, rfl⟩

/-- One step of the token loop moves the number of open tables by the table event of the
token. -/
theorem step_openTables (p : Parser) (blank : Cell) (st st1 : ParserState) (tok : Token)
    (h : step p blank st tok = .ok st1) (hw : st.currentTable = none → st.tableStack = []) :
    (st1.currentTable = none → st1.tableStack = []) ∧
    openTables st1 = (if isTableStart st tok = true then openTables st + 1
      else if isTableEnd st tok = true then openTables st - 1 else openTables st) := by
  refine ⟨(step_stack p blank st st1 tok h hw).1, ?_⟩
  unfold openTables
  cases hr : st.reading with
  | some dt =>
    obtain ⟨e1, e2⟩ := isTableStart_reading st tok dt hr
    unfold step at h
    rw [hr] at h
    simp only [Except.ok.injEq] at h
    subst h
    obtain ⟨-, f2, f3⟩ := readElementTextStep_effect st dt.1 dt.2 tok
    rw [e1, e2, f2, f3]
    simp
  | none =>
    cases tok with
    | StartElement name attrs =>
      have e2 : isTableEnd st (Token.StartElement name attrs) = false := rfl
      unfold step at h
      rw [hr] at h
      simp only [Except.ok.injEq] at h
      subst h
      rcases (startElement_effect p st name attrs).2 with ⟨hn, g1, g2⟩ | ⟨hn, g1, g2⟩
      · have e1 : isTableStart st (Token.StartElement name attrs) = true := by
          simp [isTableStart, hn, hr]
        rw [e1, if_pos rfl, g1]
        rcases g2 with ⟨hc, g3⟩ | ⟨table, hc, g3⟩
        · rw [g3, hc]
          simp
        · rw [g3, hc]
          simp
      · have e1 : isTableStart st (Token.StartElement name attrs) = false := by
          simp [isTableStart, hn]
        rw [e1, e2, g1, g2]
        simp
    | EndElement name =>
      have e1 : isTableStart st (Token.EndElement name) = false := rfl
      unfold step at h
      rw [hr] at h
      dsimp only at h
      rcases endElement_effect blank st st1 name h with ⟨hn, ht⟩ | ⟨hn, g1, g2, -⟩
      · have e2 : isTableEnd st (Token.EndElement name) = true := by
          simp [isTableEnd, hn, hr]
        rw [e1, e2]
        rcases endTable_effect blank st st1 ht with ⟨parent, g0, -, g3, g4⟩ | ⟨g0, g3, g4, -⟩
        · have hne : st.tableStack ≠ [] := by
            intro he
            rw [he] at g0
            cases g0
          have hcur : st.currentTable.isSome = true := by
            cases hc : st.currentTable with
            | none => exact absurd (hw hc) hne
            | some t => rfl
          have hlen : 0 < st.tableStack.length := List.length_pos.mpr hne
          rw [g3, g4, hcur, List.length_dropLast]
          simp
          omega
        · rw [List.getLast?_eq_none_iff] at g0
          rw [g3, g4, g0]
          cases st.currentTable <;> simp
      · have e2 : isTableEnd st (Token.EndElement name) = false := by
          simp [isTableEnd, hn]
        rw [e1, e2, g1, g2]
        simp
    | CharData data =>
      unfold step at h
      rw [hr] at h
      simp only [Except.ok.injEq] at h
      subst h
      rfl
    | Other =>
      unfold step at h
      rw [hr] at h
      simp only [Except.ok.injEq] at h
      subst h
      rfl

/-- A well-nested run returns, and the number of open tables follows the table events. -/
theorem tableDepth_run (p : Parser) (blank : Cell) (tokens : List Token) :
    ∀ (d : Nat) (st : ParserState) (d2 : Nat),
      (st.currentTable = none → st.tableStack = []) → openTables st = d →
      tableDepth p blank d st tokens = some d2 →
      ∃ st2, runTokens p blank st tokens = .ok st2 ∧
        (st2.currentTable = none → st2.tableStack = []) ∧ openTables st2 = d2 := by
  induction tokens with
  | nil =>
    intro d st d2 hw ho h
    simp only [tableDepth, Option.some.injEq] at h
    exact ⟨st, rfl, hw, by rw [ho, h]⟩
  | cons tok rest ih =>
    intro d st d2 hw ho h
    unfold tableDepth at h
    by_cases hbad : isTableEnd st tok = true ∧ d = 0
    · rw [if_pos hbad] at h
      cases h
    · rw [if_neg hbad] at h
      cases hs : step p blank st tok with
      | error e =>
        rw [hs] at h
        cases h
      | ok st1 =>
        rw [hs] at h
        dsimp only at h
        obtain ⟨hw1, ho1⟩ := step_openTables p blank st st1 tok hs hw
        rw [ho] at ho1
        obtain ⟨st2, r1, r2, r3⟩ := ih _ st1 d2 hw1 ho1 h
        refine ⟨st2, ?_, r2, r3⟩
        unfold runTokens
        rw [hs]
        exact r1

/-- A well-nested run is well nested up to every point, and returns up to that point. -/
theorem tableDepth_append (p : Parser) (blank : Cell) (pre post : List Token) :
    ∀ (d : Nat) (st : ParserState) (d2 : Nat),
      tableDepth p blank d st (pre ++ post) = some d2 →
      ∃ d1 st1, tableDepth p blank d st pre = some d1 ∧
        runTokens p blank st pre = .ok st1 ∧ tableDepth p blank d1 st1 post = some d2 := by
  induction pre with
  | nil =>
    intro d st d2 h
    exact ⟨d, st, rfl, rfl, h⟩
  | cons tok rest ih =>
    intro d st d2 h
    rw [List.cons_append] at h
    unfold tableDepth at h
    by_cases hbad : isTableEnd st tok = true ∧ d = 0
    · rw [if_pos hbad] at h
      cases h
    · rw [if_neg hbad] at h
      cases hs : step p blank st tok with
      | error e =>
        rw [hs] at h
        cases h
      | ok st1 =>
        rw [hs] at h
        dsimp only at h
        obtain ⟨d1, st2, r1, r2, r3⟩ := ih _ st1 d2 h
        refine ⟨d1, st2, ?_, ?_, r3⟩
        · unfold tableDepth
          rw [if_neg hbad, hs]
          exact r1
        · unfold runTokens
          rw [hs]
          exact r2

/-- A run that is well nested above the tables `base` of the stack returns and leaves them
on the stack. -/
theorem tableDepth_frame (p : Parser) (blank : Cell) (base : List tableState)
    (tokens : List Token) :
    ∀ (d : Nat) (st : ParserState) (d2 : Nat) (ext : List tableState),
      st.currentTable.isSome = true → st.tableStack = base ++ ext → ext.length = d →
      tableDepth p blank d st tokens = some d2 →
      ∃ st2, runTokens p blank st tokens = .ok st2 ∧ st2.currentTable.isSome = true ∧
        ∃ ext2, st2.tableStack = base ++ ext2 ∧ ext2.length = d2 := by
  induction tokens with
  | nil =>
    intro d st d2 ext hcur hst hl h
    simp only [tableDepth, Option.some.injEq] at h
    exact ⟨st, rfl, hcur, ext, hst, by rw [hl, h]⟩
  | cons tok rest ih =>
    intro d st d2 ext hcur hst hl h
    unfold tableDepth at h
    by_cases hbad : isTableEnd st tok = true ∧ d = 0
    · rw [if_pos hbad] at h
      cases h
    · rw [if_neg hbad] at h
      cases hs : step p blank st tok with
      | error e =>
        rw [hs] at h
        cases h
      | ok st1 =>
        rw [hs] at h
        dsimp only at h
        obtain ⟨hcur1, ext1, hst1, hl1⟩ := step_frame p blank st st1 tok base ext hs hcur hst
          (by rw [hl]; exact hbad)
        rw [hl] at hl1
        obtain ⟨st2, r1, r2, r3⟩ := ih _ st1 d2 ext1 hcur1 hst1 hl1 h
        refine ⟨st2, ?_, r2, r3⟩
        unfold runTokens
        rw [hs]
        exact r1

/-- The `tbl` end event that closes a nested table makes the table on top of the stack
current again, with at most text appended to its open cell. -/
theorem endTable_restores (blank : Cell) (st : ParserState) (stack : List tableState)
    (T : tableState) (hcur : st.currentTable.isSome = true) (hst : st.tableStack = stack ++ [T]) :
    ∃ T1, endTable blank st = .ok { st with tableStack := stack, currentTable := some T1 } ∧
      T1.rows = T.rows ∧ T1.currentRow = T.currentRow ∧
      (T1.cell = T.cell ∨ ∃ cell s, T.cell = some cell ∧
        T1.cell = some { cell with text := cell.text ++ s }) := by
  have hlast : st.tableStack.getLast? = some T := by
    rw [hst, List.getLast?_append_of_ne_nil _ (List.cons_ne_nil T [])]
    rfl
  have hdrop : st.tableStack.dropLast = stack := by
    rw [hst, List.dropLast_append_of_ne_nil _ (List.cons_ne_nil T [])]
    simp
  cases hc : st.currentTable with
  | none =>
    rw [hc] at hcur
    cases hcur
  | some table =>
    unfold endTable
    rw [hc]
    dsimp only
    by_cases hl : table.rows.length > 0
    · rw [if_pos hl, hlast]
      dsimp only
      rw [hdrop]
      cases hcell : T.cell with
      | none =>
        exact ⟨T, rfl, rfl, rfl, Or.inl hcell⟩
      | some cell =>
        refine ⟨{ T with cell := some { cell with
          text := (if cell.text.length > 0 then cell.text ++ "\n" else cell.text) ++
            convertTableToText table.rows } }, rfl, rfl, rfl, Or.inr ?_⟩
        by_cases hlen : cell.text.length > 0
        · refine ⟨cell, "\n" ++ convertTableToText table.rows, rfl, ?_⟩
          rw [if_pos hlen, String.append_assoc]
        · refine ⟨cell, convertTableToText table.rows, rfl, ?_⟩
          rw [if_neg hlen]
    · rw [if_neg hl, hlast]
      dsimp only
      rw [hdrop]
      exact ⟨T, rfl, rfl, rfl, Or.inl rfl⟩

/-- C27. Table-stack invariant of `parseSectionXML`. For a sequence of tokens whose table
events are well nested (and that is handled without a panic): after every token the loop
has returned and the number of open tables (start events minus end events so far) is
`len(tableStack)` plus one if the current table is not nil. When a table `T` is current at a
table-start event and the tokens after it up to the matching table-end event are well
nested, that table-end event makes current a table with the finished rows and the row in
progress of `T` and with the open cell of `T`, to whose text at most a suffix was appended,
and the stack is the one before the start event. At the end of a well-nested sequence with
as many end events as start events the stack is empty and the current table is nil. -/
theorem table_stack_invariant (p : Parser) (blank : Cell) :
    (∀ (doc : Document) (pre post : List Token) (d : Nat),
      tableDepth p blank 0 (initialState doc) (pre ++ post) = some d →
      ∃ d1 st1, tableDepth p blank 0 (initialState doc) pre = some d1 ∧
        runTokens p blank (initialState doc) pre = .ok st1 ∧ openTables st1 = d1) ∧
    (∀ (st : ParserState) (T : tableState) (attrs : List Attr) (inner : List Token),
      st.reading = none → st.currentTable = some T →
      tableDepth p blank 0
        { st with tableStack := st.tableStack ++ [T],
                  currentTable := some { rows := [], currentRow := [], cell := none } }
        inner = some 0 →
      ∃ st2, runTokens p blank st (Token.StartElement "tbl" attrs :: inner) = .ok st2 ∧
        (st2.reading = none →
          ∃ T1, step p blank st2 (Token.EndElement "tbl") =
              .ok { st2 with tableStack := st.tableStack, currentTable := some T1 } ∧
            T1.rows = T.rows ∧ T1.currentRow = T.currentRow ∧
            (T1.cell = T.cell ∨ ∃ cell s, T.cell = some cell ∧
              T1.cell = some { cell with text := cell.text ++ s }))) ∧
    (∀ (doc : Document) (tokens : List Token),
      tableDepth p blank 0 (initialState doc) tokens = some 0 →
      ∃ st2, runTokens p blank (initialState doc) tokens = .ok st2 ∧
        st2.tableStack = [] ∧ st2.currentTable = none ∧
        (endOfTokens st2).tableStack = [] ∧ (endOfTokens st2).currentTable = none) := by
  refine ⟨?_, ?_, ?_⟩
  · intro doc pre post d h
    obtain ⟨d1, st1, a1, a2, -⟩ := tableDepth_append p blank pre post 0 (initialState doc) d h
    obtain ⟨st2, b1, -, b3⟩ := tableDepth_run p blank pre 0 (initialState doc) d1
      (fun _ => rfl) rfl a1
    rw [a2] at b1
    simp only [Except.ok.injEq] at b1
    subst b1
    exact ⟨d1, st1, a1, a2, b3⟩
  · intro st T attrs inner hr hT hd
    obtain ⟨st2, r1, r2, ext2, r3, r4⟩ := tableDepth_frame p blank (st.tableStack ++ [T]) inner 0
      { st with tableStack := st.tableStack ++ [T],
                currentTable := some { rows := [], currentRow := [], cell := none } }
      0 [] rfl (List.append_nil _).symm rfl hd
    have hext : ext2 = [] := List.length_eq_zero.mp r4
    rw [hext, List.append_nil] at r3
    refine ⟨st2, ?_, ?_⟩
    · unfold runTokens
      rw [step_table_start p blank st attrs hr, hT]
      exact r1
    · intro hr2
      rw [step_table_end p blank st2 hr2]
      exact endTable_restores blank st2 st.tableStack T r2 r3
  · intro doc tokens h
    obtain ⟨st2, b1, b2, b3⟩ := tableDepth_run p blank tokens 0 (initialState doc) 0
      (fun _ => rfl) rfl h
    unfold openTables at b3
    have hstack : st2.tableStack = [] := List.length_eq_zero.mp (by omega)
    have hcur : st2.currentTable = none := by
      cases hc : st2.currentTable with
      | none => rfl
      | some t =>
        rw [hc] at b3
        simp at b3
    refine ⟨st2, b1, hstack, hcur, ?_, ?_⟩
    · unfold endOfTokens
      split
      · rw [writeText_tableStack]
        exact hstack
      · exact hstack
    · have hs := Option.isSome_iff_ne_none.not_left.mpr hcur
      unfold endOfTokens
      split
      · have := writeText_currentTable_isSome
          { st2 with reading := none } (by assumption : String)
        cases hc : (writeText { st2 with reading := none } (by assumption : String)).currentTable with
        | none => rfl
        | some t =>
          rw [hc] at this
          have h2 : st2.currentTable.isSome = true := this.symm
          rw [hcur] at h2
          cases h2
      · exact hcur

theorem table_stack_invariant_witness :
    tableDepth parserNoIndex ⟨"", 1, 1⟩ 0 (initialState NewDocument) tokensNestedTable = some 0 ∧
    ∃ st2, runTokens parserNoIndex ⟨"", 1, 1⟩ (initialState NewDocument) tokensNestedTable =
        .ok st2 ∧
      st2.tableStack = [] ∧ st2.currentTable = none ∧
      (endOfTokens st2).tableStack = [] ∧ (endOfTokens st2).currentTable = none :=
  ⟨rfl, (table_stack_invariant parserNoIndex ⟨"", 1, 1⟩).2.2 NewDocument tokensNestedTable rfl⟩

/-! ## The compact prompt -/

theorem intercalate_go_append (x s : String) (l : List String) :
    ∀ acc : String, String.intercalate.go (acc ++ x) s l = acc ++ String.intercalate.go x s l := by
  induction l generalizing x with
  | nil =>
    intro acc
    rfl
  | cons a rest ih =>
    intro acc
    show String.intercalate.go (acc ++ x ++ s ++ a) s rest =
      acc ++ String.intercalate.go (x ++ s ++ a) s rest
    rw [String.append_assoc acc x s, String.append_assoc acc (x ++ s) a]
    exact ih (x ++ s ++ a) acc

theorem writeCells_pos (cells : List Cell) :
    ∀ (sb : String) (j : Nat), 0 < j →
      writeCells sb j cells =
        String.intercalate.go sb " | " (cells.map fun cell => ReplaceAll cell.Text newline space) := by
  induction cells with
  | nil =>
    intro sb j _
    rfl
  | cons cell rest ih =>
    intro sb j hj
    unfold writeCells
    rw [if_pos hj, ih _ (j + 1) (Nat.succ_pos j)]
    rfl

/-- The inner loop of `writeTablePrompt` appends the line of the row. -/
theorem writeCells_zero (sb : String) (row : List Cell) :
    writeCells sb 0 row = sb ++ rowLine row := by
  cases row with
  | nil =>
    show sb = sb ++ ""
    rw [String.append_empty]
  | cons cell rest =>
    unfold writeCells
    rw [if_neg (Nat.lt_irrefl 0), writeCells_pos rest _ 1 Nat.one_pos, intercalate_go_append]
    rfl

theorem writeTableRows_pos (h : Bool) (rows : List (List Cell)) :
    ∀ (sb : String) (i : Nat), 0 < i → writeTableRows h sb i rows = sb ++ rowsLines rows := by
  induction rows with
  | nil =>
    intro sb i _
    show sb = sb ++ ""
    rw [String.append_empty]
  | cons row rest ih =>
    intro sb i hi
    unfold writeTableRows
    rw [if_neg (fun hc => absurd hc.1 (Nat.pos_iff_ne_zero.mp hi)), ih _ (i + 1) (Nat.succ_pos i),
      writeCells_zero]
    show sb ++ rowLine row ++ "\n" ++ rowsLines rest = sb ++ (rowLine row ++ "\n" ++ rowsLines rest)
    rw [String.append_assoc, String.append_assoc, String.append_assoc]

/-- The function `writeTablePrompt` appends the table mark and the lines of the rows. -/
theorem writeTablePrompt_eq (sb : String) (t : TableBlock) :
    writeTablePrompt sb t = sb ++ ("[표]\n" ++ tableLines t.HasHeader t.Cells) := by
  unfold writeTablePrompt
  cases t.Cells with
  | nil =>
    show sb ++ "[표]\n" = sb ++ ("[표]\n" ++ "")
    rw [String.append_empty]
  | cons first rest =>
    unfold writeTableRows
    rw [writeTableRows_pos _ rest _ 1 Nat.one_pos, writeCells_zero]
    by_cases hh : t.HasHeader = true
    · rw [if_pos ⟨rfl, hh⟩]
      show sb ++ "[표]\n" ++ "헤더: " ++ rowLine first ++ "\n" ++ rowsLines rest =
        sb ++ ("[표]\n" ++ ((if t.HasHeader = true then "헤더: " else "") ++ rowLine first ++ "\n" ++
          rowsLines rest))
      rw [if_pos hh]
      simp only [String.append_assoc]
    · rw [if_neg (fun hc => hh hc.2)]
      show sb ++ "[표]\n" ++ rowLine first ++ "\n" ++ rowsLines rest =
        sb ++ ("[표]\n" ++ ((if t.HasHeader = true then "헤더: " else "") ++ rowLine first ++ "\n" ++
          rowsLines rest))
      rw [if_neg hh, String.empty_append]
      simp only [String.append_assoc]

theorem writeImagePrompt_eq (sb : String) (img : ImageBlock) :
    writeImagePrompt sb img = sb ++ (imageLine img ++ "\n") := by
  unfold writeImagePrompt imageLine
  simp only [String.append_assoc]
  rfl

theorem writeParagraphPrompt_eq (p : Paragraph) :
    ∃ X : String, ∀ sb : String, writeParagraphPrompt sb p = sb ++ X := by
  unfold writeParagraphPrompt
  by_cases h1 : p.Style.HeadingLevel > 0
  · by_cases h2 : p.Style.IsQuote = true
    · refine ⟨"[제목 " ++ toString p.Style.HeadingLevel ++ "] " ++ "[인용] " ++ p.Text ++ "\n", ?_⟩
      intro sb
      simp only [if_pos h1, if_pos h2, String.append_assoc]
    · refine ⟨"[제목 " ++ toString p.Style.HeadingLevel ++ "] " ++ p.Text ++ "\n", ?_⟩
      intro sb
      simp only [if_pos h1, if_neg h2, String.append_assoc]
  · by_cases h2 : p.Style.IsQuote = true
    · refine ⟨"[인용] " ++ p.Text ++ "\n", ?_⟩
      intro sb
      simp only [if_neg h1, if_pos h2, String.append_assoc]
    · refine ⟨p.Text ++ "\n", ?_⟩
      intro sb
      simp only [if_neg h1, if_neg h2, String.append_assoc]

theorem listItems_append_only (items : List ListItem) :
    ∃ X : String, ∀ sb : String,
      items.foldl (fun sb item => sb ++ ("- " ++ item.Text ++ "\n")) sb = sb ++ X := by
  induction items with
  | nil => exact ⟨"", fun sb => (String.append_empty sb).symm⟩
  | cons item rest ih =>
    obtain ⟨X, hX⟩ := ih
    refine ⟨"- " ++ item.Text ++ "\n" ++ X, ?_⟩
    intro sb
    rw [List.foldl_cons, hX, String.append_assoc]

theorem writeListPrompt_eq (l : ListBlock) :
    ∃ X : String, ∀ sb : String, writeListPrompt sb l = sb ++ X := by
  obtain ⟨X, hX⟩ := listItems_append_only l.Items
  refine ⟨"[" ++ (if l.Ordered = true then "순서있는" else "순서없는") ++ " 목록]\n" ++ X, ?_⟩
  intro sb
  unfold writeListPrompt
  dsimp only
  rw [hX, String.append_assoc]

/-- A block is written behind the builder, after a newline when it is not the first. -/
theorem writeBlock_eq (i : Nat) (block : Block) :
    ∃ X : String, ∀ sb : String, writeBlock sb i block = sb ++ X := by
  have key : ∀ (f : String → String), (∃ Y : String, ∀ sb : String, f sb = sb ++ Y) →
      ∃ X : String, ∀ sb : String, f (if i > 0 then sb ++ "\n" else sb) = sb ++ X := by
    rintro f ⟨Y, hY⟩
    by_cases hi : i > 0
    · refine ⟨"\n" ++ Y, fun sb => ?_⟩
      rw [if_pos hi, hY, String.append_assoc]
    · refine ⟨Y, fun sb => ?_⟩
      rw [if_neg hi, hY]
  cases block with
  | Paragraph p => exact key (fun sb => writeParagraphPrompt sb p) (writeParagraphPrompt_eq p)
  | Table t => exact key (fun sb => writeTablePrompt sb t) ⟨_, fun sb => writeTablePrompt_eq sb t⟩
  | Image img => exact key (fun sb => writeImagePrompt sb img) ⟨_, fun sb => writeImagePrompt_eq sb img⟩
  | List l => exact key (fun sb => writeListPrompt sb l) (writeListPrompt_eq l)

theorem writeBlocks_eq (blocks : List Block) :
    ∀ i : Nat, ∃ X : String, ∀ sb : String, writeBlocks sb i blocks = sb ++ X := by
  induction blocks with
  | nil => exact fun _ => ⟨"", fun sb => (String.append_empty sb).symm⟩
  | cons block rest ih =>
    intro i
    obtain ⟨X, hX⟩ := writeBlock_eq i block
    obtain ⟨Y, hY⟩ := ih (i + 1)
    refine ⟨X ++ Y, fun sb => ?_⟩
    unfold writeBlocks
    rw [hX, hY, String.append_assoc]

theorem writeBlocks_append (pre rest : List Block) :
    ∀ (sb : String) (i : Nat),
      writeBlocks sb i (pre ++ rest) = writeBlocks (writeBlocks sb i pre) (i + pre.length) rest := by
  induction pre with
  | nil =>
    intro sb i
    rfl
  | cons block pre ih =>
    intro sb i
    show writeBlocks (writeBlock sb i block) (i + 1) (pre ++ rest) = _
    rw [ih]
    show _ = writeBlocks (writeBlocks (writeBlock sb i block) (i + 1) pre) (i + (pre.length + 1)) rest
    rw [Nat.add_assoc, Nat.add_comm 1 pre.length]

theorem endsWithNewline_append (x y : String) (hy : EndsWithNewline y) :
    EndsWithNewline (x ++ y) := by
  unfold EndsWithNewline at hy ⊢
  have hne : y.data ≠ [] := by
    intro he
    rw [he] at hy
    cases hy
  rw [String.data_append, List.getLast?_append_of_ne_nil _ hne]
  exact hy

theorem promptHeader_endsWithNewline (md : Metadata) : EndsWithNewline (promptHeader md) := by
  unfold promptHeader
  dsimp only
  by_cases h : md.Title ≠ "" ∨ md.Author ≠ ""
  · rw [if_pos h]
    exact endsWithNewline_append _ _ (by unfold EndsWithNewline; decide)
  · rw [if_neg h, if_neg (fun hc => h (Or.inr hc)), if_neg (fun hc => h (Or.inl hc))]
    unfold EndsWithNewline
    decide

/-- The place of a block in the compact prompt: the block is written behind a text that
ends with a newline, and the rest of the prompt follows it. -/
theorem buildCompactPrompt_split (md : Metadata) (pre : List Block) (block : Block)
    (post : List Block) :
    ∃ A B : String, EndsWithNewline A ∧
      BuildCompactPrompt ⟨md, pre ++ block :: post⟩ =
        (match block with
          | .Paragraph p => writeParagraphPrompt A p
          | .Table t => writeTablePrompt A t
          | .Image img => writeImagePrompt A img
          | .List l => writeListPrompt A l) ++ B := by
  obtain ⟨B, hB⟩ := writeBlocks_eq post (0 + pre.length + 1)
  unfold BuildCompactPrompt
  dsimp only
  rw [writeBlocks_append]
  show ∃ A B1 : String, EndsWithNewline A ∧
    writeBlocks (writeBlock (writeBlocks (promptHeader md) 0 pre) (0 + pre.length) block)
      (0 + pre.length + 1) post = _ ++ B1
  rw [hB]
  by_cases hpre : 0 + pre.length > 0
  · refine ⟨writeBlocks (promptHeader md) 0 pre ++ "\n", B, ?_, ?_⟩
    · exact endsWithNewline_append _ _ (by unfold EndsWithNewline; decide)
    · unfold writeBlock
      dsimp only
      rw [if_pos hpre]
  · have hnil : pre = [] := by
      cases pre with
      | nil => rfl
      | cons b r => exact absurd (by simp) hpre
    subst hnil
    refine ⟨promptHeader md, B, promptHeader_endsWithNewline md, ?_⟩
    unfold writeBlock
    dsimp only
    rw [if_neg hpre]
    rfl

theorem not_mem_data_append (c : Char) (x y : String) (hx : c ∉ x.data) (hy : c ∉ y.data) :
    c ∉ (x ++ y).data := by
  rw [String.data_append, List.mem_append]
  exact fun h => h.elim hx hy

theorem replaceAll_oneLine (s : String) : OneLine (ReplaceAll s newline space) := by
  unfold OneLine ReplaceAll
  intro h
  rw [List.mem_map] at h
  obtain ⟨c, -, hc⟩ := h
  by_cases e : c = newline
  · rw [if_pos e] at hc
    exact absurd hc (by decide)
  · rw [if_neg e] at hc
    exact e hc

theorem intercalate_go_oneLine (l : List String) (hl : ∀ x ∈ l, OneLine x) :
    ∀ acc : String, OneLine acc → OneLine (String.intercalate.go acc " | " l) := by
  induction l with
  | nil =>
    intro acc h
    exact h
  | cons a rest ih =>
    intro acc h
    show OneLine (String.intercalate.go (acc ++ " | " ++ a) " | " rest)
    refine ih (fun x hx => hl x (List.mem_cons_of_mem a hx)) _ ?_
    exact not_mem_data_append _ _ _ (not_mem_data_append _ _ _ h (by decide))
      (hl a (List.mem_cons_self a rest))

/-- The line of a grid row has no newline. -/
theorem rowLine_oneLine (row : List Cell) : OneLine (rowLine row) := by
  unfold rowLine
  cases row with
  | nil =>
    show OneLine ""
    unfold OneLine
    decide
  | cons cell rest =>
    show OneLine (String.intercalate.go (ReplaceAll cell.Text newline space) " | "
      (rest.map fun cell => ReplaceAll cell.Text newline space))
    refine intercalate_go_oneLine _ ?_ _ (replaceAll_oneLine _)
    intro x hx
    rw [List.mem_map] at hx
    obtain ⟨c, -, rfl⟩ := hx
    exact replaceAll_oneLine _

theorem count_newline_line (s : String) (h : OneLine s) :
    (s ++ "\n").data.count newline = 1 := by
  rw [String.data_append, List.count_append, List.count_eq_zero.mpr h]
  rfl

theorem rowsLines_count (rows : List (List Cell)) :
    (rowsLines rows).data.count newline = rows.length := by
  induction rows with
  | nil => rfl
  | cons row rest ih =>
    show (rowLine row ++ "\n" ++ rowsLines rest).data.count newline = rest.length + 1
    rw [String.data_append, List.count_append, ih, count_newline_line _ (rowLine_oneLine row)]
    omega

theorem tableLines_count (h : Bool) (rows : List (List Cell)) :
    (tableLines h rows).data.count newline = rows.length := by
  cases rows with
  | nil => rfl
  | cons first rest =>
    show ((if h = true then "헤더: " else "") ++ rowLine first ++ "\n" ++ rowsLines rest).data.count
      newline = rest.length + 1
    have h1 : OneLine ((if h = true then "헤더: " else "") ++ rowLine first) := by
      refine not_mem_data_append _ _ _ ?_ (rowLine_oneLine first)
      cases h <;> decide
    rw [String.data_append, List.count_append, rowsLines_count, count_newline_line _ h1]
    omega

/-- C23. For a document that contains a Table block, the compact prompt holds, at the start
of a line, the line `[표]` followed by the lines of the grid rows and nothing else of the
table: exactly one line per row (as many newlines as rows, none inside a line), each line
the cell texts of the row in column order, every newline in a text replaced by a space,
joined by ` | `; the line of the first row, and of no other row, starts with `헤더: ` exactly
when the header flag is set. -/
theorem compact_prompt_table (doc : Document) (t : TableBlock)
    (h : Block.Table t ∈ doc.Content) :
    (∃ A B : String, EndsWithNewline A ∧
      BuildCompactPrompt doc = A ++ ("[표]\n" ++ tableLines t.HasHeader t.Cells) ++ B) ∧
    (tableLines t.HasHeader t.Cells).data.count newline = t.Cells.length ∧
    (∀ row ∈ t.Cells, OneLine (rowLine row)) ∧
    (∀ (first : List Cell) (rest : List (List Cell)), t.Cells = first :: rest →
      tableLines t.HasHeader t.Cells =
        (if t.HasHeader = true then "헤더: " else "") ++
          " | ".intercalate (first.map fun cell => ReplaceAll cell.Text newline space) ++ "\n" ++
          rowsLines rest) ∧
    (∀ (row : List Cell) (rest : List (List Cell)),
      rowsLines (row :: rest) =
        " | ".intercalate (row.map fun cell => ReplaceAll cell.Text newline space) ++ "\n" ++
          rowsLines rest) := by
  refine ⟨?_, tableLines_count _ _, fun row _ => rowLine_oneLine row, ?_, fun _ _ => rfl⟩
  · obtain ⟨pre, post, hc⟩ := List.append_of_mem h
    obtain ⟨A, B, hA, hAB⟩ := buildCompactPrompt_split doc.Metadata pre (Block.Table t) post
    refine ⟨A, B, hA, ?_⟩
    have hd : doc = ⟨doc.Metadata, pre ++ Block.Table t :: post⟩ := by
      rw [← hc]
    rw [hd, hAB]
    dsimp only
    rw [writeTablePrompt_eq]
  · intro first rest hc
    rw [hc]
    rfl

theorem compact_prompt_table_witness :
    Block.Table tableA1B2 ∈ (⟨⟨"", ""⟩, [Block.Table tableA1B2]⟩ : Document).Content ∧
    BuildCompactPrompt ⟨⟨"", ""⟩, [Block.Table tableA1B2]⟩ =
      "다음 문서를 Markdown으로 변환:\n\n[표]\n헤더: A1 | B1\nA2 | B2\n" ∧
    ∃ A B : String, EndsWithNewline A ∧
      BuildCompactPrompt ⟨⟨"", ""⟩, [Block.Table tableA1B2]⟩ =
        A ++ ("[표]\n" ++ tableLines tableA1B2.HasHeader tableA1B2.Cells) ++ B :=
  ⟨List.mem_singleton.mpr rfl, by decide,
    (compact_prompt_table ⟨⟨"", ""⟩, [Block.Table tableA1B2]⟩ tableA1B2
      (List.mem_singleton.mpr rfl)).1⟩

/-- C24. For a document that contains an Image block, the compact prompt holds, at the start
of a line and followed by a newline, the text `[이미지: X, 경로: P]` where `P` is the path of
the image and `X` its alt text, or its id when the alt text is empty. -/
theorem compact_prompt_image (doc : Document) (img : ImageBlock)
    (h : Block.Image img ∈ doc.Content) :
    (∃ A B : String, EndsWithNewline A ∧
      BuildCompactPrompt doc = A ++ (imageLine img ++ "\n") ++ B) ∧
    (img.Alt ≠ "" → imageLine img = "[이미지: " ++ img.Alt ++ ", 경로: " ++ img.Path ++ "]") ∧
    (img.Alt = "" → imageLine img = "[이미지: " ++ img.ID ++ ", 경로: " ++ img.Path ++ "]") := by
  refine ⟨?_, ?_, ?_⟩
  · obtain ⟨pre, post, hc⟩ := List.append_of_mem h
    obtain ⟨A, B, hA, hAB⟩ := buildCompactPrompt_split doc.Metadata pre (Block.Image img) post
    refine ⟨A, B, hA, ?_⟩
    have hd : doc = ⟨doc.Metadata, pre ++ Block.Image img :: post⟩ := by
      rw [← hc]
    rw [hd, hAB]
    dsimp only
    rw [writeImagePrompt_eq]
  · intro ha
    unfold imageLine
    rw [if_neg ha]
  · intro ha
    unfold imageLine
    rw [if_pos ha]

theorem compact_prompt_image_witness :
    Block.Image imageTest ∈
      (⟨⟨"", ""⟩, [Block.Paragraph (NewParagraph "본문"), Block.Image imageTest]⟩ :
        Document).Content ∧
    BuildCompactPrompt ⟨⟨"", ""⟩, [Block.Paragraph (NewParagraph "본문"), Block.Image imageTest]⟩ =
      "다음 문서를 Markdown으로 변환:\n\n본문\n\n[이미지: 테스트 이미지, 경로: images/test.png]\n" ∧
    ∃ A B : String, EndsWithNewline A ∧
      BuildCompactPrompt
          ⟨⟨"", ""⟩, [Block.Paragraph (NewParagraph "본문"), Block.Image imageTest]⟩ =
        A ++ (imageLine imageTest ++ "\n") ++ B :=
  ⟨by decide, by decide,
    (compact_prompt_image
      ⟨⟨"", ""⟩, [Block.Paragraph (NewParagraph "본문"), Block.Image imageTest]⟩ imageTest
      (by decide)).1⟩

/-- C25. For each hosted provider, with the environment as the input `getenv`: `New`
returns an error exactly when the API key is empty in the configuration and in the
environment variable of the provider; a provider that `New` returns holds the key of the
configuration when that is not empty and the key of the environment otherwise, its client
is made with that key, and `Validate` reports no error for it. -/
theorem hosted_provider_api_key (getenv : String → String) :
    (∀ cfg : Anthropic.Config,
      ((∃ e, Anthropic.New getenv cfg = .error e) ↔
        (cfg.APIKey = "" ∧ getenv "ANTHROPIC_API_KEY" = "")) ∧
      ∀ p, Anthropic.New getenv cfg = .ok p →
        p.apiKey = (if cfg.APIKey ≠ "" then cfg.APIKey else getenv "ANTHROPIC_API_KEY") ∧
        p.client.APIKey = p.apiKey ∧ Anthropic.Validate p = none) ∧
    (∀ cfg : Openai.Config,
      ((∃ e, Openai.New getenv cfg = .error e) ↔
        (cfg.APIKey = "" ∧ getenv "OPENAI_API_KEY" = "")) ∧
      ∀ p, Openai.New getenv cfg = .ok p →
        p.apiKey = (if cfg.APIKey ≠ "" then cfg.APIKey else getenv "OPENAI_API_KEY") ∧
        (∃ c, p.client = some c ∧ c.authToken = p.apiKey) ∧ Openai.Validate p = none) ∧
    (∀ cfg : Upstage.Config,
      ((∃ e, Upstage.New getenv cfg = .error e) ↔
        (cfg.APIKey = "" ∧ getenv "UPSTAGE_API_KEY" = "")) ∧
      ∀ p, Upstage.New getenv cfg = .ok p →
        p.apiKey = (if cfg.APIKey ≠ "" then cfg.APIKey else getenv "UPSTAGE_API_KEY") ∧
        (∃ c, p.client = some c ∧ c.authToken = p.apiKey) ∧ Upstage.Validate p = none) := by
  refine ⟨?_, ?_, ?_⟩
  · intro cfg
    by_cases hk : cfg.APIKey = ""
    · by_cases he : getenv "ANTHROPIC_API_KEY" = ""
      · have hnew : ∃ e, Anthropic.New getenv cfg = .error e := by
          unfold Anthropic.New
          dsimp only
          rw [if_pos hk, if_pos he]
          exact ⟨_, rfl⟩
        refine ⟨⟨fun _ => ⟨hk, he⟩, fun _ => hnew⟩, ?_⟩
        intro p hp
        obtain ⟨e, h2⟩ := hnew
        rw [h2] at hp
        cases hp
      · have hnew : ∃ p, Anthropic.New getenv cfg = .ok p ∧ p.apiKey = getenv "ANTHROPIC_API_KEY" ∧
            p.client.APIKey = p.apiKey := by
          unfold Anthropic.New
          dsimp only
          rw [if_pos hk, if_neg he]
          exact ⟨_, rfl, rfl, rfl⟩
        obtain ⟨q, hq, hq1, hq2⟩ := hnew
        refine ⟨⟨?_, fun hc => absurd hc.2 he⟩, ?_⟩
        · rintro ⟨e, h2⟩
          rw [hq] at h2
          cases h2
        · intro p hp
          rw [hq] at hp
          simp only [Except.ok.injEq] at hp
          subst hp
          refine ⟨?_, hq2, ?_⟩
          · rw [if_neg (fun hc => hc hk)]
            exact hq1
          · unfold Anthropic.Validate
            rw [hq1, if_neg he]
    · have hnew : ∃ p, Anthropic.New getenv cfg = .ok p ∧ p.apiKey = cfg.APIKey ∧
          p.client.APIKey = p.apiKey := by
        unfold Anthropic.New
        dsimp only
        rw [if_neg hk, if_neg hk]
        exact ⟨_, rfl, rfl, rfl⟩
      obtain ⟨q, hq, hq1, hq2⟩ := hnew
      refine ⟨⟨?_, fun hc => absurd hc.1 hk⟩, ?_⟩
      · rintro ⟨e, h2⟩
        rw [hq] at h2
        cases h2
      · intro p hp
        rw [hq] at hp
        simp only [Except.ok.injEq] at hp
        subst hp
        refine ⟨?_, hq2, ?_⟩
        · rw [if_pos hk]
          exact hq1
        · unfold Anthropic.Validate
          rw [hq1, if_neg hk]
  · intro cfg
    by_cases hk : cfg.APIKey = ""
    · by_cases he : getenv "OPENAI_API_KEY" = ""
      · have hnew : ∃ e, Openai.New getenv cfg = .error e := by
          unfold Openai.New
          dsimp only
          rw [if_pos hk, if_pos he]
          exact ⟨_, rfl⟩
        refine ⟨⟨fun _ => ⟨hk, he⟩, fun _ => hnew⟩, ?_⟩
        intro p hp
        obtain ⟨e, h2⟩ := hnew
        rw [h2] at hp
        cases hp
      · have hnew : ∃ p, Openai.New getenv cfg = .ok p ∧ p.apiKey = getenv "OPENAI_API_KEY" ∧
            (∃ c, p.client = some c ∧ c.authToken = p.apiKey) := by
          unfold Openai.New
          dsimp only
          rw [if_pos hk, if_neg he]
          exact ⟨_, rfl, rfl, ⟨_, rfl, rfl⟩⟩
        obtain ⟨q, hq, hq1, hq2⟩ := hnew
        refine ⟨⟨?_, fun hc => absurd hc.2 he⟩, ?_⟩
        · rintro ⟨e, h2⟩
          rw [hq] at h2
          cases h2
        · intro p hp
          rw [hq] at hp
          simp only [Except.ok.injEq] at hp
          subst hp
          refine ⟨?_, hq2, ?_⟩
          · rw [if_neg (fun hc => hc hk)]
            exact hq1
          · unfold Openai.Validate
            obtain ⟨c, hc1, -⟩ := hq2
            rw [hc1, if_neg (by simp), hq1, if_neg he]
    · have hnew : ∃ p, Openai.New getenv cfg = .ok p ∧ p.apiKey = cfg.APIKey ∧
          (∃ c, p.client = some c ∧ c.authToken = p.apiKey) := by
        unfold Openai.New
        dsimp only
        rw [if_neg hk, if_neg hk]
        exact ⟨_, rfl, rfl, ⟨_, rfl, rfl⟩⟩
      obtain ⟨q, hq, hq1, hq2⟩ := hnew
      refine ⟨⟨?_, fun hc => absurd hc.1 hk⟩, ?_⟩
      · rintro ⟨e, h2⟩
        rw [hq] at h2
        cases h2
      · intro p hp
        rw [hq] at hp
        simp only [Except.ok.injEq] at hp
        subst hp
        refine ⟨?_, hq2, ?_⟩
        · rw [if_pos hk]
          exact hq1
        · unfold Openai.Validate
          obtain ⟨c, hc1, -⟩ := hq2
          rw [hc1, if_neg (by simp), hq1, if_neg hk]
  · intro cfg
    by_cases hk : cfg.APIKey = ""
    · by_cases he : getenv "UPSTAGE_API_KEY" = ""
      · have hnew : ∃ e, Upstage.New getenv cfg = .error e := by
          unfold Upstage.New
          dsimp only
          rw [if_pos hk, if_pos he]
          exact ⟨_, rfl⟩
        refine ⟨⟨fun _ => ⟨hk, he⟩, fun _ => hnew⟩, ?_⟩
        intro p hp
        obtain ⟨e, h2⟩ := hnew
        rw [h2] at hp
        cases hp
      · have hnew : ∃ p, Upstage.New getenv cfg = .ok p ∧ p.apiKey = getenv "UPSTAGE_API_KEY" ∧
            (∃ c, p.client = some c ∧ c.authToken = p.apiKey) := by
          unfold Upstage.New
          dsimp only
          rw [if_pos hk, if_neg he]
          exact ⟨_, rfl, rfl, ⟨_, rfl, rfl⟩⟩
        obtain ⟨q, hq, hq1, hq2⟩ := hnew
        refine ⟨⟨?_, fun hc => absurd hc.2 he⟩, ?_⟩
        · rintro ⟨e, h2⟩
          rw [hq] at h2
          cases h2
        · intro p hp
          rw [hq] at hp
          simp only [Except.ok.injEq] at hp
          subst hp
          refine ⟨?_, hq2, ?_⟩
          · rw [if_neg (fun hc => hc hk)]
            exact hq1
          · unfold Upstage.Validate
            obtain ⟨c, hc1, -⟩ := hq2
            rw [hc1, if_neg (by simp), hq1, if_neg he]
    · have hnew : ∃ p, Upstage.New getenv cfg = .ok p ∧ p.apiKey = cfg.APIKey ∧
          (∃ c, p.client = some c ∧ c.authToken = p.apiKey) := by
        unfold Upstage.New
        dsimp only
        rw [if_neg hk, if_neg hk]
        exact ⟨_, rfl, rfl, ⟨_, rfl, rfl⟩⟩
      obtain ⟨q, hq, hq1, hq2⟩ := hnew
      refine ⟨⟨?_, fun hc => absurd hc.1 hk⟩, ?_⟩
      · rintro ⟨e, h2⟩
        rw [hq] at h2
        cases h2
      · intro p hp
        rw [hq] at hp
        simp only [Except.ok.injEq] at hp
        subst hp
        refine ⟨?_, hq2, ?_⟩
        · rw [if_pos hk]
          exact hq1
        · unfold Upstage.Validate
          obtain ⟨c, hc1, -⟩ := hq2
          rw [hc1, if_neg (by simp), hq1, if_neg hk]

end Hwpx
